import Mathlib

/-!
Verification development for the route-optimization core of the
`maps_tourn-es_camions` repository (OpenStreetMapRoutingService and its
cache manager).

The TypeScript source is shallowly embedded:

* JavaScript numbers are idealized as exact arithmetic: coordinates,
  provider payloads and cache timestamps are rationals / integers, and
  distances and durations computed by the haversine formula are real
  numbers (the trigonometric functions force `noncomputable` there).
* `Map` objects are association lists in insertion order, mirroring the
  iteration-order guarantees of JavaScript `Map`.
* The two network providers (OpenRouteService, OSRM) are modelled by an
  environment that either returns a parsed response for a pair of stops
  or fails (`none`), covering network errors, non-2xx statuses and
  malformed bodies alike.  The ORS encoded-polyline decoding step is not
  claim-relevant and the environment carries the decoded coordinates.
* The two `while` loops of the nearest-neighbour family make no progress
  in an iteration that finds no candidate, hence loop forever in the
  source; such runs are modelled as `none`, while `some r` models a run
  of the loop that terminates with result `r`.
* The location-sequencing strategy functions only use the haversine
  distance through sums and comparisons, so they are stated over an
  arbitrary linear ordered field and an arbitrary distance function and
  instantiated with `ℝ` and `calculateDistance`; this lets concrete
  executions be evaluated exactly on a rational distance table that is a
  positive multiple of the haversine values at the points in question.
-/

set_option maxRecDepth 20000

namespace RouteOpt

/-! ## Data model (src/types/index.ts) -/

structure Coordinates where
  latitude : ℚ
  longitude : ℚ
deriving DecidableEq, Repr

inductive VehicleType where
  | car
  | truck
deriving DecidableEq, Repr

inductive OptimizationMethod where
  | shortest_distance
  | fastest_time
  | balanced
deriving DecidableEq, Repr

structure Location where
  id : String
  address : String
  coordinates : Option Coordinates
  isLocked : Option Bool
  order : Option Int
deriving DecidableEq, Repr

/-- GeoJSON LineString geometry (coordinate pairs are longitude, latitude). -/
structure GeoLineString where
  coordinates : List (ℚ × ℚ)
deriving DecidableEq, Repr

structure RouteSegment where
  fromLoc : Location
  toLoc : Location
  distance : ℝ
  duration : ℝ
  instructions : List String
  polyline : Option GeoLineString

structure Route where
  id : String
  locations : List Location
  totalDistance : ℝ
  totalDuration : ℝ
  vehicleType : VehicleType
  isLoop : Bool
  segments : List RouteSegment
  optimizationMethod : OptimizationMethod

structure RouteOptimizationRequest where
  locations : List Location
  vehicleType : VehicleType
  isLoop : Bool
  optimizationMethod : OptimizationMethod

structure ResponseMetadata where
  calculationTime : Int
  algorithm : String
  apiProvider : String

structure RouteOptimizationResponse where
  route : Route
  metadata : ResponseMetadata

/-! ## JavaScript `Map` as an insertion-ordered association list -/

/-- `Map.get`: value of the first (and, in well-formed states, only)
entry for the key. -/
def mapGet {β : Type} (m : List (String × β)) (k : String) : Option β :=
  (m.find? (fun p => p.1 == k)).map (·.2)

/-- `Map.set`: replace the value in place if the key is present
(preserving its position in iteration order), otherwise append. -/
def mapSet {β : Type} (m : List (String × β)) (k : String) (v : β) :
    List (String × β) :=
  if m.any (fun p => p.1 == k) then
    m.map (fun p => if p.1 == k then (k, v) else p)
  else
    m ++ [(k, v)]

/-- `Map.delete`: remove the first entry for the key. -/
def mapDelete {β : Type} (m : List (String × β)) (k : String) :
    List (String × β) :=
  m.eraseP (fun p => p.1 == k)

/-! ## Segment cache (service `segmentCache` / `segmentCacheOrder`) -/

/-- Maximum number of segments kept in the cache
(`MAX_SEGMENT_CACHE_SIZE`). -/
def MAX_SEGMENT_CACHE_SIZE : Nat := 100

/-- The mutable pair of fields `segmentCache` (a `Map`) and
`segmentCacheOrder` (an array tracking insertion order). -/
structure SegCacheState where
  cache : List (String × RouteSegment)
  order : List String

def emptySegState : SegCacheState := ⟨[], []⟩

/-- `generateSegmentKey(from, to, vehicleType)`. -/
def generateSegmentKey (fromLoc toLoc : Location) (vt : VehicleType) : String :=
  fromLoc.id ++ "-" ++ toLoc.id ++ "-" ++
    (match vt with | .car => "car" | .truck => "truck")

/-- `clearSegmentCache()`: the source clears only the `Map`; the
`segmentCacheOrder` array is left untouched. -/
def clearSegmentCache (st : SegCacheState) : SegCacheState :=
  { cache := [], order := st.order }

/-- The eviction `while` loop inside `cacheSegment`: while the map holds
at least `MAX_SEGMENT_CACHE_SIZE` entries and the order record is
nonempty, shift the oldest key and delete it from the map. -/
def evictLoopGo (cache : List (String × RouteSegment)) :
    List String → SegCacheState
  | [] => ⟨cache, []⟩
  | k :: rest =>
    if MAX_SEGMENT_CACHE_SIZE ≤ cache.length then
      evictLoopGo (mapDelete cache k) rest
    else
      ⟨cache, k :: rest⟩

def evictLoop (st : SegCacheState) : SegCacheState :=
  evictLoopGo st.cache st.order

/-- `cacheSegment(key, segment)`: evict while full, then insert and
record the insertion order. -/
def cacheSegment (key : String) (seg : RouteSegment) (st : SegCacheState) :
    SegCacheState :=
  let st' := evictLoop st
  { cache := mapSet st'.cache key seg, order := st'.order ++ [key] }

/-- The cache interactions a run of `calculateSegment` can perform: a
lookup (returning the cached segment, no mutation) or — on a miss — the
computation of a fresh segment followed by `cacheSegment`.  A `put` of a
key that is already present models the hit path and leaves the state
unchanged, exactly as the source never calls `cacheSegment` for a key it
just found. -/
inductive SegOp where
  | get (key : String)
  | put (key : String) (seg : RouteSegment)

def segStep (st : SegCacheState) : SegOp → SegCacheState
  | .get _ => st
  | .put key seg =>
    match mapGet st.cache key with
    | some _ => st
    | none => cacheSegment key seg st

def runSegOps (ops : List SegOp) : SegCacheState :=
  ops.foldl segStep emptySegState

/-- Well-formedness of the segment-cache pair as maintained by
`cacheSegment` alone (before any `clearSegmentCache` desynchronizes the
two fields): the order record lists exactly the map keys, oldest
first, without duplicates, and the map never exceeds capacity. -/
def SegWF (st : SegCacheState) : Prop :=
  st.order = st.cache.map (·.1) ∧ st.order.Nodup ∧
    st.cache.length ≤ MAX_SEGMENT_CACHE_SIZE

/-! ## Cache manager (src/utils/cacheManager.ts) -/

/-- Decimal digits of a natural number, most significant first, with
explicit structural fuel so that evaluation reduces definitionally.  The
fuel `n + 1` always suffices since a number shrinks strictly under
division by ten. -/
def natDigitsAux : ℕ → ℕ → List Char
  | 0, _ => []
  | fuel + 1, n =>
    if n < 10 then [Nat.digitChar n]
    else natDigitsAux fuel (n / 10) ++ [Nat.digitChar (n % 10)]

def natDigits (n : ℕ) : List Char := natDigitsAux (n + 1) n

/-- Exactly four fractional digits, zero padded on the left. -/
def pad4 (m : ℕ) : List Char :=
  List.replicate (4 - (natDigits m).length) '0' ++ natDigits m

/-- Decimal rendering of `m / 10000` with exactly four digits after the
decimal point. -/
def fmtScaled (m : ℕ) : List Char :=
  natDigits (m / 10000) ++ '.' :: pad4 (m % 10000)

/-- For `0 ≤ q`, the integer `n` minimizing `|n / 10^4 - q|`, choosing
the larger `n` on ties — the rounding `Number.prototype.toFixed(4)`
specifies.  Equals `⌊q * 10^4 + 1/2⌋`, computed on the reduced
numerator/denominator pair. -/
def roundScaled (q : ℚ) : ℕ :=
  ((q.num * 20000 + (q.den : ℤ)) / (2 * (q.den : ℤ))).toNat

/-- Character list of `x.toFixed(4)` for a JavaScript number modelled
as a rational: the sign is split off first, then the magnitude is
rounded to four decimal places (ES2023 `Number.prototype.toFixed`,
steps 9-10). -/
def toFixed4Data (q : ℚ) : List Char :=
  if q < 0 then '-' :: fmtScaled (roundScaled (-q))
  else fmtScaled (roundScaled q)

def toFixed4 (q : ℚ) : String := String.mk (toFixed4Data q)

def vtData : VehicleType → List Char
  | .car => ['c', 'a', 'r']
  | .truck => ['t', 'r', 'u', 'c', 'k']

def methodData : OptimizationMethod → List Char
  | .shortest_distance =>
    ['s', 'h', 'o', 'r', 't', 'e', 's', 't', '_',
     'd', 'i', 's', 't', 'a', 'n', 'c', 'e']
  | .fastest_time =>
    ['f', 'a', 's', 't', 'e', 's', 't', '_', 't', 'i', 'm', 'e']
  | .balanced => ['b', 'a', 'l', 'a', 'n', 'c', 'e', 'd']

def boolData : Bool → List Char
  | true => ['t', 'r', 'u', 'e']
  | false => ['f', 'a', 'l', 's', 'e']

/-- The per-location fragment of the route fingerprint:
`lat.toFixed(4) + "_" + lon.toFixed(4)`, or the text produced by
interpolating `undefined` twice when the stop has no coordinates. -/
def locationTokenData (loc : Location) : List Char :=
  match loc.coordinates with
  | some c => toFixed4Data c.latitude ++ '_' :: toFixed4Data c.longitude
  | none =>
    ['u', 'n', 'd', 'e', 'f', 'i', 'n', 'e', 'd', '_',
     'u', 'n', 'd', 'e', 'f', 'i', 'n', 'e', 'd']

/-- `Array.prototype.join("-")`. -/
def joinTokensData : List (List Char) → List Char
  | [] => []
  | [t] => t
  | t :: ts => t ++ '-' :: joinTokensData ts

/-- Character list of `generateRouteKey(request)`:
`locationIds + "_" + vehicleType + "_" + optimizationMethod + "_" + isLoop`. -/
def keyData (r : RouteOptimizationRequest) : List Char :=
  ((joinTokensData (r.locations.map locationTokenData) ++
      '_' :: vtData r.vehicleType) ++
    '_' :: methodData r.optimizationMethod) ++
    '_' :: boolData r.isLoop

/-- `generateRouteKey(request)`. -/
def generateRouteKey (r : RouteOptimizationRequest) : String :=
  String.mk (keyData r)

/-- `ROUTE_CACHE_DURATION` in milliseconds. -/
def ROUTE_CACHE_DURATION : ℤ := 30 * 60 * 1000

structure RouteCacheEntry where
  route : Route
  timestamp : ℤ

/-- The module-level `routeCache` map, in insertion order. -/
abbrev RouteCacheState : Type := List (String × RouteCacheEntry)

/-- `cleanRouteCache()`: delete every entry strictly older than the
TTL. -/
def cleanRouteCache (cache : RouteCacheState) (now : ℤ) : RouteCacheState :=
  cache.filter (fun p => decide (now - p.2.timestamp ≤ ROUTE_CACHE_DURATION))

/-- `getCachedRoute(request)`: purge expired entries, then return a hit
only when it is still strictly within the TTL.  The returned pair also
carries the purged map, the mutation the source performs on the
module-level cache. -/
def getCachedRoute (r : RouteOptimizationRequest) (cache : RouteCacheState)
    (now : ℤ) : Option Route × RouteCacheState :=
  let cache' := cleanRouteCache cache now
  match mapGet cache' (generateRouteKey r) with
  | some e =>
    if now - e.timestamp < ROUTE_CACHE_DURATION then (some e.route, cache')
    else (none, cache')
  | none => (none, cache')

/-- Stable insertion of `x` into a list already sorted ascending by
`key`: `x` goes before the first element whose key is not smaller,
which keeps elements with equal keys in their original order. -/
def insertSortedBy {α : Type} (key : α → ℤ) (x : α) : List α → List α
  | [] => [x]
  | y :: ys =>
    if key y < key x then y :: insertSortedBy key x ys else x :: y :: ys

/-- A stable ascending sort, the behaviour ES2019+ guarantees for
`Array.prototype.sort` with a numeric comparator. -/
def stableSortBy {α : Type} (key : α → ℤ) (l : List α) : List α :=
  l.foldr (insertSortedBy key) []

/-- `setCachedRoute(request, route)`: insert or overwrite with the
current timestamp; then, if the map exceeds 50 entries, delete the
entry with the globally smallest timestamp (first such entry in
insertion order, per stable sort). -/
def setCachedRoute (r : RouteOptimizationRequest) (route : Route)
    (cache : RouteCacheState) (now : ℤ) : RouteCacheState :=
  let cache' := mapSet cache (generateRouteKey r) ⟨route, now⟩
  if 50 < cache'.length then
    match (stableSortBy (fun p => p.2.timestamp) cache').head? with
    | some oldest => mapDelete cache' oldest.1
    | none => cache'
  else cache'

/-! ## Geodesic calculator (`calculateDistance`, `degToRad`) -/

noncomputable def degToRad (deg : ℝ) : ℝ := deg * (Real.pi / 180)

/-- JavaScript `Math.atan2(y, x)`. -/
noncomputable def atan2 (y x : ℝ) : ℝ :=
  if 0 < x then Real.arctan (y / x)
  else if x < 0 then
    (if 0 ≤ y then Real.arctan (y / x) + Real.pi
     else Real.arctan (y / x) - Real.pi)
  else
    (if 0 < y then Real.pi / 2 else if y < 0 then -(Real.pi / 2) else 0)

/-- Haversine great-circle distance in kilometres on a 6371 km mean
Earth radius. -/
noncomputable def calculateDistance (c1 c2 : Coordinates) : ℝ :=
  let dLat := degToRad ((c2.latitude : ℝ) - (c1.latitude : ℝ))
  let dLon := degToRad ((c2.longitude : ℝ) - (c1.longitude : ℝ))
  let a := Real.sin (dLat / 2) * Real.sin (dLat / 2) +
    Real.cos (degToRad (c1.latitude : ℝ)) * Real.cos (degToRad (c2.latitude : ℝ)) *
      (Real.sin (dLon / 2) * Real.sin (dLon / 2))
  let c := 2 * atan2 (Real.sqrt a) (Real.sqrt (1 - a))
  6371 * c

/-! ## Provider environment and segment resolver -/

/-- A parsed OpenRouteService directions response: summary distance is
already in kilometres, duration in seconds; the encoded geometry is
carried already decoded into longitude-latitude pairs (the decoding
step itself is not claim-relevant). -/
structure OrsResponse where
  distance : ℚ
  duration : ℚ
  instructions : List String
  geometry : Option (List (ℚ × ℚ))

/-- A parsed OSRM response: distance in metres, duration in seconds,
GeoJSON geometry. -/
structure OsrmResponse where
  distance : ℚ
  duration : ℚ
  instructions : List String
  geometry : GeoLineString

/-- The external world as one run of the service sees it: whether an
OpenRouteService credential is configured, and, for each provider and
ordered pair of stops, either a parsed successful response or `none`
covering every failure mode (network error, non-2xx status, malformed
or empty body). -/
structure ProviderEnv where
  openRouteServiceApiKey : Bool
  ors : Location → Location → Option OrsResponse
  osrm : Location → Location → Option OsrmResponse
  routeId : String

/-- `calculateSegmentWithORS(from, to, cacheKey)`: heavy-goods-vehicle
routing; duration is converted from seconds to minutes, no synthetic
vehicle adjustment is applied, and the segment is cached. -/
noncomputable def calculateSegmentWithORS (env : ProviderEnv) (st : SegCacheState)
    (fromLoc toLoc : Location) (cacheKey : String) :
    Except String (RouteSegment × SegCacheState) :=
  match fromLoc.coordinates, toLoc.coordinates with
  | some _, some _ =>
    match env.ors fromLoc toLoc with
    | none => .error "OpenRouteService API error"
    | some resp =>
      let segment : RouteSegment :=
        { fromLoc := fromLoc, toLoc := toLoc,
          distance := (resp.distance : ℝ),
          duration := (resp.duration : ℝ) / 60,
          instructions := resp.instructions,
          polyline := resp.geometry.map GeoLineString.mk }
      .ok (segment, cacheSegment cacheKey segment st)
  | _, _ => .error "Les deux emplacements doivent avoir des coordonnées"

/-- `calculateSegment(from, to, vehicleType)`: cache lookup, then the
heavy-vehicle provider (trucks with a configured key only), then OSRM
with truck adjustment factors ×1.1 distance and ×1.4 duration, then the
geodesic straight-line fallback at 50 km/h for trucks and 70 km/h
otherwise.  Only missing coordinates make the call fail. -/
noncomputable def calculateSegment (env : ProviderEnv) (st : SegCacheState)
    (fromLoc toLoc : Location) (vt : VehicleType) :
    Except String (RouteSegment × SegCacheState) :=
  match fromLoc.coordinates, toLoc.coordinates with
  | some fc, some tc =>
    let cacheKey := generateSegmentKey fromLoc toLoc vt
    match mapGet st.cache cacheKey with
    | some cached => .ok (cached, st)
    | none =>
      let orsAttempt :=
        if vt = .truck ∧ env.openRouteServiceApiKey then
          match calculateSegmentWithORS env st fromLoc toLoc cacheKey with
          | .ok r => some r
          | .error _ => none
        else none
      match orsAttempt with
      | some r => .ok r
      | none =>
        match env.osrm fromLoc toLoc with
        | some resp =>
          let distance0 : ℝ := (resp.distance : ℝ) / 1000
          let duration0 : ℝ := (resp.duration : ℝ) / 60
          let distance := if vt = .truck then distance0 * (11 / 10) else distance0
          let duration := if vt = .truck then duration0 * (14 / 10) else duration0
          let segment : RouteSegment :=
            { fromLoc := fromLoc, toLoc := toLoc,
              distance := distance, duration := duration,
              instructions := resp.instructions,
              polyline := some resp.geometry }
          .ok (segment, cacheSegment cacheKey segment st)
        | none =>
          let distance := calculateDistance fc tc
          let estimatedSpeed : ℝ := if vt = .truck then 50 else 70
          let duration := distance / estimatedSpeed * 60
          let fallbackSegment : RouteSegment :=
            { fromLoc := fromLoc, toLoc := toLoc,
              distance := distance, duration := duration,
              instructions := ["Parcourir la ligne droite vers " ++ toLoc.address],
              polyline := none }
          .ok (fallbackSegment, cacheSegment cacheKey fallbackSegment st)
  | _, _ => .error "Les deux emplacements doivent avoir des coordonnées"

/-! ## Location sequencer

The nearest-neighbour family only consumes the distance function
through sums and strict comparisons, so the strategy functions are
parametrized by an arbitrary linear ordered field `K` and a distance
function `d`; the service functions below instantiate them with `ℝ`
and `calculateDistance`.  Each `while` loop that makes no progress in a
candidate-less iteration would spin forever in the source; such runs
are `none`.  Loops that remove one element per iteration recurse on a
fuel initialized to the number of elements to process, which is always
sufficient. -/

/-- The `for` loop selecting the strictly best-scoring candidate:
`nearest` starts `null`, `bestScore` starts `Infinity` (modelled as
`none`), candidates whose score is `none` are skipped (the `continue`
on missing coordinates), and only a strictly smaller score displaces
the incumbent, so the first optimum wins.  Returns the winner, its
score and its index. -/
def pickMinAux {K : Type} [LinearOrderedField K] (score : Location → Option K) :
    List Location → ℕ → Option (Location × K × ℕ) → Option (Location × K × ℕ)
  | [], _, best => best
  | loc :: rest, i, best =>
    match score loc with
    | none => pickMinAux score rest (i + 1) best
    | some s =>
      match best with
      | none => pickMinAux score rest (i + 1) (some (loc, s, i))
      | some (bl, bs, bi) =>
        if s < bs then pickMinAux score rest (i + 1) (some (loc, s, i))
        else pickMinAux score rest (i + 1) (some (bl, bs, bi))

def pickMin {K : Type} [LinearOrderedField K] (score : Location → Option K)
    (l : List Location) : Option (Location × K × ℕ) :=
  pickMinAux score l 0 none

/-- `estimateSpeed(distance)`. -/
def estimateSpeedD {K : Type} [LinearOrderedField K] (distance : K) : K :=
  if 10 < distance then 65 else if 5 < distance then 55 else 40

/-- Per-candidate score of `findNearestNeighborLoop`'s inner loop. -/
def fnnlScore {K : Type} [LinearOrderedField K]
    (d : Coordinates → Coordinates → K) (method : OptimizationMethod)
    (start current : Location) (remainingLen : ℕ) (loc : Location) :
    Option K :=
  match loc.coordinates, current.coordinates with
  | some lc, some cc =>
    let distance := d cc lc
    if remainingLen = 1 then
      match start.coordinates with
      | some sc =>
        let returnDistance := d lc sc
        match method with
        | .shortest_distance => some (distance + returnDistance)
        | .fastest_time =>
          let speed1 := estimateSpeedD distance
          let speed2 := estimateSpeedD returnDistance
          some (distance / speed1 * 60 + returnDistance / speed2 * 60)
        | .balanced =>
          let speed1 := estimateSpeedD distance
          let speed2 := estimateSpeedD returnDistance
          let time1 := distance / speed1 * 60
          let time2 := returnDistance / speed2 * 60
          some ((distance * (4 / 10) + time1 * (6 / 10)) +
            (returnDistance * (4 / 10) + time2 * (6 / 10)))
      | none => some distance
    else
      match method with
      | .shortest_distance => some distance
      | .fastest_time =>
        let speed := estimateSpeedD distance
        some (distance / speed * 60)
      | .balanced =>
        let speed := estimateSpeedD distance
        let time := distance / speed * 60
        some (distance * (4 / 10) + time * (6 / 10))
  | _, _ => none

/-- The `while` loop of `findNearestNeighborLoop`. -/
def fnnlGo {K : Type} [LinearOrderedField K]
    (d : Coordinates → Coordinates → K) (method : OptimizationMethod)
    (start : Location) :
    ℕ → Location → List Location → List Location → Option (List Location)
  | _, _, [], acc => some acc
  | 0, _, _ :: _, acc => some acc
  | fuel + 1, current, r :: rs, acc =>
    match pickMin (fnnlScore d method start current (r :: rs).length)
        (r :: rs) with
    | none => none
    | some (nearest, _, idx) =>
      fnnlGo d method start fuel nearest ((r :: rs).eraseIdx idx)
        (acc ++ [nearest])

/-- `findNearestNeighborLoop(start, others, method)`. -/
def findNearestNeighborLoopD {K : Type} [LinearOrderedField K]
    (d : Coordinates → Coordinates → K) (method : OptimizationMethod)
    (start : Location) (others : List Location) : Option (List Location) :=
  fnnlGo d method start others.length start others [start]

/-- Per-candidate score of the rest-optimizing loops of
`findFarthestFirstLoop` and `optimizeFromSecondLocation`: plain
distance, plus the return leg to `base` for the last placement when
`base` has coordinates. -/
def restScore {K : Type} [LinearOrderedField K]
    (d : Coordinates → Coordinates → K) (base current : Location)
    (remainingLen : ℕ) (loc : Location) : Option K :=
  match loc.coordinates, current.coordinates with
  | some lc, some cc =>
    let distance := d cc lc
    if remainingLen = 1 then
      match base.coordinates with
      | some bc => some (distance + d lc bc)
      | none => some distance
    else some distance
  | _, _ => none

/-- The shared `while` loop of `findFarthestFirstLoop` and
`optimizeFromSecondLocation`. -/
def restGo {K : Type} [LinearOrderedField K]
    (d : Coordinates → Coordinates → K) (base : Location) :
    ℕ → Location → List Location → List Location → Option (List Location)
  | _, _, [], acc => some acc
  | 0, _, _ :: _, acc => some acc
  | fuel + 1, current, r :: rs, acc =>
    match pickMin (restScore d base current (r :: rs).length) (r :: rs) with
    | none => none
    | some (nearest, _, idx) =>
      restGo d base fuel nearest ((r :: rs).eraseIdx idx) (acc ++ [nearest])

/-- The farthest-from-start selection loop: `maxDistance` starts at 0
and only a strictly greater distance displaces the incumbent. -/
def pickFarthest {K : Type} [LinearOrderedField K]
    (d : Coordinates → Coordinates → K) (start : Location) :
    List Location → Option Location × K → Option Location × K
  | [], best => best
  | loc :: rest, (farthest, maxDistance) =>
    match loc.coordinates, start.coordinates with
    | some lc, some sc =>
      let distance := d sc lc
      if maxDistance < distance then
        pickFarthest d start rest (some loc, distance)
      else pickFarthest d start rest (farthest, maxDistance)
    | _, _ => pickFarthest d start rest (farthest, maxDistance)

/-- `findFarthestFirstLoop(start, others)`. -/
def findFarthestFirstLoopD {K : Type} [LinearOrderedField K]
    (d : Coordinates → Coordinates → K) (start : Location)
    (others : List Location) : Option (List Location) :=
  match pickFarthest d start others (none, 0) with
  | (none, _) => some (start :: others)
  | (some farthest, _) =>
    let remaining := others.filter (fun loc => !(loc.id == farthest.id))
    restGo d start remaining.length farthest remaining [start, farthest]

/-- `optimizeFromSecondLocation(order)`. -/
def optimizeFromSecondLocationD {K : Type} [LinearOrderedField K]
    (d : Coordinates → Coordinates → K) (order : List Location) :
    Option (List Location) :=
  if order.length ≤ 2 then some order
  else
    match order with
    | o0 :: o1 :: rest => restGo d o0 rest.length o1 rest [o0, o1]
    | _ => some order

/-- The consecutive edges of a list closed into a loop. -/
def loopPairs (l : List Location) : List (Location × Location) :=
  match l with
  | [] => []
  | x :: xs => l.zip (xs ++ [x])

/-- `calculateCompleteLoopScore(locations, method)`: the score of the
tour including the wrap-around edge; edges with a missing endpoint are
skipped. -/
def calculateCompleteLoopScoreD {K : Type} [LinearOrderedField K]
    (d : Coordinates → Coordinates → K) (method : OptimizationMethod)
    (locations : List Location) : K :=
  (loopPairs locations).foldl
    (fun total p =>
      match p.1.coordinates, p.2.coordinates with
      | some fc, some tc =>
        let distance := d fc tc
        match method with
        | .shortest_distance => total + distance
        | .fastest_time =>
          let speed := estimateSpeedD distance
          total + distance / speed * 60
        | .balanced =>
          let speed := estimateSpeedD distance
          let time := distance / speed * 60
          total + (distance * (4 / 10) + time * (6 / 10))
      | _, _ => total)
    0

/-- Keep the candidate when its score strictly beats the best so far
(`Infinity` at the start, modelled as `none`). -/
def better {K : Type} [LinearOrderedField K] (cand : List Location × K)
    (best : List Location × Option K) : List Location × Option K :=
  match best.2 with
  | none => (cand.1, some cand.2)
  | some bs => if cand.2 < bs then (cand.1, some cand.2) else best

/-- The third strategy family of `loopAwareOptimization`: force
`others[i]` into second position for the first `min(others.length, 3)`
indices and optimize the rest. -/
def altLoop {K : Type} [LinearOrderedField K]
    (d : Coordinates → Coordinates → K) (method : OptimizationMethod)
    (start : Location) (others : List Location) :
    List ℕ → List Location × Option K → Option (List Location × Option K)
  | [], best => some best
  | i :: is, best =>
    match others.get? i with
    | none => some best
    | some oi =>
      let testOrder := start :: oi :: others.eraseIdx i
      match optimizeFromSecondLocationD d testOrder with
      | none => none
      | some reordered =>
        let score := calculateCompleteLoopScoreD d method reordered
        altLoop d method start others is (better (reordered, score) best)

/-- `loopAwareOptimization(locations, method)`: evaluate
nearest-first, farthest-first and the alternate-second strategies and
keep the lowest complete-loop score; ties resolve to the earliest
evaluated.  The unoptimized input order only seeds `bestOrder` against
an `Infinity` score and is displaced by the first strategy. -/
def loopAwareOptimizationD {K : Type} [LinearOrderedField K]
    (d : Coordinates → Coordinates → K) (locations : List Location)
    (method : OptimizationMethod) : Option (List Location) :=
  match locations with
  | [] => none
  | start :: others =>
    match findNearestNeighborLoopD d method start others with
    | none => none
    | some nearestFirst =>
      let nearestScore := calculateCompleteLoopScoreD d method nearestFirst
      let best1 := better (nearestFirst, nearestScore) (locations, none)
      match findFarthestFirstLoopD d start others with
      | none => none
      | some farthestFirst =>
        let farthestScore := calculateCompleteLoopScoreD d method farthestFirst
        let best2 := better (farthestFirst, farthestScore) best1
        match altLoop d method start others
            (List.range (min others.length 3)) best2 with
        | none => none
        | some best3 => some best3.1

/-- Per-candidate score of the standard nearest-neighbour loop. -/
def nnScore {K : Type} [LinearOrderedField K]
    (d : Coordinates → Coordinates → K) (method : OptimizationMethod)
    (visited : List String) (current : Location) (loc : Location) :
    Option K :=
  if visited.contains loc.id then none
  else
    match loc.coordinates, current.coordinates with
    | some lc, some cc =>
      let distance := d cc lc
      match method with
      | .shortest_distance => some distance
      | .fastest_time =>
        let baseSpeed : K := 50
        let speedMultiplier : K :=
          if 10 < distance then 13 / 10
          else if 5 < distance then 11 / 10 else 8 / 10
        let adjustedSpeed := baseSpeed * speedMultiplier
        some (distance / adjustedSpeed * 60)
      | .balanced =>
        let estimatedSpeed : K := 55
        let time := distance / estimatedSpeed * 60
        some (distance * (4 / 10) + time * (6 / 10))
    | _, _ => none

/-- The `while (visited.size < locations.length)` loop of the standard
nearest-neighbour ordering.  An iteration that finds no candidate
changes nothing, so the source loop never terminates; this is the
`none` result, reached directly from the candidate search (the fuel,
initialized to `locations.length`, never runs out on a terminating
run because every iteration visits a fresh id). -/
def nnGo {K : Type} [LinearOrderedField K]
    (d : Coordinates → Coordinates → K) (method : OptimizationMethod)
    (locations : List Location) :
    ℕ → List String → List Location → Location → Option (List Location)
  | fuel, visited, acc, current =>
    if visited.length < locations.length then
      match fuel with
      | 0 => none
      | fuel + 1 =>
        match pickMin (nnScore d method visited current) locations with
        | none => none
        | some (nearest, _, _) =>
          nnGo d method locations fuel (nearest.id :: visited)
            (acc ++ [nearest]) nearest
    else some acc

/-- `nearestNeighborOptimization(locations, method, isLoop)`. -/
def nearestNeighborOptimizationD {K : Type} [LinearOrderedField K]
    (d : Coordinates → Coordinates → K) (locations : List Location)
    (method : OptimizationMethod) (isLoop : Bool) : Option (List Location) :=
  if locations.length ≤ 1 then some locations
  else if isLoop ∧ 3 ≤ locations.length then
    loopAwareOptimizationD d locations method
  else
    match locations with
    | [] => some []
    | l0 :: _ => nnGo d method locations locations.length [l0.id] [l0] l0

noncomputable def estimateSpeed (distance : ℝ) : ℝ := estimateSpeedD distance

noncomputable def findNearestNeighborLoop (method : OptimizationMethod)
    (start : Location) (others : List Location) : Option (List Location) :=
  findNearestNeighborLoopD calculateDistance method start others

noncomputable def findFarthestFirstLoop (start : Location)
    (others : List Location) : Option (List Location) :=
  findFarthestFirstLoopD calculateDistance start others

noncomputable def optimizeFromSecondLocation (order : List Location) :
    Option (List Location) :=
  optimizeFromSecondLocationD calculateDistance order

noncomputable def calculateCompleteLoopScore (locations : List Location)
    (method : OptimizationMethod) : ℝ :=
  calculateCompleteLoopScoreD calculateDistance method locations

noncomputable def loopAwareOptimization (locations : List Location)
    (method : OptimizationMethod) : Option (List Location) :=
  loopAwareOptimizationD calculateDistance locations method

noncomputable def nearestNeighborOptimization (locations : List Location)
    (method : OptimizationMethod) (isLoop : Bool) : Option (List Location) :=
  nearestNeighborOptimizationD calculateDistance locations method isLoop

/-! ## Scored order search (`calculateOrderScore`, permutations,
`advancedOptimization`) -/

/-- The edges scored by `calculateOrderScore`: consecutive pairs, plus
the wrap-around edge when looping. -/
def scorePairs (locations : List Location) (isLoop : Bool) :
    List (Location × Location) :=
  if isLoop then loopPairs locations else locations.zip locations.tail

/-- `calculateOrderScore(locations, method, isLoop, vehicleType)`:
resolve each edge through `calculateSegment` and accumulate the
method's measure; a failing resolution falls back to a haversine
estimate (with this function's own speed constants), and the segment
cache is threaded through the sequence of calls. -/
noncomputable def calculateOrderScore (env : ProviderEnv) (st : SegCacheState)
    (locations : List Location) (method : OptimizationMethod) (isLoop : Bool)
    (vt : VehicleType) : ℝ × SegCacheState :=
  if locations.length = 0 then (0, st)
  else
    (scorePairs locations isLoop).foldl
      (fun acc p =>
        match p.1.coordinates, p.2.coordinates with
        | some fc, some tc =>
          match calculateSegment env acc.2 p.1 p.2 vt with
          | .ok (segment, st') =>
            match method with
            | .shortest_distance => (acc.1 + segment.distance, st')
            | .fastest_time => (acc.1 + segment.duration, st')
            | .balanced =>
              (acc.1 + (segment.distance * (4 / 10) +
                segment.duration * (6 / 10)), st')
          | .error _ =>
            let distance := calculateDistance fc tc
            match method with
            | .shortest_distance => (acc.1 + distance, acc.2)
            | .fastest_time =>
              let estimatedSpeed : ℝ := if vt = .truck then 50 else 65
              (acc.1 + distance / estimatedSpeed * 60, acc.2)
            | .balanced =>
              let estimatedSpeed : ℝ := if vt = .truck then 55 else 60
              let time := distance / estimatedSpeed * 60
              (acc.1 + (distance * (4 / 10) + time * (6 / 10)), acc.2)
        | _, _ => acc)
      (0, st)

def factorial : ℕ → ℕ
  | 0 => 1
  | n + 1 => (n + 1) * factorial n

/-- The recursive `permute` helper: depth-first in index order,
stopping as soon as `maxCount` permutations are collected. -/
def permuteGo {α : Type} (maxCount : ℕ) :
    ℕ → List α → List α → List (List α) → List (List α)
  | fuel, current, remaining, acc =>
    if maxCount ≤ acc.length then acc
    else
      match remaining with
      | [] => acc ++ [current]
      | _ :: _ =>
        match fuel with
        | 0 => acc
        | fuel + 1 =>
          (List.range remaining.length).foldl
            (fun a i =>
              match remaining.get? i with
              | some next =>
                permuteGo maxCount fuel (current ++ [next])
                  (remaining.eraseIdx i) a
              | none => a)
            acc

/-- `generatePermutations(arr, maxCount)`. -/
def generatePermutations {α : Type} (arr : List α) (maxCount : ℕ) :
    List (List α) :=
  (permuteGo maxCount arr.length [] arr []).take maxCount

/-- One iteration of the permutation-scoring loop of
`advancedOptimization`. -/
noncomputable def advStep (env : ProviderEnv) (method : OptimizationMethod)
    (isLoop : Bool) (vt : VehicleType)
    (acc : (List Location × Option ℝ) × SegCacheState)
    (p : List Location) : (List Location × Option ℝ) × SegCacheState :=
  let scored' := calculateOrderScore env acc.2 p method isLoop vt
  (better (p, scored'.1) acc.1, scored'.2)

/-- `advancedOptimization(locations, method, isLoop, vehicleType)`:
seed with the nearest-neighbour result, then try up to
`min(min(n!, 120), 20)` permutations for at most six stops, keeping the
lowest `calculateOrderScore`. -/
noncomputable def advancedOptimization (env : ProviderEnv)
    (st : SegCacheState) (locations : List Location)
    (method : OptimizationMethod) (isLoop : Bool) (vt : VehicleType) :
    Option (List Location × SegCacheState) :=
  if locations.length ≤ 1 then some (locations, st)
  else
    let maxPermutations := min (factorial locations.length) 120
    match nearestNeighborOptimization locations method isLoop with
    | none => none
    | some nearestNeighborResult =>
      let scored := calculateOrderScore env st nearestNeighborResult method
        isLoop vt
      let best1 := better (K := ℝ) (nearestNeighborResult, scored.1)
        (locations, none)
      if locations.length ≤ 6 then
        let permutations := generatePermutations locations
          (min maxPermutations 20)
        let final := permutations.foldl (advStep env method isLoop vt)
          (best1, scored.2)
        some (final.1.1, final.2)
      else some (best1.1, scored.2)

/-! ## Orchestrator (`optimizeLocationOrder`, `calculateRouteSegments`,
`calculateRoute`) -/

/-- The sort key `(a.order || 0)` of the all-locked branch. -/
def orderKey (loc : Location) : ℤ := loc.order.getD 0

/-- The re-interleaving loop of `optimizeLocationOrder`: for each index
`i` in input order, place the locked stop found with `order === i`, and
otherwise the next optimized stop if any remain. -/
def mergeLockedAux (locked : List Location) :
    List ℕ → List Location → List Location
  | [], _ => []
  | i :: rest, opt =>
    match locked.find? (fun loc => loc.order == some (i : ℤ)) with
    | some l => l :: mergeLockedAux locked rest opt
    | none =>
      match opt with
      | [] => mergeLockedAux locked rest []
      | o :: os => o :: mergeLockedAux locked rest os

/-- `optimizeLocationOrder(locations, method, isLoop, vehicleType)`. -/
noncomputable def optimizeLocationOrder (env : ProviderEnv)
    (st : SegCacheState) (locations : List Location)
    (method : OptimizationMethod) (isLoop : Bool) (vt : VehicleType) :
    Option (List Location × SegCacheState) :=
  if locations.length ≤ 2 then some (locations, st)
  else
    let lockedLocations := locations.filter (fun loc => loc.isLocked == some true)
    let unlockedLocations :=
      locations.filter (fun loc => !(loc.isLocked == some true))
    if unlockedLocations.length = 0 then
      some (stableSortBy orderKey locations, st)
    else
      let optimizedResult :=
        if unlockedLocations.length ≤ 8 then
          advancedOptimization env st unlockedLocations method isLoop vt
        else
          (nearestNeighborOptimization unlockedLocations method isLoop).map
            (fun l => (l, st))
      match optimizedResult with
      | none => none
      | some (optimized, st') =>
        some (mergeLockedAux lockedLocations (List.range locations.length)
          optimized, st')

/-- One iteration of the segment-assembly `for` loop. -/
noncomputable def crsStep (env : ProviderEnv) (vt : VehicleType)
    (acc : Except String (List RouteSegment × SegCacheState))
    (p : Location × Location) :
    Except String (List RouteSegment × SegCacheState) :=
  match acc with
  | .error e => .error e
  | .ok (segments, st') =>
    match calculateSegment env st' p.1 p.2 vt with
    | .error e => .error e
    | .ok (segment, st'') => .ok (segments ++ [segment], st'')

/-- `calculateRouteSegments(locations, vehicleType, isLoop)`. -/
noncomputable def calculateRouteSegments (env : ProviderEnv)
    (st : SegCacheState) (locations : List Location) (vt : VehicleType)
    (isLoop : Bool) : Except String (List RouteSegment × SegCacheState) :=
  let mainLoop := (locations.zip locations.tail).foldl (crsStep env vt)
    (.ok ([], st))
  match mainLoop with
  | .error e => .error e
  | .ok (segments, st') =>
    if isLoop ∧ 2 < locations.length then
      match locations.getLast?, locations.head? with
      | some last, some first =>
        match calculateSegment env st' last first vt with
        | .error e => .error e
        | .ok (returnSegment, st'') =>
          .ok (segments ++ [returnSegment], st'')
      | _, _ => .ok (segments, st')
    else .ok (segments, st')

/-- The French message joining of missing-coordinate addresses. -/
def joinWith (sep : String) : List String → String
  | [] => ""
  | [s] => s
  | s :: rest => s ++ sep ++ joinWith sep rest

/-- `calculateRoute(request)`: route-cache lookup first, then clearing
of the segment cache, then the two precondition checks, optimization,
segment assembly, totals as sums over the produced segments, and the
route-cache write.  `none` models a non-terminating run of one of the
nearest-neighbour loops; thrown errors are wrapped by the `catch` into
`Impossible de calculer le trajet: …`.  One `now` instant stands for
both timestamp draws of a run. -/
noncomputable def calculateRoute (env : ProviderEnv) (segSt : SegCacheState)
    (routeCache : RouteCacheState) (now : ℤ)
    (request : RouteOptimizationRequest) :
    Option (Except String
      (RouteOptimizationResponse × SegCacheState × RouteCacheState)) :=
  let looked := getCachedRoute request routeCache now
  match looked.1 with
  | some cachedRoute =>
    some (.ok (⟨cachedRoute, ⟨0, "cache-hit", "Cache"⟩⟩, segSt, looked.2))
  | none =>
    let st0 := clearSegmentCache segSt
    let missingCoordinates :=
      request.locations.filter (fun loc => loc.coordinates.isNone)
    if missingCoordinates.length ≠ 0 then
      some (.error ("Impossible de calculer le trajet: " ++
        "Les emplacements suivants n'ont pas de coordonnées : " ++
        joinWith ", " (missingCoordinates.map (·.address))))
    else if request.locations.length < 2 then
      some (.error ("Impossible de calculer le trajet: " ++
        "Au moins 2 emplacements sont requis pour calculer un trajet"))
    else
      match optimizeLocationOrder env st0 request.locations
          request.optimizationMethod request.isLoop request.vehicleType with
      | none => none
      | some (optimizedLocations, st1) =>
        match calculateRouteSegments env st1 optimizedLocations
            request.vehicleType request.isLoop with
        | .error e =>
          some (.error ("Impossible de calculer le trajet: " ++ e))
        | .ok (segments, st2) =>
          let route : Route :=
            { id := env.routeId,
              locations := optimizedLocations,
              totalDistance := segments.foldl (fun s seg => s + seg.distance) 0,
              totalDuration := segments.foldl (fun s seg => s + seg.duration) 0,
              vehicleType := request.vehicleType,
              isLoop := request.isLoop,
              segments := segments,
              optimizationMethod := request.optimizationMethod }
          let cache2 := setCachedRoute request route looked.2 now
          some (.ok (⟨route, ⟨0, "openstreetmap-free", "nominatim+osrm"⟩⟩,
            st2, cache2))

/-- Decimal digit characters. -/
def digitChars : List Char :=
  ['0', '1', '2', '3', '4', '5', '6', '7', '8', '9']

/-- Characters that can occur in a `toFixed(4)` rendering. -/
def fChars : List Char := '-' :: '.' :: digitChars

/-- The token grammar of fingerprint fragments of located stops. -/
def TokG (t : List Char) : Prop :=
  ∃ a b : ℚ, t = toFixed4Data a ++ '_' :: toFixed4Data b

/-- Every stop of the request carries coordinates. -/
def AllCoords (r : RouteOptimizationRequest) : Prop :=
  ∀ loc ∈ r.locations, loc.coordinates.isSome

/-- Scans a character list for an adjacent `'u'`, `'n'` pair — the
marker of the text `undefined` interpolated into a fingerprint. -/
def hasUN : List Char → Bool
  | [] => false
  | [_] => false
  | a :: b :: rest => (a == 'u' && b == 'n') || hasUN (b :: rest)

/-- The boundary term of `hasUN` over an append. -/
def unBoundary (x y : List Char) : Bool :=
  (x.getLast? == some 'u') && (y.head? == some 'n')

/-- A request acceptable to `calculateRoute`: every stop has
coordinates and there are at least two stops. -/
def ValidReq (r : RouteOptimizationRequest) : Prop :=
  AllCoords r ∧ 2 ≤ r.locations.length

/-- Every key of the route cache is the fingerprint of some valid
request — the invariant maintained by the orchestrator, which calls
`setCachedRoute` only after validation succeeded. -/
def CacheKeysValid (cache : RouteCacheState) : Prop :=
  ∀ p ∈ cache, ∃ r', ValidReq r' ∧ p.1 = generateRouteKey r'

/-- The wrapped precondition message `calculateRoute` rejects an
invalid request with. -/
def preconditionMessage (request : RouteOptimizationRequest) : String :=
  if (request.locations.filter (fun loc => loc.coordinates.isNone)).length ≠ 0
  then
    "Impossible de calculer le trajet: " ++
      "Les emplacements suivants n'ont pas de coordonnées : " ++
      joinWith ", "
        ((request.locations.filter (fun loc => loc.coordinates.isNone)).map
          (·.address))
  else
    "Impossible de calculer le trajet: " ++
      "Au moins 2 emplacements sont requis pour calculer un trajet"

/-! ## Concrete fixtures used by witnesses and counterexamples -/

def locA : Location := ⟨"A", "1 rue Alpha", some ⟨0, 0⟩, none, none⟩

def locB : Location := ⟨"B", "2 rue Beta", some ⟨0, 0⟩, none, none⟩

def segAB : RouteSegment := ⟨locA, locB, 0, 0, [], none⟩

/-- One hundred distinct insertions, filling the segment cache to its
capacity, interleaved with nothing but further bookkeeping in the
theorems that use it. -/
def c5ops : List SegOp :=
  (List.range MAX_SEGMENT_CACHE_SIZE).map (fun i => SegOp.put (Nat.repr i) segAB)

/-- A stop near Notre-Dame; its latitude differs from `locP2`'s only in
the fifth decimal place. -/
def locP1 : Location :=
  ⟨"P", "6 Parvis Notre-Dame", some ⟨mkRat 4885661 100000, mkRat 23522 10000⟩,
    none, none⟩

def locP2 : Location :=
  ⟨"P", "6 Parvis Notre-Dame", some ⟨mkRat 4885662 100000, mkRat 23522 10000⟩,
    none, none⟩

def locQ : Location := ⟨"Q", "10 Downing Street", some ⟨51, -1⟩, none, none⟩

def reqCx1 : RouteOptimizationRequest := ⟨[locP1, locQ], .car, false, .balanced⟩

def reqCx2 : RouteOptimizationRequest := ⟨[locP2, locQ], .car, false, .balanced⟩

def routeCx : Route := ⟨"route_1", [locP1, locQ], 0, 0, .car, false, [], .balanced⟩

def reqTruck : RouteOptimizationRequest := ⟨[locP1, locQ], .truck, false, .balanced⟩

/-- An environment in which both network tiers fail on every call,
although an OpenRouteService credential is configured. -/
def envFail : ProviderEnv := ⟨true, fun _ _ => none, fun _ _ => none, "route_test"⟩

/-- A stop without coordinates. -/
def locX : Location := ⟨"X", "Adresse non géocodée", none, none, none⟩

/-- An invalid request: its only stop has no coordinates. -/
def reqBad : RouteOptimizationRequest := ⟨[locX], .car, false, .balanced⟩

def locZ1 : Location := ⟨"Z1", "Dépôt", some ⟨0, 0⟩, none, none⟩

def locZ2 : Location := ⟨"Z2", "Retour dépôt", some ⟨0, 0⟩, none, none⟩

/-- The straight-line estimate `calculateSegment` degrades to when both
network tiers fail: haversine distance, speed 50 km/h for trucks and
70 km/h otherwise, no polyline. -/
noncomputable def fallbackSegment (f t : Location) (fc tc : Coordinates)
    (vt : VehicleType) : RouteSegment :=
  { fromLoc := f, toLoc := t,
    distance := calculateDistance fc tc,
    duration := calculateDistance fc tc / (if vt = .truck then 50 else 70) * 60,
    instructions := ["Parcourir la ligne droite vers " ++ t.address],
    polyline := none }

/-- The structural invariant of a produced `Route`: one segment per
consecutive pair for a non-loop route, one per stop for a loop route of
at least three stops, and totals that are exactly the sums over the
produced segments. -/
def RouteInv (route : Route) : Prop :=
  (route.isLoop = false → route.segments.length = route.locations.length - 1) ∧
  (route.isLoop = true → 3 ≤ route.locations.length →
    route.segments.length = route.locations.length) ∧
  route.totalDistance = (route.segments.map (·.distance)).sum ∧
  route.totalDuration = (route.segments.map (·.duration)).sum

/-- Every route stored in the cache satisfies the structural invariant
— maintained by the orchestrator, the cache's only writer. -/
def CacheRoutesValid (cache : RouteCacheState) : Prop :=
  ∀ p ∈ cache, RouteInv p.2.route

def reqC1 : RouteOptimizationRequest :=
  ⟨[locZ1, locZ2], .car, false, .shortest_distance⟩

noncomputable def c1Seg : RouteSegment :=
  fallbackSegment locZ1 locZ2 ⟨0, 0⟩ ⟨0, 0⟩ .car

noncomputable def c1Route : Route :=
  { id := "route_test", locations := [locZ1, locZ2],
    totalDistance := 0 + c1Seg.distance, totalDuration := 0 + c1Seg.duration,
    vehicleType := .car, isLoop := false, segments := [c1Seg],
    optimizationMethod := .shortest_distance }

def lkA : Location := ⟨"KA", "rue KA", some ⟨0, 0⟩, some true, some 1⟩

def lkB : Location := ⟨"KB", "rue KB", some ⟨0, 0⟩, some true, some 0⟩

def lkC : Location := ⟨"KC", "rue KC", some ⟨0, 0⟩, some true, some 2⟩

/-- A locked stop whose position index lies beyond the stop count. -/
def lkBad : Location := ⟨"KX", "rue KX", some ⟨0, 0⟩, some true, some 5⟩

def lk0w : Location := ⟨"W0", "rue W0", some ⟨0, 0⟩, some true, some 0⟩

def lk2w : Location := ⟨"W2", "rue W2", some ⟨0, 0⟩, some true, some 2⟩

/-- An unlocked stop. -/
def uW : Location := ⟨"WU", "rue WU", some ⟨0, 0⟩, none, none⟩

/-- The locked stops whose position index lies in `idxs` — those the
re-interleaving loop will place. -/
def lockedMatched (locked : List Location) (idxs : List ℕ) :
    List Location :=
  locked.filter (fun l => idxs.any (fun i => l.order == some (i : ℤ)))

/-- Planar cross product of the edges `p→q` and `q→r` in the
longitude-latitude plane. -/
def crossZ (p q r : Coordinates) : ℚ :=
  (q.longitude - p.longitude) * (r.latitude - q.latitude) -
    (q.latitude - p.latitude) * (r.longitude - q.longitude)

/-- Four stops with coordinates whose input order traces a strictly
convex quadrilateral in the longitude-latitude plane. -/
def ConvexQuad (locations : List Location) : Prop :=
  ∃ a b c d ca cb cc cd, locations = [a, b, c, d] ∧
    a.coordinates = some ca ∧ b.coordinates = some cb ∧
    c.coordinates = some cc ∧ d.coordinates = some cd ∧
    ((0 < crossZ ca cb cc ∧ 0 < crossZ cb cc cd ∧
      0 < crossZ cc cd ca ∧ 0 < crossZ cd ca cb) ∨
     (crossZ ca cb cc < 0 ∧ crossZ cb cc cd < 0 ∧
      crossZ cc cd ca < 0 ∧ crossZ cd ca cb < 0))

/-- The recorded score of a tracked best order, when present, is the
complete-loop score of the recorded order. -/
def ScoreInv {K : Type} [LinearOrderedField K]
    (f : List Location → K) (best : List Location × Option K) : Prop :=
  ∀ s, best.2 = some s → f best.1 = s

/-- Four stops on the single great circle through the poles and the
meridians 0° and 180°, at circle positions −20°, −10°, 100° and 250°. -/
def gA : Location := ⟨"GA", "rue GA", some ⟨-20, 0⟩, none, none⟩

def gB : Location := ⟨"GB", "rue GB", some ⟨-10, 0⟩, none, none⟩

def gC : Location := ⟨"GC", "rue GC", some ⟨80, 180⟩, none, none⟩

def gD : Location := ⟨"GD", "rue GD", some ⟨-70, 180⟩, none, none⟩

/-- Position on that great circle, in degrees. -/
def thetaQ (c : Coordinates) : ℚ :=
  if c.longitude = 0 then c.latitude else 180 - c.latitude

/-- Central angle between two stops of that great circle, in
degrees — the rational surrogate the real haversine distance is a
fixed positive multiple of on these four stops. -/
def dq (p q : Coordinates) : ℚ :=
  min |thetaQ p - thetaQ q| (360 - |thetaQ p - thetaQ q|)

/-! Nine unlocked stops on the same great circle for the duplicate-id
run: a start and six further stops at circle position 0°, and two
stops sharing the id `GF` at positions 150° (latitude 30, longitude
180) and −80° (latitude −80, longitude 0). -/

def gS : Location := ⟨"GS", "rue GS", some ⟨0, 0⟩, none, none⟩

def g1 : Location := ⟨"G1", "rue G1", some ⟨0, 0⟩, none, none⟩

def g2 : Location := ⟨"G2", "rue G2", some ⟨0, 0⟩, none, none⟩

def g3 : Location := ⟨"G3", "rue G3", some ⟨0, 0⟩, none, none⟩

def g4 : Location := ⟨"G4", "rue G4", some ⟨0, 0⟩, none, none⟩

def g5 : Location := ⟨"G5", "rue G5", some ⟨0, 0⟩, none, none⟩

def g6 : Location := ⟨"G6", "rue G6", some ⟨0, 0⟩, none, none⟩

def gF1 : Location := ⟨"GF", "rue GF1", some ⟨30, 180⟩, none, none⟩

def gF2 : Location := ⟨"GF", "rue GF2", some ⟨-80, 0⟩, none, none⟩

def locations9 : List Location := [gS, g1, g2, g3, g4, g5, g6, gF1, gF2]

/-- The order the sequencer returns on `locations9` in loop mode: the
farthest-first strategy wins the race, and its id-based candidate
filter has dropped `gF2`. -/
def dropped9 : List Location := [gS, gF1, g1, g2, g3, g4, g5, g6]

/-- Scaling a tracked `pickMin` triple from rational surrogate scores
to real ones. -/
noncomputable def trip (k : ℝ) (t : Location × ℚ × ℕ) :
    Location × ℝ × ℕ :=
  (t.1, k * (t.2.1 : ℝ), t.2.2)

/-! ## Theorems -/

theorem mapGet_eq_none_iff {β : Type} (m : List (String × β)) (k : String) :
    mapGet m k = none ↔ ∀ p ∈ m, p.1 ≠ k := by
  simp [mapGet, List.find?_eq_none]

theorem mapSet_of_absent {β : Type} (m : List (String × β)) (k : String) (v : β)
    (h : ∀ p ∈ m, p.1 ≠ k) : mapSet m k v = m ++ [(k, v)] := by
  have : m.any (fun p => p.1 == k) = false := by
    simp only [List.any_eq_false]
    intro p hp
    simpa using h p hp
  simp [mapSet, this]

theorem evictLoop_of_small (st : SegCacheState)
    (h : st.cache.length < MAX_SEGMENT_CACHE_SIZE) : evictLoop st = st := by
  obtain ⟨cache, order⟩ := st
  simp only at h
  cases order with
  | nil => simp [evictLoop, evictLoopGo]
  | cons k rest =>
    simp only [evictLoop, evictLoopGo]
    rw [if_neg (Nat.not_le.mpr h)]

/-- With a well-formed full cache, the eviction loop removes exactly the
head entry (the oldest insertion) of both structures. -/
theorem evictLoop_full (st : SegCacheState) (hwf : SegWF st)
    (hfull : MAX_SEGMENT_CACHE_SIZE ≤ st.cache.length) :
    evictLoop st = ⟨st.cache.tail, st.order.tail⟩ := by
  obtain ⟨horder, _, hle⟩ := hwf
  obtain ⟨cache, order⟩ := st
  simp only at horder hle hfull ⊢
  cases cache with
  | nil => simp [MAX_SEGMENT_CACHE_SIZE] at hfull
  | cons p rest =>
    subst horder
    have hdel : mapDelete (p :: rest) p.1 = rest := by
      simp [mapDelete, List.eraseP_cons_of_pos]
    have hsmall : rest.length < MAX_SEGMENT_CACHE_SIZE := by
      simp at hle; omega
    have hrest := evictLoop_of_small ⟨rest, rest.map (·.1)⟩ hsmall
    simp only [evictLoop, List.map_cons, evictLoopGo, if_pos hfull, hdel] at hrest ⊢
    exact hrest

/-- FIFO eviction: inserting a fresh key into a well-formed, full cache
drops the oldest entry and appends the new one at the back. -/
theorem cacheSegment_full (st : SegCacheState) (key : String)
    (seg : RouteSegment) (hwf : SegWF st)
    (hfresh : mapGet st.cache key = none)
    (hfull : MAX_SEGMENT_CACHE_SIZE ≤ st.cache.length) :
    cacheSegment key seg st =
      ⟨st.cache.tail ++ [(key, seg)], st.order.tail ++ [key]⟩ := by
  have hev := evictLoop_full st hwf hfull
  have hfresh' : ∀ p ∈ st.cache.tail, p.1 ≠ key := by
    intro p hp
    exact (mapGet_eq_none_iff st.cache key).mp hfresh p (List.mem_of_mem_tail hp)
  simp only [cacheSegment, hev]
  rw [mapSet_of_absent _ _ _ hfresh']

theorem segWF_step (st : SegCacheState) (op : SegOp) (hwf : SegWF st) :
    SegWF (segStep st op) := by
  obtain ⟨horder, hnodup, hle⟩ := hwf
  cases op with
  | get _ => exact ⟨horder, hnodup, hle⟩
  | put key seg =>
    simp only [segStep]
    cases hget : mapGet st.cache key with
    | some _ => exact ⟨horder, hnodup, hle⟩
    | none =>
      have hfresh := (mapGet_eq_none_iff st.cache key).mp hget
      have hkeyfree : key ∉ st.cache.map (·.1) := by
        intro hmem
        obtain ⟨p, hp, hpeq⟩ := List.mem_map.mp hmem
        exact hfresh p hp hpeq
      by_cases hfull : MAX_SEGMENT_CACHE_SIZE ≤ st.cache.length
      · rw [cacheSegment_full st key seg ⟨horder, hnodup, hle⟩ hget hfull]
        refine ⟨?_, ?_, ?_⟩
        · simp [horder, List.map_tail]
        · rw [horder]
          have htl : (st.cache.map (·.1)).tail.Nodup := by
            rw [← horder]; exact hnodup.tail
          refine List.Nodup.append htl (by simp) ?_
          intro a ha hb
          simp only [List.mem_singleton] at hb; subst hb
          exact hkeyfree (List.mem_of_mem_tail ha)
        · show (st.cache.tail ++ [(key, seg)]).length ≤ MAX_SEGMENT_CACHE_SIZE
          have hline : st.cache.length = MAX_SEGMENT_CACHE_SIZE :=
            le_antisymm hle hfull
          simp only [List.length_append, List.length_singleton, List.length_tail,
            hline, MAX_SEGMENT_CACHE_SIZE]
          norm_num
      · push_neg at hfull
        simp only [cacheSegment, evictLoop_of_small st hfull]
        rw [mapSet_of_absent _ _ _ hfresh]
        refine ⟨by simp [horder], ?_,
          by simp only [List.length_append, List.length_singleton]; omega⟩
        rw [horder]
        refine List.Nodup.append (by rw [← horder]; exact hnodup) (by simp) ?_
        intro a ha hb
        simp only [List.mem_singleton] at hb; subst hb
        exact hkeyfree ha

theorem segWF_foldl (ops : List SegOp) (st : SegCacheState) (hwf : SegWF st) :
    SegWF (ops.foldl segStep st) := by
  induction ops generalizing st with
  | nil => exact hwf
  | cons op rest ih => exact ih _ (segWF_step st op hwf)

theorem segWF_runSegOps (ops : List SegOp) : SegWF (runSegOps ops) :=
  segWF_foldl ops emptySegState ⟨rfl, List.nodup_nil, by simp [emptySegState]⟩

/-- C4: the claim states that clearing the segment cache empties both
the key-to-segment map and the insertion-order record.  The source's
`clearSegmentCache` only calls `this.segmentCache.clear()` and never
resets `this.segmentCacheOrder`, so after a clear the order record still
holds every key of the previous run: evaluating the code on a state
holding one cached segment, the map is emptied but the order record
still contains the old key. -/
theorem c4_clearSegmentCache_leaves_order :
    (clearSegmentCache ⟨[("A-B-car", segAB)], ["A-B-car"]⟩).cache = [] ∧
    (clearSegmentCache ⟨[("A-B-car", segAB)], ["A-B-car"]⟩).order = ["A-B-car"] ∧
    ("A-B-car" :: ([] : List String)) ≠ [] := by
  exact ⟨rfl, rfl, by simp⟩

/-- C5: from any sequence of segment-cache operations starting at the
empty state, inserting a fresh key once the cache holds
`MAX_SEGMENT_CACHE_SIZE` entries evicts exactly the head of the
insertion-order record, which is the key of the oldest map entry (strict
FIFO); and a `get` of a cached segment never changes the cache state, so
accesses cannot influence the eviction order. -/
theorem c5_segmentCache_fifo (ops : List SegOp) (key : String)
    (seg : RouteSegment)
    (hfresh : mapGet (runSegOps ops).cache key = none)
    (hfull : MAX_SEGMENT_CACHE_SIZE ≤ (runSegOps ops).cache.length) :
    cacheSegment key seg (runSegOps ops) =
      ⟨(runSegOps ops).cache.tail ++ [(key, seg)],
       (runSegOps ops).order.tail ++ [key]⟩ ∧
    (runSegOps ops).order.head? = ((runSegOps ops).cache.head?).map (·.1) ∧
    ∀ k, segStep (runSegOps ops) (SegOp.get k) = runSegOps ops := by
  have hwf := segWF_runSegOps ops
  refine ⟨cacheSegment_full _ key seg hwf hfresh hfull, ?_, fun _ => rfl⟩
  rw [hwf.1]
  cases (runSegOps ops).cache <;> simp

theorem digitChar_mem_digitChars (m : ℕ) (h : m < 10) :
    Nat.digitChar m ∈ digitChars := by
  interval_cases m <;> decide

theorem natDigitsAux_ne_nil (fuel n : ℕ) (h : n < fuel) :
    natDigitsAux fuel n ≠ [] := by
  cases fuel with
  | zero => omega
  | succ f =>
    by_cases h10 : n < 10
    · simp [natDigitsAux, h10]
    · simp [natDigitsAux, h10]

theorem mem_natDigitsAux (fuel n : ℕ) (h : n < fuel) :
    ∀ c ∈ natDigitsAux fuel n, c ∈ digitChars := by
  induction fuel generalizing n with
  | zero => omega
  | succ f ih =>
    intro c hc
    by_cases h10 : n < 10
    · simp only [natDigitsAux, if_pos h10, List.mem_singleton] at hc
      exact hc ▸ digitChar_mem_digitChars n h10
    · simp only [natDigitsAux, if_neg h10, List.mem_append,
        List.mem_singleton] at hc
      rcases hc with hc | hc
      · exact ih (n / 10) (by omega) c hc
      · exact hc ▸ digitChar_mem_digitChars _ (Nat.mod_lt n (by norm_num))

theorem length_natDigitsAux_le (fuel n k : ℕ) (h : n < fuel) (hk : 1 ≤ k)
    (hn : n < 10 ^ k) : (natDigitsAux fuel n).length ≤ k := by
  induction fuel generalizing n k with
  | zero => omega
  | succ f ih =>
    by_cases h10 : n < 10
    · simp [natDigitsAux, if_pos h10]; omega
    · have hk2 : 2 ≤ k := by
        by_contra hlt
        have hk1 : k = 1 := by omega
        rw [hk1] at hn; simp at hn; omega
      have hdiv : n / 10 < 10 ^ (k - 1) := by
        have h1 : 10 ^ k = 10 ^ (k - 1) * 10 := by
          rw [← pow_succ]
          congr 1
          omega
        rw [Nat.div_lt_iff_lt_mul (by norm_num)]
        omega
      simp only [natDigitsAux, if_neg h10, List.length_append,
        List.length_singleton]
      have := ih (n / 10) (k - 1) (by omega) (by omega) hdiv
      omega

theorem natDigits_ne_nil (n : ℕ) : natDigits n ≠ [] :=
  natDigitsAux_ne_nil (n + 1) n (Nat.lt_succ_self n)

theorem mem_natDigits (n : ℕ) : ∀ c ∈ natDigits n, c ∈ digitChars :=
  mem_natDigitsAux (n + 1) n (Nat.lt_succ_self n)

theorem length_pad4 (m : ℕ) (h : m < 10000) : (pad4 m).length = 4 := by
  have hle : (natDigits m).length ≤ 4 :=
    length_natDigitsAux_le (m + 1) m 4 (Nat.lt_succ_self m) (by norm_num)
      (by norm_num; omega)
  simp [pad4]
  omega

theorem mem_pad4 (m : ℕ) : ∀ c ∈ pad4 m, c ∈ digitChars := by
  intro c hc
  simp only [pad4, List.mem_append] at hc
  rcases hc with hc | hc
  · have := List.eq_of_mem_replicate hc
    subst this; decide
  · exact mem_natDigits m c hc

/-- Structure of a `toFixed(4)` rendering: a dot-free part over sign
and digit characters, then a dot, then exactly four digits. -/
theorem toFixed4Data_decomp (q : ℚ) :
    ∃ u w, toFixed4Data q = u ++ '.' :: w ∧
      (∀ c ∈ u, c ∈ '-' :: digitChars) ∧
      (∀ c ∈ w, c ∈ digitChars) ∧ w.length = 4 := by
  have hmod : ∀ m : ℕ, m % 10000 < 10000 := fun m => Nat.mod_lt m (by norm_num)
  by_cases hq : q < 0
  · refine ⟨'-' :: natDigits (roundScaled (-q) / 10000),
      pad4 (roundScaled (-q) % 10000), ?_, ?_, mem_pad4 _, length_pad4 _ (hmod _)⟩
    · simp [toFixed4Data, if_pos hq, fmtScaled]
    · intro c hc
      simp only [List.mem_cons] at hc
      rcases hc with hc | hc
      · simp [hc]
      · simp only [List.mem_cons]
        exact Or.inr (mem_natDigits _ c hc)
  · refine ⟨natDigits (roundScaled q / 10000),
      pad4 (roundScaled q % 10000), ?_, ?_, mem_pad4 _, length_pad4 _ (hmod _)⟩
    · simp [toFixed4Data, if_neg hq, fmtScaled]
    · intro c hc
      simp only [List.mem_cons]
      exact Or.inr (mem_natDigits _ c hc)

theorem mem_toFixed4Data (q : ℚ) : ∀ c ∈ toFixed4Data q, c ∈ fChars := by
  obtain ⟨u, w, heq, hu, hw, _⟩ := toFixed4Data_decomp q
  intro c hc
  rw [heq] at hc
  simp only [List.mem_append, List.mem_cons] at hc
  rcases hc with hc | hc | hc
  · have := hu c hc
    simp only [List.mem_cons] at this
    rcases this with h | h
    · simp [fChars, h]
    · simp [fChars, h]
  · simp [fChars, hc]
  · simp [fChars, hw c hc]

theorem underscore_not_mem_toFixed4Data (q : ℚ) : '_' ∉ toFixed4Data q := by
  intro h
  have := mem_toFixed4Data q '_' h
  simp [fChars, digitChars] at this

/-- Aligning two appends on the first occurrence of a separator that
occurs in neither left part. -/
theorem sepAlign (c : Char) :
    ∀ (u₁ u₂ t₁ t₂ : List Char), c ∉ u₁ → c ∉ u₂ →
      u₁ ++ c :: t₁ = u₂ ++ c :: t₂ → u₁ = u₂ ∧ t₁ = t₂ := by
  intro u₁
  induction u₁ with
  | nil =>
    intro u₂ t₁ t₂ _ h2 heq
    cases u₂ with
    | nil => simpa using heq
    | cons b bs =>
      simp only [List.nil_append, List.cons_append, List.cons.injEq] at heq
      exact absurd (heq.1 ▸ List.mem_cons_self b bs) h2
  | cons a as ih =>
    intro u₂ t₁ t₂ h1 h2 heq
    cases u₂ with
    | nil =>
      simp only [List.cons_append, List.nil_append, List.cons.injEq] at heq
      exact absurd (heq.1 ▸ List.mem_cons_self a as) h1
    | cons b bs =>
      simp only [List.cons_append, List.cons.injEq] at heq
      obtain ⟨hab, heq'⟩ := heq
      have h1' : c ∉ as := fun hm => h1 (List.mem_cons_of_mem a hm)
      have h2' : c ∉ bs := fun hm => h2 (List.mem_cons_of_mem b hm)
      obtain ⟨hu, ht⟩ := ih bs t₁ t₂ h1' h2' heq'
      exact ⟨by rw [hab, hu], ht⟩

/-- Determinism of `toFixed(4)` renderings as leading parts: if two of
them start the same character stream, they are equal. -/
theorem toFixed4Data_det (a b : ℚ) (r s : List Char)
    (h : toFixed4Data a ++ r = toFixed4Data b ++ s) :
    toFixed4Data a = toFixed4Data b ∧ r = s := by
  obtain ⟨u₁, w₁, hF₁, hu₁, _, hl₁⟩ := toFixed4Data_decomp a
  obtain ⟨u₂, w₂, hF₂, hu₂, _, hl₂⟩ := toFixed4Data_decomp b
  have hdot₁ : '.' ∉ u₁ := by
    intro hm
    have := hu₁ '.' hm
    simp [digitChars] at this
  have hdot₂ : '.' ∉ u₂ := by
    intro hm
    have := hu₂ '.' hm
    simp [digitChars] at this
  rw [hF₁, hF₂] at h
  simp only [List.append_assoc, List.cons_append] at h
  obtain ⟨hu, hw⟩ := sepAlign '.' u₁ u₂ (w₁ ++ r) (w₂ ++ s) hdot₁ hdot₂ h
  obtain ⟨hww, hrs⟩ := List.append_inj hw (hl₁.trans hl₂.symm)
  refine ⟨?_, hrs⟩
  rw [hF₁, hF₂, hu, hww]

/-- Determinism of located-stop tokens as leading parts. -/
theorem tokG_det (t₁ t₂ : List Char) (r s : List Char)
    (h₁ : TokG t₁) (h₂ : TokG t₂) (h : t₁ ++ r = t₂ ++ s) :
    t₁ = t₂ ∧ r = s := by
  obtain ⟨a₁, b₁, rfl⟩ := h₁
  obtain ⟨a₂, b₂, rfl⟩ := h₂
  simp only [List.append_assoc, List.cons_append] at h
  obtain ⟨hlat, h'⟩ := sepAlign '_' _ _ _ _
    (underscore_not_mem_toFixed4Data a₁) (underscore_not_mem_toFixed4Data a₂) h
  obtain ⟨hlon, hrs⟩ := toFixed4Data_det b₁ b₂ r s h'
  exact ⟨by rw [hlat, hlon], hrs⟩

theorem tokG_ne_nil (t : List Char) (h : TokG t) : t ≠ [] := by
  obtain ⟨a, b, rfl⟩ := h
  obtain ⟨u, w, heq, -, -, -⟩ := toFixed4Data_decomp a
  rw [heq]
  simp

theorem joinTokensData_ne_nil (t : List Char) (ts : List (List Char))
    (h : t ≠ []) : joinTokensData (t :: ts) ≠ [] := by
  cases ts with
  | nil => simpa [joinTokensData] using h
  | cons t' ts' => simp [joinTokensData]

/-- `join("-")` is injective on lists of grammar tokens. -/
theorem joinTokensData_inj :
    ∀ (ts₁ ts₂ : List (List Char)), (∀ t ∈ ts₁, TokG t) → (∀ t ∈ ts₂, TokG t) →
      joinTokensData ts₁ = joinTokensData ts₂ → ts₁ = ts₂ := by
  intro ts₁
  induction ts₁ with
  | nil =>
    intro ts₂ _ hg₂ heq
    cases ts₂ with
    | nil => rfl
    | cons u us =>
      exact absurd heq.symm
        (joinTokensData_ne_nil u us (tokG_ne_nil u (hg₂ u (List.mem_cons_self u us))))
  | cons t ts ih =>
    intro ts₂ hg₁ hg₂ heq
    cases ts₂ with
    | nil =>
      exact absurd heq
        (joinTokensData_ne_nil t ts (tokG_ne_nil t (hg₁ t (List.mem_cons_self t ts))))
    | cons u us =>
      have hgt : TokG t := hg₁ t (List.mem_cons_self t ts)
      have hgu : TokG u := hg₂ u (List.mem_cons_self u us)
      cases ts with
      | nil =>
        cases us with
        | nil => simpa [joinTokensData] using heq
        | cons u₂ us₂ =>
          simp only [joinTokensData] at heq
          have h' : t ++ [] = u ++ '-' :: joinTokensData (u₂ :: us₂) := by
            simpa using heq
          obtain ⟨-, hctr⟩ := tokG_det t u _ _ hgt hgu h'
          exact absurd hctr.symm (by simp)
      | cons t₂ ts₂ =>
        cases us with
        | nil =>
          simp only [joinTokensData] at heq
          have h' : u ++ [] = t ++ '-' :: joinTokensData (t₂ :: ts₂) := by
            simpa using heq.symm
          obtain ⟨-, hctr⟩ := tokG_det u t _ _ hgu hgt h'
          exact absurd hctr.symm (by simp)
        | cons u₂ us₂ =>
          simp only [joinTokensData] at heq
          obtain ⟨hts, h'⟩ := tokG_det t u _ _ hgt hgu heq
          simp only [List.cons.injEq] at h'
          have := ih (u₂ :: us₂)
            (fun x hx => hg₁ x (List.mem_cons_of_mem t hx))
            (fun x hx => hg₂ x (List.mem_cons_of_mem u hx)) h'.2
          rw [hts, this]

theorem append_suffix_total {X₁ X₂ S₁ S₂ : List Char}
    (h : X₁ ++ S₁ = X₂ ++ S₂) : S₁ <:+ S₂ ∨ S₂ <:+ S₁ := by
  have h₁ : S₁ <:+ X₂ ++ S₂ := h ▸ List.suffix_append X₁ S₁
  have h₂ : S₂ <:+ X₂ ++ S₂ := List.suffix_append X₂ S₂
  exact List.suffix_or_suffix_of_suffix h₁ h₂

/-- Stripping a common suffix known to be one of finitely many words
none of which is a proper suffix of another. -/
theorem stripWord {X₁ X₂ S₁ S₂ : List Char} (h : X₁ ++ S₁ = X₂ ++ S₂)
    (hs : S₁ <:+ S₂ → S₁ = S₂) (hs' : S₂ <:+ S₁ → S₁ = S₂) :
    S₁ = S₂ ∧ X₁ = X₂ := by
  have hw : S₁ = S₂ := (append_suffix_total h).elim hs hs'
  subst hw
  exact ⟨rfl, List.append_cancel_right h⟩

theorem boolData_strip {X₁ X₂ : List Char} {b₁ b₂ : Bool}
    (h : X₁ ++ '_' :: boolData b₁ = X₂ ++ '_' :: boolData b₂) :
    b₁ = b₂ ∧ X₁ = X₂ := by
  cases b₁ <;> cases b₂ <;>
    first
      | exact ⟨rfl, (stripWord h (by decide) (by decide)).2⟩
      | exact absurd (stripWord h (by decide) (by decide)).1 (by decide)

theorem methodData_strip {X₁ X₂ : List Char} {m₁ m₂ : OptimizationMethod}
    (h : X₁ ++ '_' :: methodData m₁ = X₂ ++ '_' :: methodData m₂) :
    m₁ = m₂ ∧ X₁ = X₂ := by
  cases m₁ <;> cases m₂ <;>
    first
      | exact ⟨rfl, (stripWord h (by decide) (by decide)).2⟩
      | exact absurd (stripWord h (by decide) (by decide)).1 (by decide)

theorem vtData_strip {X₁ X₂ : List Char} {v₁ v₂ : VehicleType}
    (h : X₁ ++ '_' :: vtData v₁ = X₂ ++ '_' :: vtData v₂) :
    v₁ = v₂ ∧ X₁ = X₂ := by
  cases v₁ <;> cases v₂ <;>
    first
      | exact ⟨rfl, (stripWord h (by decide) (by decide)).2⟩
      | exact absurd (stripWord h (by decide) (by decide)).1 (by decide)

theorem locationTokenData_tokG (loc : Location) (h : loc.coordinates.isSome) :
    TokG (locationTokenData loc) := by
  obtain ⟨c, hc⟩ := Option.isSome_iff_exists.mp h
  exact ⟨c.latitude, c.longitude, by simp [locationTokenData, hc]⟩

/-- Fingerprint injectivity for validatable requests: equal fingerprints
force equal vehicle types, methods, loop flags, and equal per-stop
coordinate tokens. -/
theorem keyData_inj (r₁ r₂ : RouteOptimizationRequest)
    (hc₁ : AllCoords r₁) (hc₂ : AllCoords r₂)
    (h : keyData r₁ = keyData r₂) :
    r₁.locations.map locationTokenData = r₂.locations.map locationTokenData ∧
      r₁.vehicleType = r₂.vehicleType ∧
      r₁.optimizationMethod = r₂.optimizationMethod ∧
      r₁.isLoop = r₂.isLoop := by
  simp only [keyData] at h
  obtain ⟨hb, h⟩ := boolData_strip h
  obtain ⟨hm, h⟩ := methodData_strip h
  obtain ⟨hv, h⟩ := vtData_strip h
  refine ⟨?_, hv, hm, hb⟩
  exact joinTokensData_inj _ _
    (fun t ht => by
      obtain ⟨loc, hloc, rfl⟩ := List.mem_map.mp ht
      exact locationTokenData_tokG loc (hc₁ loc hloc))
    (fun t ht => by
      obtain ⟨loc, hloc, rfl⟩ := List.mem_map.mp ht
      exact locationTokenData_tokG loc (hc₂ loc hloc))
    h

theorem mapGet_clean_subst (m : RouteCacheState) (k : String)
    (e : RouteCacheEntry) (now : ℤ)
    (hkeep : now - e.timestamp ≤ ROUTE_CACHE_DURATION)
    (hex : ∃ p ∈ m, p.1 = k) :
    mapGet (cleanRouteCache
      (m.map (fun p => if p.1 == k then (k, e) else p)) now) k = some e := by
  induction m with
  | nil => simp at hex
  | cons p m' ih =>
    simp only [List.map_cons, cleanRouteCache, List.filter_cons] at ih ⊢
    by_cases hpk : p.1 = k
    · rw [if_pos (show (p.1 == k) = true by simpa using hpk)]
      rw [if_pos (show decide (now - (⟨k, e⟩ : String × RouteCacheEntry).2.timestamp
            ≤ ROUTE_CACHE_DURATION) = true by simpa using hkeep)]
      simp only [mapGet]
      rw [List.find?_cons_of_pos _ (by simp)]
      rfl
    · rw [if_neg (show ¬ (p.1 == k) = true by simpa using hpk)]
      have hex' : ∃ q ∈ m', q.1 = k := by
        obtain ⟨q, hq, hqk⟩ := hex
        rcases List.mem_cons.mp hq with rfl | hq'
        · exact absurd hqk hpk
        · exact ⟨q, hq', hqk⟩
      have ih' := ih hex'
      by_cases hkp : now - p.2.timestamp ≤ ROUTE_CACHE_DURATION
      · rw [if_pos (by simpa using hkp)]
        simp only [mapGet]
        rw [List.find?_cons_of_neg _ (by simpa using hpk)]
        exact ih'
      · rw [if_neg (by simpa using hkp)]
        exact ih'

theorem mapGet_clean_append (m' : RouteCacheState) (k : String)
    (e : RouteCacheEntry) (now : ℤ)
    (hkeep : now - e.timestamp ≤ ROUTE_CACHE_DURATION)
    (hfresh : ∀ p ∈ m', p.1 ≠ k) :
    mapGet (cleanRouteCache (m' ++ [(k, e)]) now) k = some e := by
  induction m' with
  | nil =>
    simp only [List.nil_append, cleanRouteCache, List.filter_cons]
    rw [if_pos (show decide (now - (⟨k, e⟩ : String × RouteCacheEntry).2.timestamp
          ≤ ROUTE_CACHE_DURATION) = true by simpa using hkeep)]
    simp only [mapGet]
    rw [List.find?_cons_of_pos _ (by simp)]
    rfl
  | cons p rest ih =>
    have hfresh' : ∀ q ∈ rest, q.1 ≠ k := fun q hq =>
      hfresh q (List.mem_cons_of_mem p hq)
    have hpk : p.1 ≠ k := hfresh p (List.mem_cons_self p rest)
    have ih' := ih hfresh'
    simp only [List.cons_append, cleanRouteCache, List.filter_cons] at ih' ⊢
    by_cases hkp : now - p.2.timestamp ≤ ROUTE_CACHE_DURATION
    · rw [if_pos (by simpa using hkp)]
      simp only [mapGet]
      rw [List.find?_cons_of_neg _ (by simpa using hpk)]
      exact ih'
    · rw [if_neg (by simpa using hkp)]
      exact ih'

theorem stableSortBy_head_mem {α : Type} (key : α → ℤ) (xs : List α) (y : α)
    (hxs : xs ≠ []) (hall : ∀ x ∈ xs, key x ≤ key y) :
    ∃ h₀ ∈ xs, (stableSortBy key (xs ++ [y])).head? = some h₀ := by
  induction xs with
  | nil => exact absurd rfl hxs
  | cons x xs' ih =>
    cases xs' with
    | nil =>
      refine ⟨x, List.mem_cons_self x [], ?_⟩
      have hxy : ¬ key y < key x :=
        not_lt.mpr (hall x (List.mem_cons_self x []))
      simp [stableSortBy, insertSortedBy, if_neg hxy]
    | cons z zs =>
      have hall' : ∀ w ∈ z :: zs, key w ≤ key y := fun w hw =>
        hall w (List.mem_cons_of_mem x hw)
      obtain ⟨h₀, hmem, hhead⟩ := ih (by simp) hall'
      have hform : stableSortBy key ((x :: z :: zs) ++ [y]) =
          insertSortedBy key x (stableSortBy key ((z :: zs) ++ [y])) := rfl
      obtain ⟨t, ht⟩ : ∃ t, stableSortBy key ((z :: zs) ++ [y]) = h₀ :: t := by
        cases hsort : stableSortBy key ((z :: zs) ++ [y]) with
        | nil => rw [hsort] at hhead; simp at hhead
        | cons a t =>
          rw [hsort] at hhead
          simp only [List.head?_cons, Option.some.injEq] at hhead
          exact ⟨t, by rw [hhead]⟩
      rw [hform, ht]
      by_cases hcmp : key h₀ < key x
      · exact ⟨h₀, List.mem_cons_of_mem x hmem,
          by simp [insertSortedBy, if_pos hcmp]⟩
      · exact ⟨x, List.mem_cons_self x (z :: zs),
          by simp [insertSortedBy, if_neg hcmp]⟩

/-- Storing a route and immediately fetching with the identical request
returns that route, from any reachable cache state (all timestamps in
the past, at most 50 entries). -/
theorem routeCache_set_get_same (r : RouteOptimizationRequest) (route : Route)
    (cache : RouteCacheState) (now : ℤ)
    (hts : ∀ p ∈ cache, p.2.timestamp ≤ now) (hlen : cache.length ≤ 50) :
    (getCachedRoute r (setCachedRoute r route cache now) now).1 = some route := by
  have hkeep : now - (⟨route, now⟩ : RouteCacheEntry).timestamp ≤
      ROUTE_CACHE_DURATION := by
    simp [ROUTE_CACHE_DURATION]
  have hhit : ∀ cachef : RouteCacheState,
      mapGet (cleanRouteCache cachef now) (generateRouteKey r) =
        some (⟨route, now⟩ : RouteCacheEntry) →
      (getCachedRoute r cachef now).1 = some route := by
    intro cachef hget
    simp only [getCachedRoute, hget]
    rw [if_pos (by simp [ROUTE_CACHE_DURATION])]
  by_cases hmem : cache.any (fun p => p.1 == generateRouteKey r)
  · -- overwrite in place: no growth, hence no eviction
    have hlen' : (mapSet cache (generateRouteKey r)
        (⟨route, now⟩ : RouteCacheEntry)).length = cache.length := by
      simp [mapSet, hmem]
    apply hhit
    have hset : setCachedRoute r route cache now =
        mapSet cache (generateRouteKey r) ⟨route, now⟩ := by
      simp only [setCachedRoute, hlen']
      rw [if_neg (by omega)]
    rw [hset]
    simp only [mapSet, hmem, if_pos]
    apply mapGet_clean_subst _ _ _ _ hkeep
    obtain ⟨p, hp, hpk⟩ := List.any_eq_true.mp hmem
    exact ⟨p, hp, by simpa using hpk⟩
  · -- fresh insertion at the back
    have hfresh : ∀ p ∈ cache, p.1 ≠ generateRouteKey r := by
      intro p hp hk
      exact hmem (List.any_eq_true.mpr ⟨p, hp, by simpa using hk⟩)
    have hset : mapSet cache (generateRouteKey r)
        (⟨route, now⟩ : RouteCacheEntry) =
        cache ++ [(generateRouteKey r, ⟨route, now⟩)] := by
      apply mapSet_of_absent _ _ _ hfresh
    simp only [setCachedRoute, hset]
    by_cases hbig : 50 < (cache ++
        [(generateRouteKey r, (⟨route, now⟩ : RouteCacheEntry))]).length
    · rw [if_pos hbig]
      have hne : cache ≠ [] := by
        intro hnil
        rw [hnil] at hbig
        simp at hbig
      obtain ⟨h₀, hmem₀, hhead⟩ := stableSortBy_head_mem
        (fun p => p.2.timestamp) cache (generateRouteKey r, ⟨route, now⟩) hne
        (fun x hx => hts x hx)
      rw [hhead]
      have hdel : mapDelete (cache ++ [(generateRouteKey r, ⟨route, now⟩)]) h₀.1 =
          mapDelete cache h₀.1 ++ [(generateRouteKey r, ⟨route, now⟩)] := by
        simp only [mapDelete]
        exact List.eraseP_append_left (a := h₀) (by simp) _ hmem₀
      show (getCachedRoute r
          (mapDelete (cache ++ [(generateRouteKey r, ⟨route, now⟩)]) h₀.1)
          now).1 = some route
      rw [hdel]
      apply hhit
      apply mapGet_clean_append _ _ _ _ hkeep
      intro p hp
      exact hfresh p (List.mem_of_mem_eraseP hp)
    · rw [if_neg hbig]
      apply hhit
      exact mapGet_clean_append _ _ _ _ hkeep hfresh

/-- Fetching with a request whose fingerprint differs from the one just
stored in an empty cache misses. -/
theorem routeCache_set_get_other (r₁ r₂ : RouteOptimizationRequest)
    (route : Route) (now : ℤ)
    (hne : generateRouteKey r₂ ≠ generateRouteKey r₁) :
    (getCachedRoute r₂ (setCachedRoute r₁ route [] now) now).1 = none := by
  have hset : setCachedRoute r₁ route [] now =
      [(generateRouteKey r₁, ⟨route, now⟩)] := by
    simp [setCachedRoute, mapSet]
  rw [hset]
  have hget : mapGet (cleanRouteCache
      [(generateRouteKey r₁, (⟨route, now⟩ : RouteCacheEntry))] now)
      (generateRouteKey r₂) = none := by
    rw [mapGet_eq_none_iff]
    intro p hp
    simp only [cleanRouteCache] at hp
    have hp' := List.mem_of_mem_filter hp
    simp only [List.mem_singleton] at hp'
    rw [hp']
    exact fun h => hne h.symm
  simp only [getCachedRoute, hget]

/-- C6 (amended): storing a route and immediately fetching with the
identical request returns that identical route (from any reachable
cache state); and, starting from an empty cache, fetching with a
request that differs in vehicle type, optimization method, loop flag,
or in some stop's coordinates at the fingerprint's 4-decimal rounding
returns absent.  A coordinate difference that vanishes under the
4-decimal rounding does not make the fetch miss — see the
counterexample. -/
theorem c6_routeCache_key_semantics :
    (∀ (r : RouteOptimizationRequest) (route : Route) (cache : RouteCacheState)
        (now : ℤ), (∀ p ∈ cache, p.2.timestamp ≤ now) → cache.length ≤ 50 →
        (getCachedRoute r (setCachedRoute r route cache now) now).1
          = some route) ∧
    (∀ (r₁ r₂ : RouteOptimizationRequest) (route : Route) (now : ℤ),
        AllCoords r₁ → AllCoords r₂ →
        (r₁.vehicleType ≠ r₂.vehicleType ∨
          r₁.optimizationMethod ≠ r₂.optimizationMethod ∨
          r₁.isLoop ≠ r₂.isLoop ∨
          r₁.locations.map locationTokenData ≠
            r₂.locations.map locationTokenData) →
        (getCachedRoute r₂ (setCachedRoute r₁ route [] now) now).1 = none) := by
  refine ⟨routeCache_set_get_same, ?_⟩
  intro r₁ r₂ route now hc₁ hc₂ hdiff
  apply routeCache_set_get_other
  intro hkey
  have hdata : keyData r₂ = keyData r₁ := by
    have := congrArg String.data hkey
    simpa [generateRouteKey] using this
  obtain ⟨htok, hvt, hm, hb⟩ := keyData_inj r₂ r₁ hc₂ hc₁ hdata
  rcases hdiff with h | h | h | h
  · exact h hvt.symm
  · exact h hm.symm
  · exact h hb.symm
  · exact h htok.symm

theorem c6_routeCache_key_semantics_witness :
    ((∀ p ∈ ([] : RouteCacheState), p.2.timestamp ≤ (0 : ℤ)) ∧
      ([] : RouteCacheState).length ≤ 50 ∧
      (getCachedRoute reqCx1 (setCachedRoute reqCx1 routeCx [] 0) 0).1
        = some routeCx) ∧
    (AllCoords reqCx1 ∧ AllCoords reqTruck ∧
      reqCx1.vehicleType ≠ reqTruck.vehicleType ∧
      (getCachedRoute reqTruck (setCachedRoute reqCx1 routeCx [] 0) 0).1
        = none) := by
  have hac1 : AllCoords reqCx1 := by
    intro loc hloc
    simp only [reqCx1, List.mem_cons, List.not_mem_nil, or_false] at hloc
    rcases hloc with rfl | rfl <;> rfl
  have hact : AllCoords reqTruck := by
    intro loc hloc
    simp only [reqTruck, List.mem_cons, List.not_mem_nil, or_false] at hloc
    rcases hloc with rfl | rfl <;> rfl
  refine ⟨⟨by simp, by simp,
      c6_routeCache_key_semantics.1 reqCx1 routeCx [] 0 (by simp) (by simp)⟩,
    hac1, hact, by decide,
    c6_routeCache_key_semantics.2 reqCx1 reqTruck routeCx 0 hac1 hact
      (Or.inl (by decide))⟩

/-- C6 counterexample to the claim as stated: the two requests differ
in the first stop's coordinates (latitudes differing in the fifth
decimal place), yet fetching with the second request after storing
under the first returns the stored route rather than absent, because
the fingerprint rounds coordinates to four decimal places. -/
theorem c6_routeCache_counterexample :
    reqCx1.locations.map (fun loc => loc.coordinates) ≠
      reqCx2.locations.map (fun loc => loc.coordinates) ∧
    reqCx1.vehicleType = reqCx2.vehicleType ∧
    reqCx1.optimizationMethod = reqCx2.optimizationMethod ∧
    reqCx1.isLoop = reqCx2.isLoop ∧
    (getCachedRoute reqCx2 (setCachedRoute reqCx1 routeCx [] 0) 0).1
      = some routeCx := by
  refine ⟨by decide, rfl, rfl, rfl, ?_⟩
  rfl

theorem hasUN_cons_of_hasUN (a : Char) (l : List Char)
    (h : hasUN l = true) : hasUN (a :: l) = true := by
  cases l with
  | nil => simp [hasUN] at h
  | cons b rest => simp [hasUN, h]

theorem hasUN_append (x y : List Char) :
    hasUN (x ++ y) = (hasUN x || hasUN y || unBoundary x y) := by
  induction x with
  | nil => simp [hasUN, unBoundary]
  | cons a x' ih =>
    cases x' with
    | nil =>
      cases y with
      | nil => simp [hasUN, unBoundary]
      | cons b ys =>
        simp only [List.singleton_append, hasUN, unBoundary, List.getLast?_singleton,
          List.head?_cons]
        cases hab : (a == 'u' && b == 'n') <;>
          cases hy : hasUN (b :: ys) <;> simp_all
    | cons c rest =>
      have hx : (a :: c :: rest) ++ y = a :: ((c :: rest) ++ y) := rfl
      rw [hx]
      have hy : hasUN (a :: ((c :: rest) ++ y)) =
          ((a == 'u' && c == 'n') || hasUN ((c :: rest) ++ y)) := rfl
      rw [hy, ih]
      have hb : unBoundary (a :: c :: rest) y = unBoundary (c :: rest) y := by
        simp [unBoundary, List.getLast?_cons_cons]
      rw [hb]
      have hz : hasUN (a :: c :: rest) =
          ((a == 'u' && c == 'n') || hasUN (c :: rest)) := rfl
      rw [hz]
      cases (a == 'u' && c == 'n') <;> cases hasUN (c :: rest) <;>
        cases hasUN y <;> cases unBoundary (c :: rest) y <;> rfl

theorem hasUN_eq_false_of_no_u (l : List Char) (h : 'u' ∉ l) :
    hasUN l = false := by
  induction l with
  | nil => rfl
  | cons a l' ih =>
    cases l' with
    | nil => rfl
    | cons b rest =>
      have ha : a ≠ 'u' := fun hau => h (hau ▸ List.mem_cons_self a _)
      have h' : 'u' ∉ b :: rest := fun hm => h (List.mem_cons_of_mem a hm)
      show ((a == 'u' && b == 'n') || hasUN (b :: rest)) = false
      rw [ih h']
      simp [ha]

theorem mem_joinTokensData (ts : List (List Char)) (c : Char)
    (h : c ∈ joinTokensData ts) : (∃ t ∈ ts, c ∈ t) ∨ c = '-' := by
  induction ts with
  | nil => simp [joinTokensData] at h
  | cons t tt ih =>
    cases tt with
    | nil => exact Or.inl ⟨t, List.mem_cons_self t [], h⟩
    | cons t₂ ts₂ =>
      simp only [joinTokensData, List.mem_append, List.mem_cons] at h
      rcases h with h | h | h
      · exact Or.inl ⟨t, List.mem_cons_self t _, h⟩
      · exact Or.inr h
      · rcases ih h with ⟨t', ht', hc⟩ | h'
        · exact Or.inl ⟨t', List.mem_cons_of_mem t ht', hc⟩
        · exact Or.inr h'

theorem no_u_joinTokens (locs : List Location)
    (h : ∀ loc ∈ locs, loc.coordinates.isSome) :
    'u' ∉ joinTokensData (locs.map locationTokenData) := by
  intro hm
  rcases mem_joinTokensData _ _ hm with ⟨t, ht, hc⟩ | hdash
  · obtain ⟨loc, hloc, rfl⟩ := List.mem_map.mp ht
    obtain ⟨cc, hcc⟩ := Option.isSome_iff_exists.mp (h loc hloc)
    rw [locationTokenData, hcc] at hc
    simp only [List.mem_append, List.mem_cons] at hc
    rcases hc with hc | hc | hc
    · have := mem_toFixed4Data _ _ hc
      simp [fChars, digitChars] at this
    · simp at hc
    · have := mem_toFixed4Data _ _ hc
      simp [fChars, digitChars] at this
  · simp at hdash

theorem hasUN_join_of_mem (ts : List (List Char)) (t : List Char)
    (ht : t ∈ ts) (h : hasUN t = true) :
    hasUN (joinTokensData ts) = true := by
  induction ts with
  | nil => simp at ht
  | cons u us ih =>
    cases us with
    | nil =>
      simp only [List.mem_singleton] at ht
      subst ht
      simpa [joinTokensData] using h
    | cons v vs =>
      simp only [joinTokensData]
      rw [hasUN_append]
      rcases List.mem_cons.mp ht with rfl | ht'
      · simp [h]
      · have := hasUN_cons_of_hasUN '-' _ (ih ht')
        simp [this]

theorem hasUN_keyData_of_missing (r : RouteOptimizationRequest)
    (h : ∃ loc ∈ r.locations, loc.coordinates = none) :
    hasUN (keyData r) = true := by
  obtain ⟨loc, hloc, hnone⟩ := h
  have htok : hasUN (locationTokenData loc) = true := by
    rw [locationTokenData, hnone]
    decide
  have hjoin : hasUN (joinTokensData (r.locations.map locationTokenData))
      = true :=
    hasUN_join_of_mem _ _ (List.mem_map_of_mem locationTokenData hloc) htok
  simp only [keyData]
  rw [hasUN_append, hasUN_append, hasUN_append, hjoin]
  simp

theorem hasUN_keyData_of_valid (r : RouteOptimizationRequest)
    (hc : AllCoords r) : hasUN (keyData r) = false := by
  have hjoin : hasUN (joinTokensData (r.locations.map locationTokenData))
      = false :=
    hasUN_eq_false_of_no_u _ (no_u_joinTokens _ hc)
  have hV : hasUN ('_' :: vtData r.vehicleType) = false := by
    cases r.vehicleType <;> decide
  have hM : hasUN ('_' :: methodData r.optimizationMethod) = false := by
    cases r.optimizationMethod <;> decide
  have hB : hasUN ('_' :: boolData r.isLoop) = false := by
    cases r.isLoop <;> decide
  have hbV : ∀ x : List Char, unBoundary x ('_' :: vtData r.vehicleType)
      = false := by
    intro x; simp [unBoundary]
  have hbM : ∀ x : List Char, unBoundary x ('_' :: methodData r.optimizationMethod)
      = false := by
    intro x; simp [unBoundary]
  have hbB : ∀ x : List Char, unBoundary x ('_' :: boolData r.isLoop)
      = false := by
    intro x; simp [unBoundary]
  simp only [keyData]
  rw [hasUN_append, hasUN_append, hasUN_append, hjoin, hV, hM, hB,
    hbV, hbM, hbB]
  simp

theorem count_dot_toFixed4Data (q : ℚ) : (toFixed4Data q).count '.' = 1 := by
  obtain ⟨u, w, heq, hu, hw, -⟩ := toFixed4Data_decomp q
  rw [heq, List.count_append]
  have hcu : u.count '.' = 0 := by
    rw [List.count_eq_zero]
    intro hm
    have := hu '.' hm
    simp [digitChars] at this
  have hcw : w.count '.' = 0 := by
    rw [List.count_eq_zero]
    intro hm
    have := hw '.' hm
    simp [digitChars] at this
  rw [hcu, List.count_cons_self, hcw]

theorem count_dot_joinTokens (ts : List (List Char)) :
    (joinTokensData ts).count '.' = (ts.map (List.count '.')).sum := by
  induction ts with
  | nil => simp [joinTokensData]
  | cons t tt ih =>
    cases tt with
    | nil => simp [joinTokensData]
    | cons t₂ ts₂ =>
      simp only [joinTokensData, List.count_append, List.map_cons,
        List.sum_cons] at ih ⊢
      rw [List.count_cons_of_ne (by decide)]
      omega

theorem count_dot_keyData (r : RouteOptimizationRequest) (hc : AllCoords r) :
    (keyData r).count '.' = 2 * r.locations.length := by
  have hV : ('_' :: vtData r.vehicleType).count '.' = 0 := by
    cases r.vehicleType <;> decide
  have hM : ('_' :: methodData r.optimizationMethod).count '.' = 0 := by
    cases r.optimizationMethod <;> decide
  have hB : ('_' :: boolData r.isLoop).count '.' = 0 := by
    cases r.isLoop <;> decide
  have htok : ∀ loc ∈ r.locations, (locationTokenData loc).count '.' = 2 := by
    intro loc hloc
    obtain ⟨cc, hcc⟩ := Option.isSome_iff_exists.mp (hc loc hloc)
    rw [locationTokenData, hcc]
    rw [List.count_append, count_dot_toFixed4Data,
      List.count_cons_of_ne (by decide), count_dot_toFixed4Data]
  simp only [keyData, List.count_append, hV, hM, hB, count_dot_joinTokens]
  have hsum : ∀ ls : List Location,
      (∀ loc ∈ ls, (locationTokenData loc).count '.' = 2) →
      ((ls.map locationTokenData).map (List.count '.')).sum = 2 * ls.length := by
    intro ls
    induction ls with
    | nil => intro _; simp
    | cons loc rest ih =>
      intro hall
      simp only [List.map_cons, List.sum_cons, List.length_cons]
      rw [hall loc (List.mem_cons_self loc rest),
        ih (fun l hl => hall l (List.mem_cons_of_mem loc hl))]
      ring
  have := hsum r.locations htok
  omega

/-- An invalid request's fingerprint differs from every valid
request's fingerprint. -/
theorem keyData_invalid_ne_valid (ri rv : RouteOptimizationRequest)
    (hv : ValidReq rv)
    (hi : ¬ AllCoords ri ∨ ri.locations.length < 2) :
    keyData ri ≠ keyData rv := by
  intro heq
  by_cases hmiss : ∃ loc ∈ ri.locations, loc.coordinates = none
  · have h1 := hasUN_keyData_of_missing ri hmiss
    have h2 := hasUN_keyData_of_valid rv hv.1
    rw [heq] at h1
    rw [h1] at h2
    exact absurd h2 (by decide)
  · have hac : AllCoords ri := by
      intro loc hloc
      by_contra hnone
      exact hmiss ⟨loc, hloc, by
        cases hcc : loc.coordinates with
        | none => rfl
        | some c => rw [hcc] at hnone; simp at hnone⟩
    have hshort : ri.locations.length < 2 := by
      rcases hi with h | h
      · exact absurd hac h
      · exact h
    have h1 := count_dot_keyData ri hac
    have h2 := count_dot_keyData rv hv.1
    rw [heq, h2] at h1
    have := hv.2
    omega

/-- The route-cache lookup can never hit for an invalid request, since
every stored key is the fingerprint of a validated request. -/
theorem getCachedRoute_invalid_miss (request : RouteOptimizationRequest)
    (cache : RouteCacheState) (now : ℤ)
    (hinv : ¬ AllCoords request ∨ request.locations.length < 2)
    (hck : CacheKeysValid cache) :
    (getCachedRoute request cache now).1 = none := by
  have hget : mapGet (cleanRouteCache cache now) (generateRouteKey request)
      = none := by
    rw [mapGet_eq_none_iff]
    intro p hp
    obtain ⟨r', hval, hpk⟩ := hck p (List.mem_of_mem_filter hp)
    rw [hpk]
    intro hkeyeq
    have hdata : keyData r' = keyData request := by
      have := congrArg String.data hkeyeq
      simpa [generateRouteKey] using this
    exact keyData_invalid_ne_valid request r' hval hinv hdata.symm
  simp only [getCachedRoute, hget]

/-- C2: a request with a coordinate-less stop or fewer than two stops
makes `calculateRoute` fail with the wrapped precondition message and
return no route; in particular the route-cache lookup performed before
validation misses for every such request. -/
theorem c2_invalid_request_rejected (env : ProviderEnv)
    (segSt : SegCacheState) (cache : RouteCacheState) (now : ℤ)
    (request : RouteOptimizationRequest)
    (hinv : ¬ AllCoords request ∨ request.locations.length < 2)
    (hck : CacheKeysValid cache) :
    calculateRoute env segSt cache now request =
      some (Except.error (preconditionMessage request)) ∧
    (getCachedRoute request cache now).1 = none := by
  have hmiss := getCachedRoute_invalid_miss request cache now hinv hck
  refine ⟨?_, hmiss⟩
  simp only [calculateRoute]
  rw [hmiss]
  by_cases hfilter :
      (request.locations.filter fun loc => loc.coordinates.isNone).length ≠ 0
  · rw [if_pos hfilter, preconditionMessage, if_pos hfilter]
  · rw [if_neg hfilter]
    have hac : AllCoords request := by
      intro loc hloc
      by_contra hnone
      have hmem : loc ∈ request.locations.filter
          (fun loc => loc.coordinates.isNone) := by
        rw [List.mem_filter]
        refine ⟨hloc, ?_⟩
        cases hcc : loc.coordinates with
        | none => rfl
        | some c => rw [hcc] at hnone; simp at hnone
      rcases List.eq_nil_or_concat (request.locations.filter
          (fun loc => loc.coordinates.isNone)) with hnil | _
      · rw [hnil] at hmem; simp at hmem
      · push_neg at hfilter
        rw [List.length_eq_zero] at hfilter
        rw [hfilter] at hmem
        simp at hmem
    have hlen : request.locations.length < 2 := by
      rcases hinv with h | h
      · exact absurd hac h
      · exact h
    rw [if_pos hlen, preconditionMessage, if_neg hfilter]

theorem c2_invalid_request_rejected_witness :
    (¬ AllCoords reqBad ∨ reqBad.locations.length < 2) ∧
    CacheKeysValid [] ∧
    (calculateRoute envFail emptySegState [] 0 reqBad =
      some (Except.error (preconditionMessage reqBad)) ∧
    (getCachedRoute reqBad [] 0).1 = none) := by
  have h1 : ¬ AllCoords reqBad ∨ reqBad.locations.length < 2 := by
    left
    intro h
    have := h locX (by simp [reqBad])
    simp [locX] at this
  have h2 : CacheKeysValid [] := by
    intro p hp
    simp at hp
  exact ⟨h1, h2, c2_invalid_request_rejected envFail emptySegState [] 0 reqBad h1 h2⟩

theorem calculateDistance_self (c : Coordinates) :
    calculateDistance c c = 0 := by
  simp [calculateDistance, degToRad, atan2, Real.sqrt_one]

/-- C3 (amended): when both network tiers fail on a fresh pair of
located stops, `calculateSegment` still succeeds with the straight-line
estimate: no polyline, haversine distance, duration equal to
distance / 50 × 60 for trucks and distance / 70 × 60 otherwise — a
duration that is strictly positive whenever the haversine distance is,
but zero for stops at identical coordinates. -/
theorem c3_geodesic_fallback (env : ProviderEnv) (st : SegCacheState)
    (f t : Location) (fc tc : Coordinates) (vt : VehicleType)
    (hf : f.coordinates = some fc) (ht : t.coordinates = some tc)
    (hcache : mapGet st.cache (generateSegmentKey f t vt) = none)
    (hors : env.ors f t = none) (hosrm : env.osrm f t = none) :
    calculateSegment env st f t vt =
      .ok (fallbackSegment f t fc tc vt,
        cacheSegment (generateSegmentKey f t vt)
          (fallbackSegment f t fc tc vt) st) ∧
    (fallbackSegment f t fc tc vt).polyline = none ∧
    (fallbackSegment f t fc tc vt).distance = calculateDistance fc tc ∧
    (fallbackSegment f t fc tc vt).duration =
      calculateDistance fc tc / (if vt = .truck then 50 else 70) * 60 ∧
    (0 < calculateDistance fc tc →
      0 < (fallbackSegment f t fc tc vt).duration) := by
  refine ⟨?_, rfl, rfl, rfl, ?_⟩
  · simp only [calculateSegment, hf, ht, hcache, calculateSegmentWithORS, hors,
      hosrm]
    by_cases hturck : vt = .truck ∧ env.openRouteServiceApiKey
    · rw [if_pos hturck]
      rcases hturck with ⟨hv, -⟩
      simp [fallbackSegment, hv]
    · rw [if_neg hturck]
      by_cases hv : vt = .truck
      · simp only [hv] at hturck ⊢
        simp [fallbackSegment]
      · simp [fallbackSegment, hv]
  · intro hpos
    simp only [fallbackSegment]
    have hsp : (0 : ℝ) < (if vt = .truck then 50 else 70) := by
      by_cases hv : vt = .truck <;> simp [hv]
    positivity

theorem c3_geodesic_fallback_witness :
    locZ1.coordinates = some ⟨0, 0⟩ ∧ locZ2.coordinates = some ⟨0, 0⟩ ∧
    mapGet emptySegState.cache (generateSegmentKey locZ1 locZ2 .truck)
      = none ∧
    envFail.ors locZ1 locZ2 = none ∧ envFail.osrm locZ1 locZ2 = none ∧
    (calculateSegment envFail emptySegState locZ1 locZ2 .truck =
      .ok (fallbackSegment locZ1 locZ2 ⟨0, 0⟩ ⟨0, 0⟩ .truck,
        cacheSegment (generateSegmentKey locZ1 locZ2 .truck)
          (fallbackSegment locZ1 locZ2 ⟨0, 0⟩ ⟨0, 0⟩ .truck) emptySegState) ∧
    (fallbackSegment locZ1 locZ2 ⟨0, 0⟩ ⟨0, 0⟩ .truck).polyline = none ∧
    (fallbackSegment locZ1 locZ2 ⟨0, 0⟩ ⟨0, 0⟩ .truck).distance =
      calculateDistance ⟨0, 0⟩ ⟨0, 0⟩ ∧
    (fallbackSegment locZ1 locZ2 ⟨0, 0⟩ ⟨0, 0⟩ .truck).duration =
      calculateDistance ⟨0, 0⟩ ⟨0, 0⟩ /
        (if (VehicleType.truck = .truck) then 50 else 70) * 60 ∧
    (0 < calculateDistance ⟨0, 0⟩ ⟨0, 0⟩ →
      0 < (fallbackSegment locZ1 locZ2 ⟨0, 0⟩ ⟨0, 0⟩ .truck).duration)) :=
  ⟨rfl, rfl, rfl, rfl, rfl,
    c3_geodesic_fallback envFail emptySegState locZ1 locZ2 ⟨0, 0⟩ ⟨0, 0⟩
      .truck rfl rfl rfl rfl rfl⟩

/-- C3 counterexample to the claim as stated: for two stops at the same
coordinates the geodesic fallback's duration is zero, not strictly
positive. -/
theorem c3_duration_not_positive_counterexample :
    calculateSegment envFail emptySegState locZ1 locZ2 .truck =
      .ok (fallbackSegment locZ1 locZ2 ⟨0, 0⟩ ⟨0, 0⟩ .truck,
        cacheSegment (generateSegmentKey locZ1 locZ2 .truck)
          (fallbackSegment locZ1 locZ2 ⟨0, 0⟩ ⟨0, 0⟩ .truck) emptySegState) ∧
    ¬ 0 < (fallbackSegment locZ1 locZ2 ⟨0, 0⟩ ⟨0, 0⟩ .truck).duration := by
  constructor
  · rfl
  · simp only [fallbackSegment, calculateDistance_self]
    norm_num

theorem crsFold_length (env : ProviderEnv) (vt : VehicleType)
    (pairs : List (Location × Location)) :
    ∀ (init : Except String (List RouteSegment × SegCacheState))
      (segs : List RouteSegment) (st' : SegCacheState),
      pairs.foldl (crsStep env vt) init = .ok (segs, st') →
      ∃ segs₀ st₀, init = .ok (segs₀, st₀) ∧
        segs.length = segs₀.length + pairs.length := by
  induction pairs with
  | nil =>
    intro init segs st' h
    exact ⟨segs, st', by simpa using h, by simp⟩
  | cons p ps ih =>
    intro init segs st' h
    rw [List.foldl_cons] at h
    obtain ⟨segs₀, st₀, hstep, hlen⟩ := ih _ segs st' h
    cases init with
    | error e => simp [crsStep] at hstep
    | ok acc =>
      obtain ⟨s₁, t₁⟩ := acc
      simp only [crsStep] at hstep
      cases hseg : calculateSegment env t₁ p.1 p.2 vt with
      | error e => rw [hseg] at hstep; simp at hstep
      | ok r =>
        obtain ⟨seg, st₂⟩ := r
        rw [hseg] at hstep
        simp only [Except.ok.injEq, Prod.mk.injEq] at hstep
        obtain ⟨hs, -⟩ := hstep
        refine ⟨s₁, t₁, rfl, ?_⟩
        rw [hlen, ← hs]
        simp only [List.length_append, List.length_singleton,
          List.length_cons, List.length_nil]
        omega

/-- The produced segment count: one per consecutive pair, plus the
wrap-around segment for loops of more than two stops. -/
theorem calculateRouteSegments_length (env : ProviderEnv)
    (st : SegCacheState) (locations : List Location) (vt : VehicleType)
    (isLoop : Bool) (segs : List RouteSegment) (st' : SegCacheState)
    (h : calculateRouteSegments env st locations vt isLoop
      = .ok (segs, st')) :
    segs.length = if isLoop ∧ 2 < locations.length then locations.length
      else locations.length - 1 := by
  have hzip : (locations.zip locations.tail).length = locations.length - 1 := by
    rw [List.length_zip, List.length_tail]
    omega
  simp only [calculateRouteSegments] at h
  cases hmain : (locations.zip locations.tail).foldl (crsStep env vt)
      (.ok ([], st)) with
  | error e => rw [hmain] at h; simp at h
  | ok r =>
    obtain ⟨segs₁, st₁⟩ := r
    obtain ⟨segs₀, st₀, hinit, hlen₁⟩ := crsFold_length env vt _ _ _ _ hmain
    simp only [Except.ok.injEq, Prod.mk.injEq] at hinit
    obtain ⟨hs₀, -⟩ := hinit
    rw [← hs₀] at hlen₁
    simp only [List.length_nil, Nat.zero_add] at hlen₁
    rw [hmain] at h
    simp only [] at h
    by_cases hcond : isLoop = true ∧ 2 < locations.length
    · rw [if_pos hcond] at h ⊢
      obtain ⟨-, hlen2⟩ := hcond
      have hne : locations ≠ [] := by
        intro hnil; rw [hnil] at hlen2; simp at hlen2
      obtain ⟨last, hlast⟩ := Option.isSome_iff_exists.mp
        (List.getLast?_isSome.mpr hne)
      obtain ⟨first, hfirst⟩ := Option.isSome_iff_exists.mp
        (List.head?_isSome.mpr hne)
      rw [hlast, hfirst] at h
      simp only [] at h
      cases hret : calculateSegment env st₁ last first vt with
      | error e => rw [hret] at h; simp at h
      | ok r₂ =>
        obtain ⟨rseg, st₂⟩ := r₂
        rw [hret] at h
        simp only [Except.ok.injEq, Prod.mk.injEq] at h
        obtain ⟨hsegs, -⟩ := h
        rw [← hsegs]
        simp only [List.length_append, List.length_singleton]
        omega
    · rw [if_neg hcond] at h ⊢
      simp only [Except.ok.injEq, Prod.mk.injEq] at h
      obtain ⟨hsegs, -⟩ := h
      rw [← hsegs]
      omega

theorem foldl_add_map {α : Type} (f : α → ℝ) (l : List α) (a : ℝ) :
    l.foldl (fun s x => s + f x) a = a + (l.map f).sum := by
  induction l generalizing a with
  | nil => simp
  | cons x xs ih =>
    simp only [List.foldl_cons, List.map_cons, List.sum_cons, ih]
    ring

/-- A hit of `getCachedRoute` returns a route stored in the cache. -/
theorem getCachedRoute_mem (r : RouteOptimizationRequest)
    (cache : RouteCacheState) (now : ℤ) (route : Route)
    (h : (getCachedRoute r cache now).1 = some route) :
    ∃ p ∈ cache, p.2.route = route := by
  simp only [getCachedRoute] at h
  cases hget : mapGet (cleanRouteCache cache now) (generateRouteKey r) with
  | none => rw [hget] at h; simp at h
  | some e =>
    rw [hget] at h
    simp only [] at h
    by_cases htime : now - e.timestamp < ROUTE_CACHE_DURATION
    · rw [if_pos htime] at h
      simp only [Option.some.injEq] at h
      simp only [mapGet] at hget
      cases hfind : (cleanRouteCache cache now).find?
          (fun p => p.1 == generateRouteKey r) with
      | none => rw [hfind] at hget; simp at hget
      | some pr =>
        rw [hfind] at hget
        simp only [Option.map_some', Option.some.injEq] at hget
        refine ⟨pr, List.mem_of_mem_filter (List.mem_of_find?_eq_some hfind),
          ?_⟩
        rw [hget, h]
    · rw [if_neg htime] at h; simp at h

/-- C1: any route `calculateRoute` returns for an accepted request
satisfies the structural segment-count and totals invariant — on the
computed path by construction, on the cache-hit path by the cache
invariant. -/
theorem c1_route_invariant (env : ProviderEnv) (segSt : SegCacheState)
    (cache : RouteCacheState) (now : ℤ)
    (request : RouteOptimizationRequest)
    (resp : RouteOptimizationResponse) (st' : SegCacheState)
    (cache' : RouteCacheState)
    (hvalid : ValidReq request) (hcr : CacheRoutesValid cache)
    (h : calculateRoute env segSt cache now request
      = some (.ok (resp, st', cache'))) :
    RouteInv resp.route := by
  simp only [calculateRoute] at h
  cases hlook : (getCachedRoute request cache now).1 with
  | some cached =>
    rw [hlook] at h
    injection h with h₁
    injection h₁ with h₂
    injection h₂ with h₃ h₄
    obtain ⟨p, hp, hpr⟩ := getCachedRoute_mem request cache now cached hlook
    rw [← h₃]
    show RouteInv cached
    rw [← hpr]
    exact hcr p hp
  | none =>
    rw [hlook] at h
    have hfilter : (request.locations.filter
        (fun loc => loc.coordinates.isNone)).length = 0 := by
      rw [List.length_eq_zero, List.filter_eq_nil_iff]
      intro loc hloc
      have := hvalid.1 loc hloc
      cases hcc : loc.coordinates with
      | none => rw [hcc] at this; simp at this
      | some c => simp [hcc]
    rw [if_neg (by omega)] at h
    rw [if_neg (by have := hvalid.2; omega)] at h
    cases hopt : optimizeLocationOrder env (clearSegmentCache segSt)
        request.locations request.optimizationMethod request.isLoop
        request.vehicleType with
    | none => rw [hopt] at h; simp at h
    | some r =>
      obtain ⟨optLocs, st₁⟩ := r
      rw [hopt] at h
      simp only [] at h
      cases hsegs : calculateRouteSegments env st₁ optLocs
          request.vehicleType request.isLoop with
      | error e => rw [hsegs] at h; simp at h
      | ok r₂ =>
        obtain ⟨segments, st₂⟩ := r₂
        rw [hsegs] at h
        simp only [Option.some.injEq, Except.ok.injEq, Prod.mk.injEq] at h
        obtain ⟨hresp, -, -⟩ := h
        have hlen := calculateRouteSegments_length env st₁ optLocs
          request.vehicleType request.isLoop segments st₂ hsegs
        rw [← hresp]
        refine ⟨?_, ?_, ?_, ?_⟩
        · intro hloop
          simp only at hloop ⊢
          rw [hloop] at hlen
          simpa using hlen
        · intro hloop hthree
          simp only at hloop hthree ⊢
          rw [hloop] at hlen
          rw [hlen, if_pos ⟨rfl, by omega⟩]
        · simp only
          rw [foldl_add_map]
          ring
        · simp only
          rw [foldl_add_map]
          ring

theorem c1_route_invariant_witness :
    ValidReq reqC1 ∧ CacheRoutesValid [] ∧
    calculateRoute envFail emptySegState [] 0 reqC1 =
      some (.ok (⟨c1Route, ⟨0, "openstreetmap-free", "nominatim+osrm"⟩⟩,
        ⟨[("Z1-Z2-car", c1Seg)], ["Z1-Z2-car"]⟩,
        [(generateRouteKey reqC1, ⟨c1Route, 0⟩)])) ∧
    RouteInv c1Route := by
  have h1 : ValidReq reqC1 := by
    constructor
    · intro loc hloc
      simp only [reqC1, List.mem_cons, List.not_mem_nil, or_false] at hloc
      rcases hloc with rfl | rfl <;> rfl
    · simp [reqC1]
  have h2 : CacheRoutesValid [] := by
    intro p hp
    simp at hp
  have h3 : calculateRoute envFail emptySegState [] 0 reqC1 =
      some (.ok (⟨c1Route, ⟨0, "openstreetmap-free", "nominatim+osrm"⟩⟩,
        ⟨[("Z1-Z2-car", c1Seg)], ["Z1-Z2-car"]⟩,
        [(generateRouteKey reqC1, ⟨c1Route, 0⟩)])) := by
    rfl
  exact ⟨h1, h2, h3,
    c1_route_invariant envFail emptySegState [] 0 reqC1 _ _ _ h1 h2 h3⟩

theorem c5_segmentCache_fifo_witness :
    mapGet (runSegOps c5ops).cache "fresh" = none ∧
    MAX_SEGMENT_CACHE_SIZE ≤ (runSegOps c5ops).cache.length ∧
    (cacheSegment "fresh" segAB (runSegOps c5ops) =
      ⟨(runSegOps c5ops).cache.tail ++ [("fresh", segAB)],
       (runSegOps c5ops).order.tail ++ ["fresh"]⟩ ∧
    (runSegOps c5ops).order.head? = ((runSegOps c5ops).cache.head?).map (·.1) ∧
    ∀ k, segStep (runSegOps c5ops) (SegOp.get k) = runSegOps c5ops) := by
  have h1 : mapGet (runSegOps c5ops).cache "fresh" = none := by rfl
  have h2 : MAX_SEGMENT_CACHE_SIZE ≤ (runSegOps c5ops).cache.length :=
    Nat.le_of_eq (by rfl)
  exact ⟨h1, h2, c5_segmentCache_fifo c5ops "fresh" segAB h1 h2⟩

theorem insertSortedBy_perm {α : Type} (key : α → ℤ) (x : α) (l : List α) :
    (insertSortedBy key x l).Perm (x :: l) := by
  induction l with
  | nil => simp [insertSortedBy]
  | cons y ys ih =>
    simp only [insertSortedBy]
    by_cases h : key y < key x
    · rw [if_pos h]
      exact (ih.cons y).trans (List.Perm.swap x y ys)
    · rw [if_neg h]

theorem insertSortedBy_pairwise {α : Type} (key : α → ℤ) (x : α) (l : List α)
    (h : l.Pairwise (fun a b => key a ≤ key b)) :
    (insertSortedBy key x l).Pairwise (fun a b => key a ≤ key b) := by
  induction l with
  | nil => simp [insertSortedBy]
  | cons y ys ih =>
    rw [List.pairwise_cons] at h
    obtain ⟨hy, hys⟩ := h
    simp only [insertSortedBy]
    by_cases hc : key y < key x
    · rw [if_pos hc]
      rw [List.pairwise_cons]
      refine ⟨?_, ih hys⟩
      intro a ha
      rw [(insertSortedBy_perm key x ys).mem_iff, List.mem_cons] at ha
      rcases ha with rfl | ha
      · exact le_of_lt hc
      · exact hy a ha
    · rw [if_neg hc]
      rw [List.pairwise_cons]
      refine ⟨?_, List.pairwise_cons.mpr ⟨hy, hys⟩⟩
      intro a ha
      rcases List.mem_cons.mp ha with rfl | ha
      · exact not_lt.mp hc
      · exact le_trans (not_lt.mp hc) (hy a ha)

theorem stableSortBy_perm {α : Type} (key : α → ℤ) (l : List α) :
    (stableSortBy key l).Perm l := by
  induction l with
  | nil => exact List.Perm.refl _
  | cons x xs ih =>
    have hunf : stableSortBy key (x :: xs) =
        insertSortedBy key x (stableSortBy key xs) := rfl
    rw [hunf]
    exact (insertSortedBy_perm key x _).trans (ih.cons x)

theorem stableSortBy_pairwise {α : Type} (key : α → ℤ) (l : List α) :
    (stableSortBy key l).Pairwise (fun a b => key a ≤ key b) := by
  induction l with
  | nil => simp [stableSortBy]
  | cons x xs ih =>
    have hunf : stableSortBy key (x :: xs) =
        insertSortedBy key x (stableSortBy key xs) := rfl
    rw [hunf]
    exact insertSortedBy_pairwise key x _ ih

/-- C7 counterexample: with exactly two locked stops whose position
indices are reversed, the sequencer returns the input unchanged — the
`locations.length <= 2` early return precedes the all-locked sort — so
the output is not the input sorted by position index. -/
theorem c7_two_locked_not_sorted :
    optimizeLocationOrder envFail emptySegState [lkA, lkB]
      .shortest_distance false .car = some ([lkA, lkB], emptySegState) ∧
    stableSortBy orderKey [lkA, lkB] = [lkB, lkA] ∧
    ([lkA, lkB] : List Location) ≠ [lkB, lkA] :=
  ⟨rfl, by decide, by decide⟩

/-- C7 (amended): with MORE THAN TWO stops, all locked, the sequencer
returns exactly the stable sort of the input by the position key
`order or 0` — a permutation of the input, ascending in that key; with
two or fewer stops the input is returned unchanged even when out of
order. -/
theorem c7_all_locked_sorted (env : ProviderEnv) (st : SegCacheState)
    (locations : List Location) (method : OptimizationMethod)
    (isLoop : Bool) (vt : VehicleType)
    (hlen : 2 < locations.length)
    (hlock : ∀ loc ∈ locations, loc.isLocked = some true) :
    optimizeLocationOrder env st locations method isLoop vt =
      some (stableSortBy orderKey locations, st) ∧
    (stableSortBy orderKey locations).Perm locations ∧
    (stableSortBy orderKey locations).Pairwise
      (fun a b => orderKey a ≤ orderKey b) := by
  refine ⟨?_, stableSortBy_perm orderKey locations,
    stableSortBy_pairwise orderKey locations⟩
  have hunlocked : locations.filter
      (fun loc => !(loc.isLocked == some true)) = [] := by
    rw [List.filter_eq_nil_iff]
    intro loc hloc
    rw [hlock loc hloc]
    simp
  simp only [optimizeLocationOrder]
  rw [if_neg (by omega)]
  rw [if_pos (by rw [hunlocked]; rfl)]

theorem c7_all_locked_sorted_witness :
    2 < ([lkA, lkC, lkB] : List Location).length ∧
    (∀ loc ∈ ([lkA, lkC, lkB] : List Location), loc.isLocked = some true) ∧
    (optimizeLocationOrder envFail emptySegState [lkA, lkC, lkB]
        .shortest_distance false .car =
      some (stableSortBy orderKey [lkA, lkC, lkB], emptySegState) ∧
    (stableSortBy orderKey [lkA, lkC, lkB]).Perm [lkA, lkC, lkB] ∧
    (stableSortBy orderKey [lkA, lkC, lkB]).Pairwise
      (fun a b => orderKey a ≤ orderKey b)) :=
  ⟨by decide, by decide,
    c7_all_locked_sorted envFail emptySegState [lkA, lkC, lkB]
      .shortest_distance false .car (by decide) (by decide)⟩

theorem pickMinAux_of_none {K : Type} [LinearOrderedField K]
    (score : Location → Option K) :
    ∀ (l : List Location) (i : ℕ) (best : Option (Location × K × ℕ)),
      (∀ loc ∈ l, score loc = none) → pickMinAux score l i best = best := by
  intro l
  induction l with
  | nil => intro i best _; rfl
  | cons x xs ih =>
    intro i best h
    have hx := h x (by simp)
    simp only [pickMinAux, hx]
    exact ih (i + 1) best (fun loc hl => h loc (by simp [hl]))

theorem pickMinAux_isSome_some {K : Type} [LinearOrderedField K]
    (score : Location → Option K) :
    ∀ (l : List Location) (i : ℕ) (b : Location × K × ℕ),
      (pickMinAux score l i (some b)).isSome := by
  intro l
  induction l with
  | nil => intro i b; simp [pickMinAux]
  | cons x xs ih =>
    intro i b
    simp only [pickMinAux]
    cases hx : score x with
    | none => exact ih _ b
    | some s =>
      obtain ⟨bl, bs, bi⟩ := b
      simp only []
      by_cases hlt : s < bs
      · rw [if_pos hlt]; exact ih _ _
      · rw [if_neg hlt]; exact ih _ _

theorem pickMinAux_isSome {K : Type} [LinearOrderedField K]
    (score : Location → Option K) :
    ∀ (l : List Location) (i : ℕ) (best : Option (Location × K × ℕ)),
      (∃ loc ∈ l, (score loc).isSome) →
      (pickMinAux score l i best).isSome := by
  intro l
  induction l with
  | nil => intro i best h; simp at h
  | cons x xs ih =>
    intro i best h
    simp only [pickMinAux]
    cases hx : score x with
    | none =>
      apply ih
      obtain ⟨loc, hmem, hs⟩ := h
      rcases List.mem_cons.mp hmem with rfl | hmem'
      · rw [hx] at hs; simp at hs
      · exact ⟨loc, hmem', hs⟩
    | some s =>
      cases best with
      | none => exact pickMinAux_isSome_some score xs (i + 1) (x, s, i)
      | some b =>
        obtain ⟨bl, bs, bi⟩ := b
        simp only []
        by_cases hlt : s < bs
        · rw [if_pos hlt]; exact pickMinAux_isSome_some score xs _ _
        · rw [if_neg hlt]; exact pickMinAux_isSome_some score xs _ _

theorem pickMinAux_spec {K : Type} [LinearOrderedField K]
    (score : Location → Option K) :
    ∀ (l : List Location) (i : ℕ) (best : Option (Location × K × ℕ))
      (loc : Location) (s : K) (idx : ℕ),
      pickMinAux score l i best = some (loc, s, idx) →
      (loc ∈ l ∧ score loc = some s) ∨ best = some (loc, s, idx) := by
  intro l
  induction l with
  | nil => intro i best loc s idx h; exact Or.inr h
  | cons x xs ih =>
    intro i best loc s idx h
    simp only [pickMinAux] at h
    cases hx : score x with
    | none =>
      rw [hx] at h
      simp only [] at h
      rcases ih _ _ _ _ _ h with ⟨hmem, hs⟩ | hbest
      · exact Or.inl ⟨List.mem_cons_of_mem x hmem, hs⟩
      · exact Or.inr hbest
    | some s' =>
      rw [hx] at h
      cases best with
      | none =>
        simp only [] at h
        rcases ih _ _ _ _ _ h with ⟨hmem, hs⟩ | hbest
        · exact Or.inl ⟨List.mem_cons_of_mem x hmem, hs⟩
        · injection hbest with hb
          injection hb with hb₁ hb₂
          injection hb₂ with hb₃ hb₄
          subst hb₁
          exact Or.inl ⟨List.mem_cons_self x xs, by rw [hx, hb₃]⟩
      | some b =>
        obtain ⟨bl, bs, bi⟩ := b
        simp only [] at h
        by_cases hlt : s' < bs
        · rw [if_pos hlt] at h
          rcases ih _ _ _ _ _ h with ⟨hmem, hs⟩ | hbest
          · exact Or.inl ⟨List.mem_cons_of_mem x hmem, hs⟩
          · injection hbest with hb
            injection hb with hb₁ hb₂
            injection hb₂ with hb₃ hb₄
            subst hb₁
            exact Or.inl ⟨List.mem_cons_self x xs, by rw [hx, hb₃]⟩
        · rw [if_neg hlt] at h
          rcases ih _ _ _ _ _ h with ⟨hmem, hs⟩ | hbest
          · exact Or.inl ⟨List.mem_cons_of_mem x hmem, hs⟩
          · exact Or.inr hbest

theorem nnScore_isSome {K : Type} [LinearOrderedField K]
    (d : Coordinates → Coordinates → K) (method : OptimizationMethod)
    (visited : List String) (current loc : Location)
    (hnv : visited.contains loc.id = false)
    (hl : loc.coordinates.isSome) (hc : current.coordinates.isSome) :
    (nnScore d method visited current loc).isSome := by
  obtain ⟨lc, hlc⟩ := Option.isSome_iff_exists.mp hl
  obtain ⟨cc, hcc⟩ := Option.isSome_iff_exists.mp hc
  simp only [nnScore, hnv, hlc, hcc]
  cases method <;> simp

theorem nnScore_some_inv {K : Type} [LinearOrderedField K]
    (d : Coordinates → Coordinates → K) (method : OptimizationMethod)
    (visited : List String) (current loc : Location) (s : K)
    (h : nnScore d method visited current loc = some s) :
    visited.contains loc.id = false ∧ loc.coordinates.isSome := by
  by_cases hv : visited.contains loc.id
  · simp only [nnScore] at h
    rw [if_pos hv] at h
    simp at h
  · refine ⟨Bool.eq_false_iff.mpr hv, ?_⟩
    cases hl : loc.coordinates with
    | none =>
      simp only [nnScore] at h
      rw [if_neg hv, hl] at h
      cases hc : current.coordinates with
      | none => rw [hc] at h; simp at h
      | some cc => rw [hc] at h; simp at h
    | some lc => simp [hl]

theorem nnScore_none_of_current {K : Type} [LinearOrderedField K]
    (d : Coordinates → Coordinates → K) (method : OptimizationMethod)
    (visited : List String) (current loc : Location)
    (hc : current.coordinates = none) :
    nnScore d method visited current loc = none := by
  by_cases hv : visited.contains loc.id
  · simp only [nnScore]
    rw [if_pos hv]
  · simp only [nnScore]
    rw [if_neg hv, hc]
    cases loc.coordinates <;> rfl

/-- Total-correctness invariant of the standard nearest-neighbour
`while` loop: with all coordinates present and pairwise-distinct ids,
every iteration finds a fresh candidate, and the loop extends the
accumulator to a permutation of the input. -/
theorem nnGo_total {K : Type} [LinearOrderedField K]
    (d : Coordinates → Coordinates → K) (method : OptimizationMethod)
    (locations : List Location)
    (hnodup : (locations.map (·.id)).Nodup)
    (hcoords : ∀ loc ∈ locations, loc.coordinates.isSome) :
    ∀ (fuel : ℕ) (visited : List String) (acc : List Location)
      (current : Location),
      current ∈ locations →
      (∀ loc ∈ locations, visited.contains loc.id = true ↔ loc ∈ acc) →
      acc.Nodup → acc ⊆ locations →
      visited.length = acc.length →
      locations.length ≤ fuel + visited.length →
      ∃ rest, nnGo d method locations fuel visited acc current
          = some (acc ++ rest) ∧ (acc ++ rest).Perm locations := by
  have hidinj := List.inj_on_of_nodup_map hnodup
  have hlocnodup : locations.Nodup := List.Nodup.of_map _ hnodup
  intro fuel
  induction fuel with
  | zero =>
    intro visited acc current _ _ haccnodup haccsub hlens hbound
    have hexit : ¬ visited.length < locations.length := by omega
    refine ⟨[], ?_, ?_⟩
    · simp only [nnGo]
      rw [if_neg hexit]
      simp
    · rw [List.append_nil]
      exact List.Subperm.perm_of_length_le
        (List.Nodup.subperm haccnodup haccsub) (by omega)
  | succ f ih =>
    intro visited acc current hcur hvis haccnodup haccsub hlens hbound
    by_cases hexit : visited.length < locations.length
    · have hfresh : ∃ loc ∈ locations, loc ∉ acc := by
        by_contra hall
        push_neg at hall
        have : List.Subperm locations acc :=
          List.Nodup.subperm hlocnodup hall
        have := List.Subperm.length_le this
        omega
      obtain ⟨loc₁, hmem₁, hnotacc₁⟩ := hfresh
      have hscore₁ : (nnScore d method visited current loc₁).isSome := by
        apply nnScore_isSome
        · cases hcb : visited.contains loc₁.id with
          | false => rfl
          | true => exact absurd ((hvis loc₁ hmem₁).mp hcb) hnotacc₁
        · exact hcoords loc₁ hmem₁
        · exact hcoords current hcur
      have hpick : (pickMin (nnScore d method visited current)
          locations).isSome :=
        pickMinAux_isSome _ locations 0 none ⟨loc₁, hmem₁, hscore₁⟩
      obtain ⟨⟨nearest, s, idx⟩, hpickeq⟩ :=
        Option.isSome_iff_exists.mp hpick
      have hspec := pickMinAux_spec (nnScore d method visited current)
        locations 0 none nearest s idx hpickeq
      rcases hspec with ⟨hnmem, hnscore⟩ | hcontra
      · obtain ⟨hnotv, hncoords⟩ :=
          nnScore_some_inv d method visited current nearest s hnscore
        have hnotacc : nearest ∉ acc := by
          intro hin
          rw [← hvis nearest hnmem] at hin
          rw [hnotv] at hin
          exact Bool.false_ne_true hin
        have hvis' : ∀ loc ∈ locations,
            (nearest.id :: visited).contains loc.id = true ↔
              loc ∈ acc ++ [nearest] := by
          intro loc hloc
          constructor
          · intro hin
            simp only [List.contains_cons, Bool.or_eq_true, beq_iff_eq]
              at hin
            rcases hin with hin | hin
            · have : loc = nearest := hidinj hloc hnmem hin
              subst this
              simp
            · exact List.mem_append_left _ ((hvis loc hloc).mp hin)
          · intro hin
            rcases List.mem_append.mp hin with hin | hin
            · simp only [List.contains_cons, Bool.or_eq_true]
              exact Or.inr ((hvis loc hloc).mpr hin)
            · simp only [List.mem_singleton] at hin
              subst hin
              simp [List.contains_cons]
        have haccnodup' : (acc ++ [nearest]).Nodup := by
          refine List.Nodup.append haccnodup (by simp) ?_
          intro a ha hb
          simp only [List.mem_singleton] at hb
          subst hb
          exact hnotacc ha
        have haccsub' : acc ++ [nearest] ⊆ locations := by
          intro a ha
          rcases List.mem_append.mp ha with ha | ha
          · exact haccsub ha
          · simp only [List.mem_singleton] at ha
            subst ha
            exact hnmem
        obtain ⟨rest', hrun', hperm'⟩ := ih (nearest.id :: visited)
          (acc ++ [nearest]) nearest hnmem hvis' haccnodup' haccsub'
          (by simp [hlens]) (by simp; omega)
        refine ⟨nearest :: rest', ?_, ?_⟩
        · simp only [nnGo]
          rw [if_pos hexit]
          rw [hpickeq]
          simp only []
          rw [hrun']
          simp
        · have : acc ++ nearest :: rest' = (acc ++ [nearest]) ++ rest' := by
            simp
          rw [this]
          exact hperm'
      · simp at hcontra
    · refine ⟨[], ?_, ?_⟩
      · simp only [nnGo]
        rw [if_neg hexit]
        simp
      · rw [List.append_nil]
        exact List.Subperm.perm_of_length_le
          (List.Nodup.subperm haccnodup haccsub) (by omega)

/-- If the standard nearest-neighbour loop terminates, the final
visited set is a duplicate-free list of ids drawn from `allowed` whose
size reaches the input length, so the input length is bounded by the
number of distinct allowed ids. -/
theorem nnGo_some_bound {K : Type} [LinearOrderedField K]
    (d : Coordinates → Coordinates → K) (method : OptimizationMethod)
    (locations : List Location) (allowed : List String)
    (hallowed : ∀ loc ∈ locations, loc.coordinates.isSome = true →
      loc.id ∈ allowed) :
    ∀ (fuel : ℕ) (visited : List String) (acc : List Location)
      (current : Location) (res : List Location),
      nnGo d method locations fuel visited acc current = some res →
      visited.Nodup → (∀ v ∈ visited, v ∈ allowed) →
      locations.length ≤ allowed.dedup.length := by
  intro fuel
  induction fuel with
  | zero =>
    intro visited acc current res h hnodup hsub
    by_cases hexit : visited.length < locations.length
    · simp only [nnGo] at h
      rw [if_pos hexit] at h
      simp at h
    · have hsubd : visited ⊆ allowed.dedup := by
        intro v hv
        exact List.mem_dedup.mpr (hsub v hv)
      have := List.Subperm.length_le (List.Nodup.subperm hnodup hsubd)
      omega
  | succ f ih =>
    intro visited acc current res h hnodup hsub
    by_cases hexit : visited.length < locations.length
    · simp only [nnGo] at h
      rw [if_pos hexit] at h
      cases hpick : pickMin (nnScore d method visited current)
          locations with
      | none => rw [hpick] at h; simp at h
      | some triple =>
        obtain ⟨nearest, s, idx⟩ := triple
        rw [hpick] at h
        simp only [] at h
        rcases pickMinAux_spec (nnScore d method visited current)
            locations 0 none nearest s idx hpick with
          ⟨hnmem, hnscore⟩ | hcontra
        · obtain ⟨hnotv, hncoords⟩ :=
            nnScore_some_inv d method visited current nearest s hnscore
          have hnodup' : (nearest.id :: visited).Nodup := by
            rw [List.nodup_cons]
            refine ⟨?_, hnodup⟩
            intro hin
            have h2 : visited.contains nearest.id = true :=
              List.elem_eq_true_of_mem hin
            rw [h2] at hnotv
            exact Bool.noConfusion hnotv
          have hsub' : ∀ v ∈ nearest.id :: visited, v ∈ allowed := by
            intro v hv
            rcases List.mem_cons.mp hv with rfl | hv
            · exact hallowed nearest hnmem hncoords
            · exact hsub v hv
          exact ih _ _ _ _ h hnodup' hsub'
        · simp at hcontra
    · have hsubd : visited ⊆ allowed.dedup := by
        intro v hv
        exact List.mem_dedup.mpr (hsub v hv)
      have := List.Subperm.length_le (List.Nodup.subperm hnodup hsubd)
      omega

/-- With a second stop present, a missing coordinate or a duplicated
id starves the visited-count loop: the model's `none`. -/
theorem nnGo_start_none {K : Type} [LinearOrderedField K]
    (d : Coordinates → Coordinates → K) (method : OptimizationMethod)
    (l0 : Location) (others : List Location)
    (hlen : 1 ≤ others.length)
    (hbad : (∃ loc ∈ l0 :: others, loc.coordinates = none) ∨
      ¬ ((l0 :: others).map (·.id)).Nodup) :
    nnGo d method (l0 :: others) (l0 :: others).length [l0.id] [l0] l0
      = none := by
  cases heq : nnGo d method (l0 :: others) (l0 :: others).length
      [l0.id] [l0] l0 with
  | none => rfl
  | some res =>
    exfalso
    rcases hbad with ⟨loc₀, hmem₀, hnone₀⟩ | hdup
    · by_cases hc0 : l0.coordinates.isSome
      · have hb := nnGo_some_bound d method (l0 :: others)
          (((l0 :: others).filter
            (fun loc => loc.coordinates.isSome)).map (fun loc => loc.id))
          (fun loc hloc hcs =>
            List.mem_map_of_mem _ (List.mem_filter.mpr ⟨hloc, hcs⟩))
          _ _ _ _ _ heq (by simp)
          (by
            intro v hv
            simp only [List.mem_singleton] at hv
            subst hv
            exact List.mem_map_of_mem _
              (List.mem_filter.mpr ⟨by simp, hc0⟩))
        have h1 : (((l0 :: others).filter
              (fun loc => loc.coordinates.isSome)).map
              (fun loc => loc.id)).dedup.length ≤
            (((l0 :: others).filter
              (fun loc => loc.coordinates.isSome)).map
              (fun loc => loc.id)).length :=
          (List.dedup_sublist _).length_le
        have h2 : (((l0 :: others).filter
              (fun loc => loc.coordinates.isSome)).map
              (fun loc => loc.id)).length =
            ((l0 :: others).filter
              (fun loc => loc.coordinates.isSome)).length :=
          List.length_map _ _
        have h3 : ((l0 :: others).filter
              (fun loc => loc.coordinates.isSome)).length <
            (l0 :: others).length :=
          List.length_filter_lt_length_iff_exists.mpr
            ⟨loc₀, hmem₀, by simp [hnone₀]⟩
        omega
      · have hcnone : l0.coordinates = none :=
          Option.not_isSome_iff_eq_none.mp hc0
        have hlt : ([l0.id] : List String).length <
            (l0 :: others).length := by
          simp only [List.length_singleton, List.length_cons,
            List.length_nil]
          omega
        have hpm : pickMin (nnScore d method [l0.id] l0)
            (l0 :: others) = none :=
          pickMinAux_of_none _ _ 0 none
            (fun loc _ =>
              nnScore_none_of_current d method [l0.id] l0 loc hcnone)
        have hnone : nnGo d method (l0 :: others) (l0 :: others).length
            [l0.id] [l0] l0 = none := by
          show nnGo d method (l0 :: others) (others.length + 1)
            [l0.id] [l0] l0 = none
          simp only [nnGo]
          rw [if_pos hlt, hpm]
        rw [heq] at hnone
        exact Option.noConfusion hnone
    · have hb := nnGo_some_bound d method (l0 :: others)
        ((l0 :: others).map (fun loc => loc.id))
        (fun loc hloc _ => List.mem_map_of_mem _ hloc)
        _ _ _ _ _ heq (by simp)
        (by
          intro v hv
          simp only [List.mem_singleton] at hv
          subst hv
          exact List.mem_map_of_mem _ (by simp))
      have h1 : ((l0 :: others).map (fun loc => loc.id)).dedup.length <
          ((l0 :: others).map (fun loc => loc.id)).length := by
        rcases Nat.lt_or_ge
            (((l0 :: others).map (fun loc => loc.id)).dedup.length)
            (((l0 :: others).map (fun loc => loc.id)).length) with h | h
        · exact h
        · exfalso
          have heqd := List.Sublist.eq_of_length_le
            (List.dedup_sublist _) h
          exact hdup (heqd ▸ List.nodup_dedup _)
      have h2 : ((l0 :: others).map (fun loc => loc.id)).length =
          (l0 :: others).length := List.length_map _ _
      omega

/-- With at least two stops, a missing coordinate or a duplicated id
makes the standard nearest-neighbour ordering diverge. -/
theorem nn_diverges {K : Type} [LinearOrderedField K]
    (d : Coordinates → Coordinates → K) (method : OptimizationMethod)
    (locations : List Location)
    (hlen : 2 ≤ locations.length)
    (hbad : (∃ loc ∈ locations, loc.coordinates = none) ∨
      ¬ (locations.map (·.id)).Nodup) :
    nearestNeighborOptimizationD d locations method false = none := by
  obtain ⟨l0, others, rfl⟩ : ∃ l0 others, locations = l0 :: others := by
    cases locations with
    | nil => simp at hlen
    | cons a as => exact ⟨a, as, rfl⟩
  simp only [nearestNeighborOptimizationD]
  rw [if_neg (by simp only [List.length_cons] at hlen ⊢; omega)]
  rw [if_neg (by simp)]
  exact nnGo_start_none d method l0 others
    (by simp only [List.length_cons] at hlen; omega) hbad

/-- C9: the standard nearest-neighbour ordering (non-loop path) —
with a nonempty input whose stops all carry coordinates and whose ids
are pairwise distinct, it terminates with a permutation of the input
beginning at the first stop; AMENDED: the divergence half additionally
requires at least two stops, because a single-stop input is returned
unchanged by the `length <= 1` early return before the loop, even when
its only stop lacks coordinates. -/
theorem c9_nearest_neighbor (method : OptimizationMethod)
    (locations : List Location) :
    (locations ≠ [] →
      (∀ loc ∈ locations, loc.coordinates.isSome) →
      (locations.map (·.id)).Nodup →
      ∃ res, nearestNeighborOptimization locations method false
          = some res ∧
        res.Perm locations ∧ res.head? = locations.head?) ∧
    (2 ≤ locations.length →
      ((∃ loc ∈ locations, loc.coordinates = none) ∨
        ¬ (locations.map (·.id)).Nodup) →
      nearestNeighborOptimization locations method false = none) := by
  constructor
  · intro hne hcoords hnodup
    by_cases hsmall : locations.length ≤ 1
    · refine ⟨locations, ?_, List.Perm.refl _, rfl⟩
      show nearestNeighborOptimizationD calculateDistance locations
        method false = some locations
      simp only [nearestNeighborOptimizationD]
      rw [if_pos hsmall]
    · obtain ⟨l0, others, rfl⟩ : ∃ l0 others, locations = l0 :: others := by
        cases locations with
        | nil => exact absurd rfl hne
        | cons a as => exact ⟨a, as, rfl⟩
      have hidinj := List.inj_on_of_nodup_map hnodup
      obtain ⟨rest, hrun, hperm⟩ := nnGo_total calculateDistance method
        (l0 :: others) hnodup hcoords (l0 :: others).length [l0.id] [l0] l0
        (by simp)
        (by
          intro loc hloc
          constructor
          · intro hin
            simp only [List.contains_cons, List.contains_nil,
              Bool.or_false, beq_iff_eq] at hin
            have : loc = l0 := hidinj hloc (by simp) hin
            simp [this]
          · intro hin
            simp only [List.mem_singleton] at hin
            subst hin
            simp [List.contains_cons])
        (by simp)
        (by
          intro a ha
          simp only [List.mem_singleton] at ha
          simp [ha])
        (by rfl) (by omega)
      refine ⟨[l0] ++ rest, ?_, hperm, by simp⟩
      show nearestNeighborOptimizationD calculateDistance (l0 :: others)
        method false = some ([l0] ++ rest)
      simp only [nearestNeighborOptimizationD]
      rw [if_neg hsmall, if_neg (by simp)]
      exact hrun
  · intro hlen hbad
    exact nn_diverges calculateDistance method locations hlen hbad

theorem c9_nearest_neighbor_witness :
    (([locZ1, locZ2] : List Location) ≠ [] ∧
      (∀ loc ∈ ([locZ1, locZ2] : List Location), loc.coordinates.isSome) ∧
      (([locZ1, locZ2] : List Location).map (·.id)).Nodup ∧
      ∃ res, nearestNeighborOptimization [locZ1, locZ2]
          .shortest_distance false = some res ∧
        res.Perm [locZ1, locZ2] ∧
        res.head? = ([locZ1, locZ2] : List Location).head?) ∧
    (2 ≤ ([locX, locZ1] : List Location).length ∧
      (∃ loc ∈ ([locX, locZ1] : List Location), loc.coordinates = none) ∧
      nearestNeighborOptimization [locX, locZ1]
        .shortest_distance false = none) :=
  ⟨⟨by decide, by decide, by decide,
    (c9_nearest_neighbor .shortest_distance [locZ1, locZ2]).1
      (by decide) (by decide) (by decide)⟩,
   ⟨by decide, ⟨locX, by decide, rfl⟩,
    (c9_nearest_neighbor .shortest_distance [locX, locZ1]).2
      (by decide) (Or.inl ⟨locX, by decide, rfl⟩)⟩⟩

/-- C9 counterexample to the divergence half as originally stated: a
single stop without coordinates is returned unchanged — the
`length <= 1` early return fires before the visited-count loop, so the
run terminates. -/
theorem c9_singleton_counterexample :
    locX.coordinates = none ∧
    nearestNeighborOptimization [locX] .shortest_distance false
      = some [locX] :=
  ⟨rfl, rfl⟩

theorem get_cons_eraseIdx {α : Type} :
    ∀ (l : List α) (i : ℕ) (a : α), l.get? i = some a →
      l.Perm (a :: l.eraseIdx i) := by
  intro l
  induction l with
  | nil => intro i a h; simp at h
  | cons x xs ih =>
    intro i a h
    cases i with
    | zero =>
      simp only [List.get?] at h
      injection h with h
      subst h
      exact List.Perm.refl _
    | succ j =>
      simp only [List.get?] at h
      have hrec := ih j a h
      have h1 : (x :: xs).Perm (x :: (a :: xs.eraseIdx j)) := hrec.cons x
      have h2 : (x :: a :: xs.eraseIdx j).Perm (a :: x :: xs.eraseIdx j) :=
        List.Perm.swap a x _
      exact h1.trans h2

theorem pickMinAux_get {K : Type} [LinearOrderedField K]
    (score : Location → Option K) :
    ∀ (l : List Location) (i : ℕ) (best : Option (Location × K × ℕ))
      (loc : Location) (s : K) (idx : ℕ),
      pickMinAux score l i best = some (loc, s, idx) →
      (∃ j, idx = i + j ∧ l.get? j = some loc) ∨
        best = some (loc, s, idx) := by
  intro l
  induction l with
  | nil => intro i best loc s idx h; exact Or.inr h
  | cons x xs ih =>
    intro i best loc s idx h
    have hshift : ∀ (b : Option (Location × K × ℕ)),
        pickMinAux score xs (i + 1) b = some (loc, s, idx) →
        (∃ j, idx = i + j ∧ (x :: xs).get? j = some loc) ∨
          b = some (loc, s, idx) := by
      intro b hb
      rcases ih (i + 1) b loc s idx hb with ⟨j, hj, hget⟩ | hbb
      · exact Or.inl ⟨j + 1, by omega, by simpa using hget⟩
      · exact Or.inr hbb
    simp only [pickMinAux] at h
    cases hx : score x with
    | none =>
      rw [hx] at h
      simp only [] at h
      exact hshift best h
    | some s' =>
      rw [hx] at h
      cases best with
      | none =>
        simp only [] at h
        rcases hshift _ h with hgot | hbb
        · exact Or.inl hgot
        · injection hbb with hb
          injection hb with hb₁ hb₂
          injection hb₂ with hb₃ hb₄
          exact Or.inl ⟨0, by omega, by rw [← hb₁]; rfl⟩
      | some b =>
        obtain ⟨bl, bs, bi⟩ := b
        simp only [] at h
        by_cases hlt : s' < bs
        · rw [if_pos hlt] at h
          rcases hshift _ h with hgot | hbb
          · exact Or.inl hgot
          · injection hbb with hb
            injection hb with hb₁ hb₂
            injection hb₂ with hb₃ hb₄
            exact Or.inl ⟨0, by omega, by rw [← hb₁]; rfl⟩
        · rw [if_neg hlt] at h
          rcases hshift _ h with hgot | hbb
          · exact Or.inl hgot
          · exact Or.inr hbb

/-- A winner of `pickMin` sits at the reported index of the list. -/
theorem pickMin_get {K : Type} [LinearOrderedField K]
    (score : Location → Option K) (l : List Location)
    (loc : Location) (s : K) (idx : ℕ)
    (h : pickMin score l = some (loc, s, idx)) :
    l.get? idx = some loc := by
  rcases pickMinAux_get score l 0 none loc s idx h with ⟨j, hj, hget⟩ | hbb
  · rw [show idx = j by omega]
    exact hget
  · exact absurd hbb (by simp)

/-- Terminating runs of the remaining-list loop of
`findNearestNeighborLoop` extend the accumulator with a permutation of
the remaining stops (the fuel covers the remaining length, and every
iteration erases the winner's index). -/
theorem fnnlGo_perm {K : Type} [LinearOrderedField K]
    (d : Coordinates → Coordinates → K) (method : OptimizationMethod)
    (start : Location) :
    ∀ (fuel : ℕ) (current : Location) (remaining acc res : List Location),
      remaining.length ≤ fuel →
      fnnlGo d method start fuel current remaining acc = some res →
      res.Perm (acc ++ remaining) := by
  intro fuel
  induction fuel with
  | zero =>
    intro current remaining acc res hlen h
    cases remaining with
    | nil =>
      simp only [fnnlGo] at h
      injection h with h
      subst h
      simp
    | cons r rs => simp at hlen
  | succ f ih =>
    intro current remaining acc res hlen h
    cases remaining with
    | nil =>
      simp only [fnnlGo] at h
      injection h with h
      subst h
      simp
    | cons r rs =>
      simp only [fnnlGo] at h
      cases hpick : pickMin
          (fnnlScore d method start current (r :: rs).length) (r :: rs) with
      | none => rw [hpick] at h; simp at h
      | some triple =>
        obtain ⟨nearest, s, idx⟩ := triple
        rw [hpick] at h
        simp only [] at h
        have hget := pickMin_get _ _ _ _ _ hpick
        obtain ⟨hidx, -⟩ := List.get?_eq_some.mp hget
        have hlen' : ((r :: rs).eraseIdx idx).length ≤ f := by
          have := List.length_eraseIdx_add_one hidx
          simp only [List.length_cons] at hlen this ⊢
          omega
        have hrec := ih nearest ((r :: rs).eraseIdx idx)
          (acc ++ [nearest]) res hlen' h
        have h1 : (r :: rs).Perm (nearest :: (r :: rs).eraseIdx idx) :=
          get_cons_eraseIdx _ _ _ hget
        have h2 : (acc ++ [nearest]) ++ (r :: rs).eraseIdx idx
            = acc ++ (nearest :: (r :: rs).eraseIdx idx) := by simp
        rw [h2] at hrec
        exact hrec.trans (List.Perm.append_left acc h1).symm

/-- The same argument for the shared rest-optimizing loop. -/
theorem restGo_perm {K : Type} [LinearOrderedField K]
    (d : Coordinates → Coordinates → K) (base : Location) :
    ∀ (fuel : ℕ) (current : Location) (remaining acc res : List Location),
      remaining.length ≤ fuel →
      restGo d base fuel current remaining acc = some res →
      res.Perm (acc ++ remaining) := by
  intro fuel
  induction fuel with
  | zero =>
    intro current remaining acc res hlen h
    cases remaining with
    | nil =>
      simp only [restGo] at h
      injection h with h
      subst h
      simp
    | cons r rs => simp at hlen
  | succ f ih =>
    intro current remaining acc res hlen h
    cases remaining with
    | nil =>
      simp only [restGo] at h
      injection h with h
      subst h
      simp
    | cons r rs =>
      simp only [restGo] at h
      cases hpick : pickMin
          (restScore d base current (r :: rs).length) (r :: rs) with
      | none => rw [hpick] at h; simp at h
      | some triple =>
        obtain ⟨nearest, s, idx⟩ := triple
        rw [hpick] at h
        simp only [] at h
        have hget := pickMin_get _ _ _ _ _ hpick
        obtain ⟨hidx, -⟩ := List.get?_eq_some.mp hget
        have hlen' : ((r :: rs).eraseIdx idx).length ≤ f := by
          have := List.length_eraseIdx_add_one hidx
          simp only [List.length_cons] at hlen this ⊢
          omega
        have hrec := ih nearest ((r :: rs).eraseIdx idx)
          (acc ++ [nearest]) res hlen' h
        have h1 : (r :: rs).Perm (nearest :: (r :: rs).eraseIdx idx) :=
          get_cons_eraseIdx _ _ _ hget
        have h2 : (acc ++ [nearest]) ++ (r :: rs).eraseIdx idx
            = acc ++ (nearest :: (r :: rs).eraseIdx idx) := by simp
        rw [h2] at hrec
        exact hrec.trans (List.Perm.append_left acc h1).symm

theorem findNearestNeighborLoopD_perm {K : Type} [LinearOrderedField K]
    (d : Coordinates → Coordinates → K) (method : OptimizationMethod)
    (start : Location) (others res : List Location)
    (h : findNearestNeighborLoopD d method start others = some res) :
    res.Perm (start :: others) := by
  have := fnnlGo_perm d method start others.length start others [start] res
    (le_refl _) h
  simpa using this

theorem optimizeFromSecondLocationD_perm {K : Type} [LinearOrderedField K]
    (d : Coordinates → Coordinates → K) (order res : List Location)
    (h : optimizeFromSecondLocationD d order = some res) :
    res.Perm order := by
  simp only [optimizeFromSecondLocationD] at h
  by_cases hlen : order.length ≤ 2
  · rw [if_pos hlen] at h
    injection h with h
    subst h
    exact List.Perm.refl _
  · rw [if_neg hlen] at h
    cases order with
    | nil => simp at hlen
    | cons o0 tl =>
      cases tl with
      | nil => simp at hlen
      | cons o1 rest =>
        simp only [] at h
        have := restGo_perm d o0 rest.length o1 rest [o0, o1] res
          (le_refl _) h
        simpa using this

theorem better_fst {K : Type} [LinearOrderedField K]
    (cand : List Location × K) (best : List Location × Option K) :
    (better cand best).1 = cand.1 ∨ (better cand best).1 = best.1 := by
  simp only [better]
  cases hb : best.2 with
  | none => exact Or.inl rfl
  | some bs =>
    simp only []
    by_cases h : cand.2 < bs
    · rw [if_pos h]
      exact Or.inl rfl
    · rw [if_neg h]
      exact Or.inr rfl

theorem pickFarthest_mem {K : Type} [LinearOrderedField K]
    (d : Coordinates → Coordinates → K) (start : Location) :
    ∀ (l : List Location) (b : Option Location) (m : K)
      (f : Location) (m' : K),
      pickFarthest d start l (b, m) = (some f, m') →
      f ∈ l ∨ b = some f := by
  intro l
  induction l with
  | nil =>
    intro b m f m' h
    simp only [pickFarthest] at h
    injection h with h1 h2
    exact Or.inr h1
  | cons x xs ih =>
    intro b m f m' h
    simp only [pickFarthest] at h
    cases hx : x.coordinates with
    | none =>
      rw [hx] at h
      cases hs : start.coordinates with
      | none =>
        rw [hs] at h
        simp only [] at h
        rcases ih _ _ _ _ h with hm | hm
        · exact Or.inl (List.mem_cons_of_mem x hm)
        · exact Or.inr hm
      | some sc =>
        rw [hs] at h
        simp only [] at h
        rcases ih _ _ _ _ h with hm | hm
        · exact Or.inl (List.mem_cons_of_mem x hm)
        · exact Or.inr hm
    | some lc =>
      rw [hx] at h
      cases hs : start.coordinates with
      | none =>
        rw [hs] at h
        simp only [] at h
        rcases ih _ _ _ _ h with hm | hm
        · exact Or.inl (List.mem_cons_of_mem x hm)
        · exact Or.inr hm
      | some sc =>
        rw [hs] at h
        simp only [] at h
        by_cases hlt : m < d sc lc
        · rw [if_pos hlt] at h
          rcases ih _ _ _ _ h with hm | hm
          · exact Or.inl (List.mem_cons_of_mem x hm)
          · injection hm with hm
            subst hm
            exact Or.inl (List.mem_cons_self x xs)
        · rw [if_neg hlt] at h
          rcases ih _ _ _ _ h with hm | hm
          · exact Or.inl (List.mem_cons_of_mem x hm)
          · exact Or.inr hm

/-- With pairwise-distinct ids, dropping `farthest` by id removes
exactly one stop. -/
theorem filter_ne_id_perm :
    ∀ (others : List Location) (farthest : Location),
      (others.map (fun loc => loc.id)).Nodup → farthest ∈ others →
      (farthest :: others.filter
        (fun loc => !(loc.id == farthest.id))).Perm others := by
  intro others
  induction others with
  | nil => intro f _ hmem; simp at hmem
  | cons x xs ih =>
    intro f hnodup hmem
    rw [List.map_cons, List.nodup_cons] at hnodup
    obtain ⟨hxid, hxs⟩ := hnodup
    rcases List.mem_cons.mp hmem with rfl | hmem'
    · have hfilter : xs.filter (fun loc => !(loc.id == f.id)) = xs := by
        rw [List.filter_eq_self]
        intro a ha
        simp only [Bool.not_eq_true', beq_eq_false_iff_ne, ne_eq]
        intro heq
        exact hxid (heq ▸ List.mem_map_of_mem _ ha)
      rw [List.filter_cons, if_neg (by simp)]
      rw [hfilter]
    · have hxf : (x.id == f.id) = false := by
        rw [beq_eq_false_iff_ne]
        intro heq
        exact hxid (heq ▸ List.mem_map_of_mem _ hmem')
      rw [List.filter_cons, if_pos (by simp [hxf])]
      have hrec := ih f hxs hmem'
      exact (List.Perm.swap x f _).trans (hrec.cons x)

theorem findFarthestFirstLoopD_perm {K : Type} [LinearOrderedField K]
    (d : Coordinates → Coordinates → K) (start : Location)
    (others res : List Location)
    (hnodup : (others.map (fun loc => loc.id)).Nodup)
    (h : findFarthestFirstLoopD d start others = some res) :
    res.Perm (start :: others) := by
  simp only [findFarthestFirstLoopD] at h
  cases hp : pickFarthest d start others (none, 0) with
  | mk fst snd =>
    rw [hp] at h
    cases fst with
    | none =>
      simp only [] at h
      injection h with h
      subst h
      exact List.Perm.refl _
    | some farthest =>
      simp only [] at h
      have hmem : farthest ∈ others := by
        rcases pickFarthest_mem d start others none 0 farthest snd hp with
          hm | hm
        · exact hm
        · exact absurd hm (by simp)
      have hrest := restGo_perm d start
        (others.filter (fun loc => !(loc.id == farthest.id))).length
        farthest (others.filter (fun loc => !(loc.id == farthest.id)))
        [start, farthest] res (le_refl _) h
      have hfp := filter_ne_id_perm others farthest hnodup hmem
      have h2 : ([start, farthest] ++
          others.filter (fun loc => !(loc.id == farthest.id)))
          = start :: farthest ::
            others.filter (fun loc => !(loc.id == farthest.id)) := by simp
      rw [h2] at hrest
      exact hrest.trans ((hfp.cons start))

/-- Without any assumption on ids, the farthest-first result still
draws all its stops from the input (the id-based filter can only drop
stops, never invent them). -/
theorem findFarthestFirstLoopD_subset {K : Type} [LinearOrderedField K]
    (d : Coordinates → Coordinates → K) (start : Location)
    (others res : List Location)
    (h : findFarthestFirstLoopD d start others = some res) :
    ∀ x ∈ res, x ∈ start :: others := by
  simp only [findFarthestFirstLoopD] at h
  cases hp : pickFarthest d start others (none, 0) with
  | mk fst snd =>
    rw [hp] at h
    cases fst with
    | none =>
      simp only [] at h
      injection h with h
      subst h
      exact fun x hx => hx
    | some farthest =>
      simp only [] at h
      have hmem : farthest ∈ others := by
        rcases pickFarthest_mem d start others none 0 farthest snd hp with
          hm | hm
        · exact hm
        · exact absurd hm (by simp)
      have hrest := restGo_perm d start
        (others.filter (fun loc => !(loc.id == farthest.id))).length
        farthest (others.filter (fun loc => !(loc.id == farthest.id)))
        [start, farthest] res (le_refl _) h
      intro x hx
      rcases List.mem_append.mp (hrest.mem_iff.mp hx) with h2 | h2
      · simp only [List.mem_cons, List.not_mem_nil, or_false] at h2
        rcases h2 with rfl | rfl
        · exact List.mem_cons_self _ _
        · exact List.mem_cons_of_mem _ hmem
      · exact List.mem_cons_of_mem _ (List.mem_of_mem_filter h2)

theorem altLoop_perm {K : Type} [LinearOrderedField K]
    (d : Coordinates → Coordinates → K) (method : OptimizationMethod)
    (start : Location) (others : List Location) :
    ∀ (idxs : List ℕ) (best res : List Location × Option K),
      best.1.Perm (start :: others) →
      altLoop d method start others idxs best = some res →
      res.1.Perm (start :: others) := by
  intro idxs
  induction idxs with
  | nil =>
    intro best res hbest h
    simp only [altLoop] at h
    injection h with h
    subst h
    exact hbest
  | cons i rest ih =>
    intro best res hbest h
    simp only [altLoop] at h
    cases hoi : others.get? i with
    | none =>
      rw [hoi] at h
      simp only [] at h
      injection h with h
      subst h
      exact hbest
    | some oi =>
      rw [hoi] at h
      simp only [] at h
      cases hopt : optimizeFromSecondLocationD d
          (start :: oi :: others.eraseIdx i) with
      | none => rw [hopt] at h; simp at h
      | some reordered =>
        rw [hopt] at h
        simp only [] at h
        have hperm₁ : reordered.Perm (start :: oi :: others.eraseIdx i) :=
          optimizeFromSecondLocationD_perm d _ _ hopt
        have hperm₂ : (oi :: others.eraseIdx i).Perm others :=
          (get_cons_eraseIdx others i oi hoi).symm
        have hre : reordered.Perm (start :: others) :=
          hperm₁.trans (hperm₂.cons start)
        refine ih _ res ?_ h
        rcases better_fst (reordered,
            calculateCompleteLoopScoreD d method reordered) best with
          hb | hb
        · rw [hb]; exact hre
        · rw [hb]; exact hbest

theorem loopAwareOptimizationD_perm {K : Type} [LinearOrderedField K]
    (d : Coordinates → Coordinates → K) (locations : List Location)
    (method : OptimizationMethod) (res : List Location)
    (hnodup : (locations.map (fun loc => loc.id)).Nodup)
    (h : loopAwareOptimizationD d locations method = some res) :
    res.Perm locations := by
  cases locations with
  | nil => simp [loopAwareOptimizationD] at h
  | cons start others =>
    simp only [loopAwareOptimizationD] at h
    cases hn : findNearestNeighborLoopD d method start others with
    | none => rw [hn] at h; simp at h
    | some nearestFirst =>
      rw [hn] at h
      simp only [] at h
      cases hf : findFarthestFirstLoopD d start others with
      | none => rw [hf] at h; simp at h
      | some farthestFirst =>
        rw [hf] at h
        simp only [] at h
        cases ha : altLoop d method start others
            (List.range (min others.length 3))
            (better (farthestFirst,
                calculateCompleteLoopScoreD d method farthestFirst)
              (better (nearestFirst,
                  calculateCompleteLoopScoreD d method nearestFirst)
                (start :: others, none))) with
        | none => rw [ha] at h; simp at h
        | some best3 =>
          rw [ha] at h
          simp only [] at h
          injection h with h
          subst h
          have hothers : (others.map (fun loc => loc.id)).Nodup := by
            rw [List.map_cons, List.nodup_cons] at hnodup
            exact hnodup.2
          have hnperm := findNearestNeighborLoopD_perm d method start
            others nearestFirst hn
          have hfperm := findFarthestFirstLoopD_perm d start others
            farthestFirst hothers hf
          refine altLoop_perm d method start others _ _ best3 ?_ ha
          rcases better_fst (farthestFirst,
              calculateCompleteLoopScoreD d method farthestFirst)
            (better (nearestFirst,
                calculateCompleteLoopScoreD d method nearestFirst)
              (start :: others, none)) with hb | hb
          · rw [hb]; exact hfperm
          · rw [hb]
            rcases better_fst (nearestFirst,
                calculateCompleteLoopScoreD d method nearestFirst)
              (start :: others, none) with hb2 | hb2
            · rw [hb2]; exact hnperm
            · rw [hb2]

/-- Whenever the standard nearest-neighbour loop terminates on a
duplicate-free input, its result is a permutation of the input. -/
theorem nnGo_main_perm {K : Type} [LinearOrderedField K]
    (d : Coordinates → Coordinates → K) (method : OptimizationMethod)
    (l0 : Location) (others : List Location) (res : List Location)
    (hnodup : ((l0 :: others).map (fun loc => loc.id)).Nodup)
    (heq : nnGo d method (l0 :: others) (l0 :: others).length
      [l0.id] [l0] l0 = some res) :
    res.Perm (l0 :: others) := by
  by_cases hcoords : ∀ loc ∈ l0 :: others, loc.coordinates.isSome
  · have hidinj := List.inj_on_of_nodup_map hnodup
    obtain ⟨rest, hrun, hperm⟩ := nnGo_total d method (l0 :: others)
      hnodup hcoords (l0 :: others).length [l0.id] [l0] l0
      (by simp)
      (by
        intro loc hloc
        constructor
        · intro hin
          simp only [List.contains_cons, List.contains_nil,
            Bool.or_false, beq_iff_eq] at hin
          have : loc = l0 := hidinj hloc (by simp) hin
          simp [this]
        · intro hin
          simp only [List.mem_singleton] at hin
          subst hin
          simp [List.contains_cons])
      (by simp)
      (by
        intro a ha
        simp only [List.mem_singleton] at ha
        simp [ha])
      (by rfl) (by omega)
    rw [heq] at hrun
    injection hrun with hrun
    rw [hrun]
    exact hperm
  · push_neg at hcoords
    obtain ⟨loc₀, hmem₀, hns⟩ := hcoords
    have hnone₀ : loc₀.coordinates = none :=
      Option.not_isSome_iff_eq_none.mp (by simpa using hns)
    cases others with
    | nil =>
      have hres : some ([l0] : List Location) = some res := by
        rw [← heq]
        simp only [nnGo]
        rw [if_neg (by simp)]
      injection hres with hres
      rw [← hres]
    | cons o os =>
      exfalso
      have hnone := nnGo_start_none d method l0 (o :: os)
        (by simp) (Or.inl ⟨loc₀, hmem₀, hnone₀⟩)
      rw [heq] at hnone
      exact Option.noConfusion hnone

theorem nearestNeighborOptimizationD_perm {K : Type} [LinearOrderedField K]
    (d : Coordinates → Coordinates → K) (locations : List Location)
    (method : OptimizationMethod) (isLoop : Bool) (res : List Location)
    (hnodup : (locations.map (fun loc => loc.id)).Nodup)
    (h : nearestNeighborOptimizationD d locations method isLoop
      = some res) :
    res.Perm locations := by
  simp only [nearestNeighborOptimizationD] at h
  by_cases hsmall : locations.length ≤ 1
  · rw [if_pos hsmall] at h
    injection h with h
    subst h
    exact List.Perm.refl _
  · rw [if_neg hsmall] at h
    by_cases hloop : isLoop = true ∧ 3 ≤ locations.length
    · rw [if_pos hloop] at h
      exact loopAwareOptimizationD_perm d locations method res hnodup h
    · rw [if_neg hloop] at h
      cases locations with
      | nil => simp at hsmall
      | cons l0 others =>
        simp only [] at h
        exact nnGo_main_perm d method l0 others res hnodup h

theorem permuteGo_mem {α : Type} (maxCount : ℕ) :
    ∀ (fuel : ℕ) (current remaining : List α) (acc : List (List α)),
      ∀ p ∈ permuteGo maxCount fuel current remaining acc,
        p ∈ acc ∨ p.Perm (current ++ remaining) := by
  intro fuel
  induction fuel with
  | zero =>
    intro current remaining acc p hp
    rw [permuteGo.eq_def] at hp
    simp only [] at hp
    by_cases hfull : maxCount ≤ acc.length
    · rw [if_pos hfull] at hp
      exact Or.inl hp
    · rw [if_neg hfull] at hp
      cases remaining with
      | nil =>
        simp only [] at hp
        rcases List.mem_append.mp hp with h | h
        · exact Or.inl h
        · simp only [List.mem_singleton] at h
          subst h
          exact Or.inr (by simp)
      | cons r rs =>
        simp only [] at hp
        exact Or.inl hp
  | succ f ih =>
    intro current remaining acc p hp
    rw [permuteGo.eq_def] at hp
    simp only [] at hp
    by_cases hfull : maxCount ≤ acc.length
    · rw [if_pos hfull] at hp
      exact Or.inl hp
    · rw [if_neg hfull] at hp
      cases remaining with
      | nil =>
        simp only [] at hp
        rcases List.mem_append.mp hp with h | h
        · exact Or.inl h
        · simp only [List.mem_singleton] at h
          subst h
          exact Or.inr (by simp)
      | cons r rs =>
        simp only [] at hp
        have hfold : ∀ (idxs : List ℕ) (a : List (List α)),
            p ∈ idxs.foldl (fun a i =>
              match (r :: rs).get? i with
              | some next => permuteGo maxCount f (current ++ [next])
                  ((r :: rs).eraseIdx i) a
              | none => a) a →
            p ∈ a ∨ p.Perm (current ++ r :: rs) := by
          intro idxs
          induction idxs with
          | nil => intro a ha; exact Or.inl ha
          | cons i is ihf =>
            intro a ha
            rw [List.foldl_cons] at ha
            rcases ihf _ ha with hmem | hperm
            · cases hg : (r :: rs).get? i with
              | none =>
                rw [hg] at hmem
                simp only [] at hmem
                exact Or.inl hmem
              | some next =>
                rw [hg] at hmem
                simp only [] at hmem
                rcases ih (current ++ [next]) ((r :: rs).eraseIdx i) a
                    p hmem with h | h
                · exact Or.inl h
                · refine Or.inr ?_
                  have hnext := get_cons_eraseIdx (r :: rs) i next hg
                  have heq2 : (current ++ [next]) ++ (r :: rs).eraseIdx i
                      = current ++ (next :: (r :: rs).eraseIdx i) := by
                    simp
                  rw [heq2] at h
                  exact h.trans (List.Perm.append_left current hnext.symm)
            · exact Or.inr hperm
        exact hfold _ _ hp

theorem generatePermutations_perm {α : Type} (arr : List α)
    (maxCount : ℕ) (p : List α)
    (hp : p ∈ generatePermutations arr maxCount) : p.Perm arr := by
  have hsub : p ∈ permuteGo maxCount arr.length [] arr [] :=
    List.take_subset _ _ hp
  rcases permuteGo_mem maxCount arr.length [] arr [] p hsub with h | h
  · simp at h
  · simpa using h

theorem advStep_fst (env : ProviderEnv) (method : OptimizationMethod)
    (isLoop : Bool) (vt : VehicleType)
    (acc : (List Location × Option ℝ) × SegCacheState)
    (q : List Location) :
    (advStep env method isLoop vt acc q).1.1 = q ∨
    (advStep env method isLoop vt acc q).1.1 = acc.1.1 := by
  simp only [advStep]
  exact better_fst _ _

theorem advFold_perm (env : ProviderEnv) (method : OptimizationMethod)
    (isLoop : Bool) (vt : VehicleType) (locations : List Location) :
    ∀ (ps : List (List Location))
      (acc : (List Location × Option ℝ) × SegCacheState),
      acc.1.1.Perm locations →
      (∀ q ∈ ps, q.Perm locations) →
      ((ps.foldl (advStep env method isLoop vt) acc).1.1).Perm
        locations := by
  intro ps
  induction ps with
  | nil => intro acc ha _; exact ha
  | cons q qs ihq =>
    intro acc ha hq
    rw [List.foldl_cons]
    refine ihq _ ?_ (fun r hr => hq r (List.mem_cons_of_mem q hr))
    rcases advStep_fst env method isLoop vt acc q with hb | hb
    · rw [hb]
      exact hq q (List.mem_cons_self q qs)
    · rw [hb]
      exact ha

theorem advancedOptimization_perm (env : ProviderEnv)
    (st : SegCacheState) (locations : List Location)
    (method : OptimizationMethod) (isLoop : Bool) (vt : VehicleType)
    (res : List Location) (st' : SegCacheState)
    (hnodup : (locations.map (fun loc => loc.id)).Nodup)
    (h : advancedOptimization env st locations method isLoop vt
      = some (res, st')) :
    res.Perm locations := by
  simp only [advancedOptimization] at h
  by_cases hsmall : locations.length ≤ 1
  · rw [if_pos hsmall] at h
    injection h with h
    injection h with h1 h2
    rw [← h1]
  · rw [if_neg hsmall] at h
    cases hnn : nearestNeighborOptimization locations method isLoop with
    | none => rw [hnn] at h; simp at h
    | some nnResult =>
      rw [hnn] at h
      simp only [] at h
      have hnnperm : nnResult.Perm locations :=
        nearestNeighborOptimizationD_perm calculateDistance locations
          method isLoop nnResult hnodup hnn
      by_cases h6 : locations.length ≤ 6
      · rw [if_pos h6] at h
        injection h with h
        injection h with h1 h2
        rw [← h1]
        refine advFold_perm env method isLoop vt locations _ _ ?_ ?_
        · rcases better_fst (K := ℝ) (nnResult,
              (calculateOrderScore env st nnResult method isLoop vt).1)
            (locations, none) with hb | hb
          · rw [hb]; exact hnnperm
          · rw [hb]
        · intro q hq
          exact generatePermutations_perm _ _ q hq
      · rw [if_neg h6] at h
        injection h with h
        injection h with h1 h2
        rw [← h1]
        rcases better_fst (K := ℝ) (nnResult,
            (calculateOrderScore env st nnResult method isLoop vt).1)
          (locations, none) with hb | hb
        · rw [hb]; exact hnnperm
        · rw [hb]

/-- When the interleaving loop finds a locked stop for the head index,
the matched set splits off exactly that stop. -/
theorem lockedMatched_cons_found (i : ℕ) (rest : List ℕ)
    (hirest : i ∉ rest) :
    ∀ (locked : List Location) (l : Location),
      (locked.map (fun x => x.order)).Nodup →
      locked.find? (fun loc => loc.order == some (i : ℤ)) = some l →
      (lockedMatched locked (i :: rest)).Perm
        (l :: lockedMatched locked rest) := by
  intro locked
  induction locked with
  | nil => intro l _ h; simp at h
  | cons x xs ih =>
    intro l hnodup hfind
    rw [List.map_cons, List.nodup_cons] at hnodup
    obtain ⟨hxord, hxs⟩ := hnodup
    by_cases hx : (x.order == some (i : ℤ)) = true
    · rw [@List.find?_cons_of_pos Location
        (fun loc => loc.order == some (i : ℤ)) x xs hx] at hfind
      injection hfind with hfind
      subst hfind
      have hxi : x.order = some (i : ℤ) := beq_iff_eq.mp hx
      have hxrest : (rest.any (fun j => x.order == some (j : ℤ)))
          = false := by
        rw [List.any_eq_false]
        intro j hj
        rw [hxi]
        simp only [beq_iff_eq, Option.some.injEq]
        intro hji
        exact hirest (by rwa [show j = i from by exact_mod_cast hji.symm]
          at hj)
      have hfeq : xs.filter
          (fun l => (i :: rest).any (fun j => l.order == some (j : ℤ)))
          = xs.filter (fun l => rest.any (fun j => l.order == some (j : ℤ))) := by
        apply List.filter_congr
        intro a ha
        simp only [List.any_cons]
        have : (a.order == some (i : ℤ)) = false := by
          rw [beq_eq_false_iff_ne]
          intro heq
          exact hxord (by
            rw [hxi, ← heq]
            exact List.mem_map_of_mem _ ha)
        rw [this, Bool.false_or]
      simp only [lockedMatched, List.filter_cons]
      rw [if_pos (by simp [List.any_cons, hx]),
        if_neg (by simp [hxrest]), hfeq]
    · rw [@List.find?_cons_of_neg Location
        (fun loc => loc.order == some (i : ℤ)) x xs hx] at hfind
      have hxfalse : (x.order == some (i : ℤ)) = false :=
        Bool.eq_false_iff.mpr hx
      have hrec := ih l hxs hfind
      simp only [lockedMatched, List.filter_cons] at hrec ⊢
      by_cases hxrest : (rest.any (fun j => x.order == some (j : ℤ)))
          = true
      · rw [if_pos (by simp [List.any_cons, hxfalse, hxrest]),
          if_pos hxrest]
        exact (hrec.cons x).trans (List.Perm.swap l x _)
      · rw [if_neg (by simp [List.any_cons, hxfalse,
            Bool.eq_false_iff.mpr hxrest]),
          if_neg hxrest]
        exact hrec

theorem lockedMatched_cons_none (i : ℕ) (rest : List ℕ)
    (locked : List Location)
    (hfind : locked.find? (fun loc => loc.order == some (i : ℤ))
      = none) :
    lockedMatched locked (i :: rest) = lockedMatched locked rest := by
  have hall := List.find?_eq_none.mp hfind
  simp only [lockedMatched]
  apply List.filter_congr
  intro a ha
  simp only [List.any_cons]
  rw [Bool.eq_false_iff.mpr (hall a ha), Bool.false_or]

theorem lockedMatched_length_le (locked : List Location) (idxs : List ℕ)
    (hord : (locked.map (fun l => l.order)).Nodup) :
    (lockedMatched locked idxs).length ≤ idxs.length := by
  have hsub : List.Sublist (lockedMatched locked idxs) locked :=
    List.filter_sublist _
  have hnodup : ((lockedMatched locked idxs).map
      (fun l => l.order)).Nodup :=
    List.Nodup.sublist (List.Sublist.map _ hsub) hord
  have hsubset : ((lockedMatched locked idxs).map (fun l => l.order))
      ⊆ idxs.map (fun i : ℕ => some (i : ℤ)) := by
    intro o ho
    rw [List.mem_map] at ho
    obtain ⟨l, hl, rfl⟩ := ho
    simp only [lockedMatched, List.mem_filter] at hl
    obtain ⟨-, hany⟩ := hl
    rw [List.any_eq_true] at hany
    obtain ⟨i, hi, hbeq⟩ := hany
    rw [beq_iff_eq] at hbeq
    rw [hbeq]
    exact List.mem_map_of_mem (fun i : ℕ => some (i : ℤ)) hi
  have hle := List.Subperm.length_le (List.Nodup.subperm hnodup hsubset)
  have h1 : ((lockedMatched locked idxs).map (fun l => l.order)).length
      = (lockedMatched locked idxs).length := List.length_map _ _
  have h2 : (idxs.map (fun i : ℕ => some (i : ℤ))).length = idxs.length :=
    List.length_map _ _
  omega

/-- The interleaving loop emits every in-range locked stop once and
consumes the optimized list fully when the counts add up. -/
theorem mergeLockedAux_perm (locked : List Location)
    (hord : (locked.map (fun l => l.order)).Nodup) :
    ∀ (idxs : List ℕ) (opt : List Location),
      idxs.Nodup →
      opt.length + (lockedMatched locked idxs).length = idxs.length →
      (mergeLockedAux locked idxs opt).Perm
        (lockedMatched locked idxs ++ opt) := by
  intro idxs
  induction idxs with
  | nil =>
    intro opt hnd hcount
    have hm : lockedMatched locked [] = [] := by simp [lockedMatched]
    have hopt : opt = [] := List.length_eq_zero.mp (by
      rw [hm] at hcount
      simpa using hcount)
    subst hopt
    rw [hm]
    simp [mergeLockedAux]
  | cons i rest ihm =>
    intro opt hnd hcount
    rw [List.nodup_cons] at hnd
    obtain ⟨hirest, hrest⟩ := hnd
    simp only [mergeLockedAux]
    cases hfind : locked.find? (fun loc => loc.order == some (i : ℤ)) with
    | some l =>
      simp only []
      have hML := lockedMatched_cons_found i rest hirest locked l hord
        hfind
      have hlen2 : (lockedMatched locked (i :: rest)).length =
          (lockedMatched locked rest).length + 1 := by
        rw [hML.length_eq]
        simp
      have hrec := ihm opt hrest
        (by simp only [List.length_cons] at hcount; omega)
      refine (hrec.cons l).trans ?_
      have hshape : (l :: (lockedMatched locked rest ++ opt))
          = (l :: lockedMatched locked rest) ++ opt := rfl
      rw [hshape]
      exact List.Perm.append_right opt hML.symm
    | none =>
      simp only []
      have hML := lockedMatched_cons_none i rest locked hfind
      cases opt with
      | nil =>
        exfalso
        have hle := lockedMatched_length_le locked rest hord
        rw [hML] at hcount
        simp only [List.length_nil, List.length_cons] at hcount
        omega
      | cons o os =>
        simp only []
        have hrec := ihm os hrest (by
          rw [hML] at hcount
          simp only [List.length_cons] at hcount ⊢
          omega)
        rw [hML]
        exact (hrec.cons o).trans List.perm_middle.symm

/-- Everything the interleaving loop emits is a found locked stop or a
consumed optimized stop. -/
theorem mergeLockedAux_mem (locked : List Location) :
    ∀ (idxs : List ℕ) (opt : List Location) (x : Location),
      x ∈ mergeLockedAux locked idxs opt →
      (∃ i ∈ idxs,
        locked.find? (fun loc => loc.order == some (i : ℤ)) = some x) ∨
        x ∈ opt := by
  intro idxs
  induction idxs with
  | nil => intro opt x hx; simp [mergeLockedAux] at hx
  | cons i rest ihm =>
    intro opt x hx
    simp only [mergeLockedAux] at hx
    cases hfind : locked.find? (fun loc => loc.order == some (i : ℤ)) with
    | some l =>
      rw [hfind] at hx
      simp only [] at hx
      rcases List.mem_cons.mp hx with rfl | hx
      · exact Or.inl ⟨i, by simp, hfind⟩
      · rcases ihm opt x hx with ⟨j, hj, hf⟩ | ho
        · exact Or.inl ⟨j, by simp [hj], hf⟩
        · exact Or.inr ho
    | none =>
      rw [hfind] at hx
      cases opt with
      | nil =>
        simp only [] at hx
        rcases ihm [] x hx with ⟨j, hj, hf⟩ | ho
        · exact Or.inl ⟨j, by simp [hj], hf⟩
        · exact Or.inr ho
      | cons o os =>
        simp only [] at hx
        rcases List.mem_cons.mp hx with rfl | hx
        · exact Or.inr (by simp)
        · rcases ihm os x hx with ⟨j, hj, hf⟩ | ho
          · exact Or.inl ⟨j, by simp [hj], hf⟩
          · exact Or.inr (by simp [ho])

/-- C10 (amended): for a run of the sequencer on stops with
pairwise-distinct ids, if every locked stop carries a distinct
position index below the stop count then the output contains every
input stop exactly once; and on the interleaving path (more than two
stops, at least one unlocked) a locked stop whose position index is
missing or not below the stop count is omitted from the output.  In
the all-locked branch such a stop is NOT omitted: the sorted input is
returned whole. -/
theorem c10_merge_invariant (env : ProviderEnv) (st : SegCacheState)
    (locations : List Location) (method : OptimizationMethod)
    (isLoop : Bool) (vt : VehicleType) (result : List Location)
    (st' : SegCacheState)
    (hids : (locations.map (fun loc => loc.id)).Nodup)
    (hrun : optimizeLocationOrder env st locations method isLoop vt
      = some (result, st')) :
    ((∀ l ∈ locations, l.isLocked = some true →
        ∃ k : ℕ, l.order = some (k : ℤ) ∧ k < locations.length) →
      ((locations.filter (fun loc => loc.isLocked == some true)).map
        (fun l => l.order)).Nodup →
      result.Perm locations) ∧
    (∀ lk ∈ locations, lk.isLocked = some true →
      (lk.order = none ∨
        ∃ k : ℤ, lk.order = some k ∧ (locations.length : ℤ) ≤ k) →
      2 < locations.length →
      (∃ u ∈ locations, ¬ u.isLocked = some true) →
      lk ∉ result) := by
  simp only [optimizeLocationOrder] at hrun
  by_cases hsmall : locations.length ≤ 2
  · rw [if_pos hsmall] at hrun
    injection hrun with hrun
    injection hrun with h1 h2
    constructor
    · intro _ _
      rw [← h1]
    · intro lk hlk hlock hbad hlen3 hex
      exact absurd hlen3 (by omega)
  · rw [if_neg hsmall] at hrun
    by_cases hall : (locations.filter
        (fun loc => !(loc.isLocked == some true))).length = 0
    · rw [if_pos hall] at hrun
      injection hrun with hrun
      injection hrun with h1 h2
      constructor
      · intro _ _
        rw [← h1]
        exact stableSortBy_perm orderKey locations
      · intro lk hlk hlock hbad hlen3 hex
        exfalso
        obtain ⟨u, hu, hunl⟩ := hex
        have hmem : u ∈ locations.filter
            (fun loc => !(loc.isLocked == some true)) :=
          List.mem_filter.mpr ⟨hu, by
            simp only [Bool.not_eq_true', beq_eq_false_iff_ne, ne_eq]
            exact hunl⟩
        rw [List.length_eq_zero] at hall
        rw [hall] at hmem
        simp at hmem
    · rw [if_neg hall] at hrun
      have hunodup : ((locations.filter
          (fun loc => !(loc.isLocked == some true))).map
          (fun loc => loc.id)).Nodup :=
        List.Nodup.sublist (List.Sublist.map _ (List.filter_sublist _))
          hids
      have hkey : ∃ optimized,
          optimized.Perm (locations.filter
            (fun loc => !(loc.isLocked == some true))) ∧
          result = mergeLockedAux
            (locations.filter (fun loc => loc.isLocked == some true))
            (List.range locations.length) optimized := by
        by_cases h8 : (locations.filter
            (fun loc => !(loc.isLocked == some true))).length ≤ 8
        · rw [if_pos h8] at hrun
          cases hadv : advancedOptimization env st
              (locations.filter
                (fun loc => !(loc.isLocked == some true)))
              method isLoop vt with
          | none => rw [hadv] at hrun; simp at hrun
          | some pr =>
            obtain ⟨optimized, st₁⟩ := pr
            rw [hadv] at hrun
            simp only [] at hrun
            injection hrun with hrun
            injection hrun with h1 h2
            exact ⟨optimized,
              advancedOptimization_perm env st _ method isLoop vt
                optimized st₁ hunodup hadv, h1.symm⟩
        · rw [if_neg h8] at hrun
          cases hnn : nearestNeighborOptimization
              (locations.filter
                (fun loc => !(loc.isLocked == some true)))
              method isLoop with
          | none => rw [hnn] at hrun; simp at hrun
          | some optimized =>
            rw [hnn] at hrun
            simp only [Option.map_some'] at hrun
            injection hrun with hrun
            injection hrun with h1 h2
            exact ⟨optimized,
              nearestNeighborOptimizationD_perm calculateDistance _
                method isLoop optimized hunodup hnn, h1.symm⟩
      obtain ⟨optimized, hoptperm, hres⟩ := hkey
      constructor
      · intro hinrange hordnodup
        have hmatched : lockedMatched
            (locations.filter (fun loc => loc.isLocked == some true))
            (List.range locations.length)
            = locations.filter (fun loc => loc.isLocked == some true) := by
          simp only [lockedMatched]
          rw [List.filter_eq_self]
          intro l hl
          rw [List.mem_filter] at hl
          obtain ⟨hmem, hbeq⟩ := hl
          obtain ⟨k, hk, hkn⟩ := hinrange l hmem (beq_iff_eq.mp hbeq)
          rw [List.any_eq_true]
          exact ⟨k, List.mem_range.mpr hkn, by
            rw [hk]
            exact beq_self_eq_true _⟩
        have hcount : optimized.length +
            (lockedMatched
              (locations.filter (fun loc => loc.isLocked == some true))
              (List.range locations.length)).length
            = (List.range locations.length).length := by
          rw [hmatched, List.length_range]
          have hl1 := hoptperm.length_eq
          have hl2 := (List.filter_append_perm
            (fun loc => loc.isLocked == some true) locations).length_eq
          rw [List.length_append] at hl2
          omega
        have hmerge := mergeLockedAux_perm
          (locations.filter (fun loc => loc.isLocked == some true))
          hordnodup (List.range locations.length) optimized
          (List.nodup_range _) hcount
        rw [hmatched] at hmerge
        rw [hres]
        exact hmerge.trans ((List.Perm.append_left _ hoptperm).trans
          (List.filter_append_perm _ locations))
      · intro lk hlk hlock hbad hlen3 hex hin
        rw [hres] at hin
        rcases mergeLockedAux_mem _ _ _ _ hin with ⟨i, hi, hfind⟩ | hopt2
        · have hpred := List.find?_some hfind
          have hord : lk.order = some (i : ℤ) := beq_iff_eq.mp hpred
          have hirange : i < locations.length := List.mem_range.mp hi
          rcases hbad with hnone | ⟨k, hk, hkn⟩
          · rw [hnone] at hord
            exact Option.noConfusion hord
          · rw [hk] at hord
            injection hord with hord
            omega
        · have hmem2 : lk ∈ locations.filter
              (fun loc => !(loc.isLocked == some true)) :=
            hoptperm.mem_iff.mp hopt2
          rw [List.mem_filter] at hmem2
          obtain ⟨-, hpred⟩ := hmem2
          rw [hlock] at hpred
          simp at hpred

theorem c10_merge_invariant_witness :
    ((([lk0w, uW, lk2w] : List Location).map (fun loc => loc.id)).Nodup ∧
      optimizeLocationOrder envFail emptySegState [lk0w, uW, lk2w]
        .shortest_distance false .car
        = some ([lk0w, uW, lk2w], emptySegState) ∧
      ([lk0w, uW, lk2w] : List Location).Perm [lk0w, uW, lk2w]) ∧
    ((([lkBad, uW, lk0w] : List Location).map (fun loc => loc.id)).Nodup ∧
      optimizeLocationOrder envFail emptySegState [lkBad, uW, lk0w]
        .shortest_distance false .car
        = some ([lk0w, uW], emptySegState) ∧
      lkBad ∉ ([lk0w, uW] : List Location)) := by
  have hgood : optimizeLocationOrder envFail emptySegState
      [lk0w, uW, lk2w] .shortest_distance false .car
      = some ([lk0w, uW, lk2w], emptySegState) := rfl
  have hbadrun : optimizeLocationOrder envFail emptySegState
      [lkBad, uW, lk0w] .shortest_distance false .car
      = some ([lk0w, uW], emptySegState) := rfl
  refine ⟨⟨by decide, hgood, ?_⟩, ⟨by decide, hbadrun, ?_⟩⟩
  · refine (c10_merge_invariant envFail emptySegState [lk0w, uW, lk2w]
      .shortest_distance false .car [lk0w, uW, lk2w] emptySegState
      (by decide) hgood).1 ?_ (by decide)
    intro l hl hlock
    rcases List.mem_cons.mp hl with rfl | hl
    · exact ⟨0, rfl, by decide⟩
    rcases List.mem_cons.mp hl with rfl | hl
    · exact Option.noConfusion hlock
    rcases List.mem_cons.mp hl with rfl | hl
    · exact ⟨2, rfl, by decide⟩
    · simp at hl
  · exact (c10_merge_invariant envFail emptySegState [lkBad, uW, lk0w]
      .shortest_distance false .car [lk0w, uW] emptySegState
      (by decide) hbadrun).2 lkBad (by decide) rfl
      (Or.inr ⟨5, rfl, by decide⟩) (by decide)
      ⟨uW, by decide, by decide⟩

theorem better_snd_le_cand {K : Type} [LinearOrderedField K]
    (cand : List Location × K) (best : List Location × Option K) (s : K)
    (h : (better cand best).2 = some s) : s ≤ cand.2 := by
  cases hb : best.2 with
  | none =>
    simp only [better, hb] at h
    injection h with h
    exact le_of_eq h.symm
  | some bs =>
    simp only [better, hb] at h
    by_cases hlt : cand.2 < bs
    · rw [if_pos hlt] at h
      injection h with h
      exact le_of_eq h.symm
    · rw [if_neg hlt] at h
      rw [hb] at h
      injection h with h
      rw [← h]
      exact not_lt.mp hlt

theorem better_snd_le_best {K : Type} [LinearOrderedField K]
    (cand : List Location × K) (best : List Location × Option K)
    (s bs : K) (hbs : best.2 = some bs)
    (h : (better cand best).2 = some s) : s ≤ bs := by
  simp only [better, hbs] at h
  by_cases hlt : cand.2 < bs
  · rw [if_pos hlt] at h
    injection h with h
    rw [← h]
    exact le_of_lt hlt
  · rw [if_neg hlt] at h
    rw [hbs] at h
    injection h with h
    exact le_of_eq h.symm

theorem better_snd_isSome {K : Type} [LinearOrderedField K]
    (cand : List Location × K) (best : List Location × Option K) :
    ((better cand best).2).isSome := by
  cases hb : best.2 with
  | none => simp [better, hb]
  | some bs =>
    simp only [better, hb]
    by_cases hlt : cand.2 < bs
    · rw [if_pos hlt]
      rfl
    · rw [if_neg hlt]
      simp [hb]

theorem better_inv {K : Type} [LinearOrderedField K]
    (f : List Location → K) (cand : List Location × K)
    (best : List Location × Option K)
    (hbest : ScoreInv f best) (hc : f cand.1 = cand.2) :
    ScoreInv f (better cand best) := by
  intro s hs
  cases hb : best.2 with
  | none =>
    simp only [better, hb] at hs ⊢
    injection hs with hs
    rw [← hs]
    exact hc
  | some bs =>
    simp only [better, hb] at hs ⊢
    by_cases hlt : cand.2 < bs
    · rw [if_pos hlt] at hs ⊢
      injection hs with hs
      rw [← hs]
      exact hc
    · rw [if_neg hlt] at hs ⊢
      exact hbest s hs

/-- The alternate-second loop keeps a faithful best score and only
ever lowers it; the final best undercuts every candidate it scored. -/
theorem altLoop_min {K : Type} [LinearOrderedField K]
    (d : Coordinates → Coordinates → K) (method : OptimizationMethod)
    (start : Location) (others : List Location) :
    ∀ (idxs : List ℕ) (best res : List Location × Option K),
      (∀ j ∈ idxs, j < others.length) →
      altLoop d method start others idxs best = some res →
      ScoreInv (calculateCompleteLoopScoreD d method) best →
      ScoreInv (calculateCompleteLoopScoreD d method) res ∧
      (∀ bs, best.2 = some bs → ∃ rs, res.2 = some rs ∧ rs ≤ bs) ∧
      (∀ i ∈ idxs, ∀ oi reordered, others.get? i = some oi →
        optimizeFromSecondLocationD d (start :: oi :: others.eraseIdx i)
          = some reordered →
        ∃ rs, res.2 = some rs ∧
          rs ≤ calculateCompleteLoopScoreD d method reordered) := by
  intro idxs
  induction idxs with
  | nil =>
    intro best res hidx h hinv
    simp only [altLoop] at h
    injection h with h
    subst h
    exact ⟨hinv, fun bs hbs => ⟨bs, hbs, le_refl bs⟩,
      fun i hi => absurd hi (List.not_mem_nil i)⟩
  | cons i rest ih =>
    intro best res hidx h hinv
    simp only [altLoop] at h
    cases hoi : others.get? i with
    | none =>
      exfalso
      have := hidx i (by simp)
      rw [List.get?_eq_none] at hoi
      omega
    | some oi =>
      rw [hoi] at h
      simp only [] at h
      cases hopt : optimizeFromSecondLocationD d
          (start :: oi :: others.eraseIdx i) with
      | none => rw [hopt] at h; simp at h
      | some reordered =>
        rw [hopt] at h
        simp only [] at h
        have hinv' : ScoreInv (calculateCompleteLoopScoreD d method)
            (better (reordered,
              calculateCompleteLoopScoreD d method reordered) best) :=
          better_inv _ _ _ hinv rfl
        obtain ⟨hres_inv, hres_le, hres_alt⟩ := ih _ res
          (fun j hj => hidx j (List.mem_cons_of_mem i hj)) h hinv'
        refine ⟨hres_inv, ?_, ?_⟩
        · intro bs hbs
          obtain ⟨s', hs'⟩ := Option.isSome_iff_exists.mp
            (better_snd_isSome (reordered,
              calculateCompleteLoopScoreD d method reordered) best)
          obtain ⟨rs, hrs, hrsle⟩ := hres_le s' hs'
          exact ⟨rs, hrs,
            le_trans hrsle (better_snd_le_best _ _ _ _ hbs hs')⟩
        · intro j hj oj reordered₂ hoj hopt₂
          rcases List.mem_cons.mp hj with rfl | hj
          · rw [hoi] at hoj
            injection hoj with hoj
            subst hoj
            rw [hopt] at hopt₂
            injection hopt₂ with hopt₂
            subst hopt₂
            obtain ⟨s', hs'⟩ := Option.isSome_iff_exists.mp
              (better_snd_isSome (reordered,
                calculateCompleteLoopScoreD d method reordered) best)
            obtain ⟨rs, hrs, hrsle⟩ := hres_le s' hs'
            exact ⟨rs, hrs, le_trans hrsle
              (better_snd_le_cand _ _ _ hs')⟩
          · exact hres_alt j hj oj reordered₂ hoj hopt₂

/-- The winner of the loop-aware strategy race scores no worse than
any strategy candidate it evaluated. -/
theorem loopAwareOptimizationD_min {K : Type} [LinearOrderedField K]
    (d : Coordinates → Coordinates → K) (method : OptimizationMethod)
    (start : Location) (others res : List Location)
    (hrun : loopAwareOptimizationD d (start :: others) method
      = some res) :
    (∀ nf, findNearestNeighborLoopD d method start others = some nf →
      calculateCompleteLoopScoreD d method res ≤
        calculateCompleteLoopScoreD d method nf) ∧
    (∀ ff, findFarthestFirstLoopD d start others = some ff →
      calculateCompleteLoopScoreD d method res ≤
        calculateCompleteLoopScoreD d method ff) ∧
    (∀ i oi reordered, i ∈ List.range (min others.length 3) →
      others.get? i = some oi →
      optimizeFromSecondLocationD d (start :: oi :: others.eraseIdx i)
        = some reordered →
      calculateCompleteLoopScoreD d method res ≤
        calculateCompleteLoopScoreD d method reordered) := by
  simp only [loopAwareOptimizationD] at hrun
  cases hn : findNearestNeighborLoopD d method start others with
  | none => rw [hn] at hrun; simp at hrun
  | some nf' =>
    rw [hn] at hrun
    simp only [] at hrun
    cases hf : findFarthestFirstLoopD d start others with
    | none => rw [hf] at hrun; simp at hrun
    | some ff' =>
      rw [hf] at hrun
      simp only [] at hrun
      cases ha : altLoop d method start others
          (List.range (min others.length 3))
          (better (ff', calculateCompleteLoopScoreD d method ff')
            (better (nf', calculateCompleteLoopScoreD d method nf')
              (start :: others, none))) with
      | none => rw [ha] at hrun; simp at hrun
      | some best3 =>
        rw [ha] at hrun
        simp only [] at hrun
        injection hrun with hrun
        subst hrun
        have hseed : ScoreInv (calculateCompleteLoopScoreD d method)
            ((start :: others, none) :
              List Location × Option K) := by
          intro s hs
          simp at hs
        have hinv2 : ScoreInv (calculateCompleteLoopScoreD d method)
            (better (ff', calculateCompleteLoopScoreD d method ff')
              (better (nf', calculateCompleteLoopScoreD d method nf')
                (start :: others, none))) :=
          better_inv _ _ _ (better_inv _ _ _ hseed rfl) rfl
        obtain ⟨hres_inv, hres_le, hres_alt⟩ := altLoop_min d method
          start others (List.range (min others.length 3)) _ best3
          (fun j hj => lt_of_lt_of_le (List.mem_range.mp hj)
            (min_le_left _ _))
          ha hinv2
        obtain ⟨s₂, hs₂⟩ := Option.isSome_iff_exists.mp
          (better_snd_isSome
            (ff', calculateCompleteLoopScoreD d method ff')
            (better (nf', calculateCompleteLoopScoreD d method nf')
              (start :: others, none)))
        obtain ⟨rs, hrs, hrsle⟩ := hres_le s₂ hs₂
        have hrseq : calculateCompleteLoopScoreD d method best3.1 = rs :=
          hres_inv rs hrs
        have hb1 : (better (nf',
            calculateCompleteLoopScoreD d method nf')
            ((start :: others, none) : List Location × Option K)).2
            = some (calculateCompleteLoopScoreD d method nf') := rfl
        refine ⟨?_, ?_, ?_⟩
        · intro nf hnf
          injection hnf with hnf
          subst hnf
          rw [hrseq]
          exact le_trans hrsle (better_snd_le_best _ _ _ _ hb1 hs₂)
        · intro ff hff
          injection hff with hff
          subst hff
          rw [hrseq]
          exact le_trans hrsle (better_snd_le_cand _ _ _ hs₂)
        · intro i oi reordered hi hoi hopt
          obtain ⟨rs', hrs', hrsle'⟩ := hres_alt i hi oi reordered hoi
            hopt
          rw [hrs] at hrs'
          injection hrs' with hrs'
          rw [hrseq, hrs']
          exact hrsle'

/-- C8 (amended): in loop mode on four stops forming a convex
quadrilateral, the order chosen by the loop-aware optimization scores
no worse than EVERY STRATEGY CANDIDATE IT EVALUATES — nearest-first,
farthest-first and the alternate-second orders.  The unoptimized input
order is not among the evaluated candidates: it only seeds the race
against an infinite score and is displaced unconditionally by the
first strategy, so its score can be strictly smaller than the chosen
order's. -/
theorem c8_loop_aware (method : OptimizationMethod) (start : Location)
    (others res : List Location)
    (h4 : (start :: others).length = 4)
    (hconvex : ConvexQuad (start :: others))
    (hrun : loopAwareOptimization (start :: others) method = some res) :
    (∀ nf, findNearestNeighborLoop method start others = some nf →
      calculateCompleteLoopScore res method ≤
        calculateCompleteLoopScore nf method) ∧
    (∀ ff, findFarthestFirstLoop start others = some ff →
      calculateCompleteLoopScore res method ≤
        calculateCompleteLoopScore ff method) ∧
    (∀ i oi reordered, i ∈ List.range (min others.length 3) →
      others.get? i = some oi →
      optimizeFromSecondLocation (start :: oi :: others.eraseIdx i)
        = some reordered →
      calculateCompleteLoopScore res method ≤
        calculateCompleteLoopScore reordered method) :=
  loopAwareOptimizationD_min calculateDistance method start others res
    hrun

set_option allowUnsafeReducibility true in
attribute [local semireducible] Rat.add Rat.mul Rat.inv Rat.sub Rat.neg in
theorem c8Q_run : loopAwareOptimizationD (K := ℚ) dq [gA, gB, gC, gD]
    .shortest_distance = some [gA, gB, gD, gC] := by decide

set_option allowUnsafeReducibility true in
attribute [local semireducible] Rat.add Rat.mul Rat.inv Rat.sub Rat.neg in
theorem c8Q_convex : ConvexQuad [gA, gB, gC, gD] :=
  ⟨gA, gB, gC, gD, ⟨-20, 0⟩, ⟨-10, 0⟩, ⟨80, 180⟩, ⟨-70, 180⟩,
    rfl, rfl, rfl, rfl, rfl,
    Or.inr ⟨by decide, by decide, by decide, by decide⟩⟩

set_option allowUnsafeReducibility true in
attribute [local semireducible] Rat.add Rat.mul Rat.inv Rat.sub Rat.neg in
theorem c8Q_scores :
    calculateCompleteLoopScoreD (K := ℚ) dq .shortest_distance
      [gA, gB, gC, gD] = 360 ∧
    calculateCompleteLoopScoreD (K := ℚ) dq .shortest_distance
      [gA, gB, gD, gC] = 380 := by
  constructor <;> decide

theorem fnnlScore_sim (dR : Coordinates → Coordinates → ℝ)
    (dqf : Coordinates → Coordinates → ℚ) (k : ℝ)
    (P : Location → Prop)
    (hd : ∀ (p q : Location) (cp cq : Coordinates), P p → P q →
      p.coordinates = some cp → q.coordinates = some cq →
      dR cp cq = k * (dqf cp cq : ℝ))
    (start current loc : Location) (n : ℕ)
    (hs : P start) (hc : P current) (hl : P loc) :
    fnnlScore dR .shortest_distance start current n loc
      = Option.map (fun q : ℚ => k * (q : ℝ))
        (fnnlScore dqf .shortest_distance start current n loc) := by
  simp only [fnnlScore]
  cases hlc : loc.coordinates with
  | none => cases current.coordinates <;> rfl
  | some lc =>
    cases hcc : current.coordinates with
    | none => rfl
    | some cc =>
      simp only []
      by_cases hn : n = 1
      · rw [if_pos hn, if_pos hn]
        cases hsc : start.coordinates with
        | none =>
          simp only [Option.map_some']
          rw [hd current loc cc lc hc hl hcc hlc]
        | some sc =>
          simp only [Option.map_some']
          rw [hd current loc cc lc hc hl hcc hlc,
            hd loc start lc sc hl hs hlc hsc]
          congr 1
          push_cast
          ring
      · rw [if_neg hn, if_neg hn]
        simp only [Option.map_some']
        rw [hd current loc cc lc hc hl hcc hlc]

theorem pickMinAux_sim (k : ℝ) (hk : 0 < k)
    (f : Location → Option ℝ) (g : Location → Option ℚ) :
    ∀ (l : List Location),
      (∀ loc ∈ l, f loc
        = Option.map (fun q : ℚ => k * (q : ℝ)) (g loc)) →
      ∀ (i : ℕ) (best : Option (Location × ℚ × ℕ)),
      pickMinAux f l i (Option.map (trip k) best)
        = Option.map (trip k) (pickMinAux g l i best) := by
  intro l
  induction l with
  | nil => intro _ i best; rfl
  | cons x xs ih =>
    intro hfg i best
    have hx := hfg x (by simp)
    simp only [pickMinAux]
    cases hgx : g x with
    | none =>
      rw [hgx] at hx
      simp only [Option.map_none'] at hx
      rw [hx]
      exact ih (fun loc hl => hfg loc (by simp [hl])) (i + 1) best
    | some s =>
      rw [hgx] at hx
      simp only [Option.map_some'] at hx
      rw [hx]
      cases best with
      | none =>
        simp only [Option.map_none']
        have hrec := ih (fun loc hl => hfg loc (by simp [hl])) (i + 1)
          (some (x, s, i))
        simpa [trip] using hrec
      | some b =>
        obtain ⟨bl, bs, bi⟩ := b
        simp only [Option.map_some', trip]
        by_cases hlt : s < bs
        · rw [if_pos hlt,
            if_pos (mul_lt_mul_of_pos_left
              (show ((s : ℝ)) < (bs : ℝ) by exact_mod_cast hlt) hk)]
          have hrec := ih (fun loc hl => hfg loc (by simp [hl])) (i + 1)
            (some (x, s, i))
          simpa [trip] using hrec
        · rw [if_neg hlt,
            if_neg (fun hc =>
              hlt (by
                have := lt_of_mul_lt_mul_left hc (le_of_lt hk)
                exact_mod_cast this))]
          have hrec := ih (fun loc hl => hfg loc (by simp [hl])) (i + 1)
            (some (bl, bs, bi))
          simpa [trip] using hrec

theorem fnnlGo_sim (dR : Coordinates → Coordinates → ℝ)
    (dqf : Coordinates → Coordinates → ℚ) (k : ℝ) (hk : 0 < k)
    (P : Location → Prop)
    (hd : ∀ (p q : Location) (cp cq : Coordinates), P p → P q →
      p.coordinates = some cp → q.coordinates = some cq →
      dR cp cq = k * (dqf cp cq : ℝ))
    (start : Location) (hs : P start) :
    ∀ (fuel : ℕ) (current : Location) (remaining acc : List Location),
      P current → (∀ x ∈ remaining, P x) →
      fnnlGo dR .shortest_distance start fuel current remaining acc
        = fnnlGo dqf .shortest_distance start fuel current remaining
            acc := by
  intro fuel
  induction fuel with
  | zero =>
    intro current remaining acc _ _
    cases remaining <;> rfl
  | succ f ih =>
    intro current remaining acc hc hrem
    cases remaining with
    | nil => rfl
    | cons r rs =>
      simp only [fnnlGo]
      have hpick : pickMin
          (fnnlScore dR .shortest_distance start current (r :: rs).length)
          (r :: rs)
          = Option.map (trip k) (pickMin
            (fnnlScore dqf .shortest_distance start current
              (r :: rs).length) (r :: rs)) := by
        have := pickMinAux_sim k hk
          (fnnlScore dR .shortest_distance start current
            (r :: rs).length)
          (fnnlScore dqf .shortest_distance start current
            (r :: rs).length)
          (r :: rs)
          (fun loc hl => fnnlScore_sim dR dqf k P hd start current loc
            _ hs hc (hrem loc hl))
          0 none
        simpa using this
      rw [hpick]
      cases hpq : pickMin (fnnlScore dqf .shortest_distance start
          current (r :: rs).length) (r :: rs) with
      | none => rfl
      | some t =>
        obtain ⟨nearest, s, idx⟩ := t
        simp only [Option.map_some', trip]
        apply ih
        · rcases pickMinAux_spec _ (r :: rs) 0 none nearest s idx hpq
            with ⟨hm, -⟩ | hb
          · exact hrem nearest hm
          · exact absurd hb (by simp)
        · intro x hx
          exact hrem x (List.eraseIdx_subset _ _ hx)

theorem findNearestNeighborLoopD_sim (dR : Coordinates → Coordinates → ℝ)
    (dqf : Coordinates → Coordinates → ℚ) (k : ℝ) (hk : 0 < k)
    (P : Location → Prop)
    (hd : ∀ (p q : Location) (cp cq : Coordinates), P p → P q →
      p.coordinates = some cp → q.coordinates = some cq →
      dR cp cq = k * (dqf cp cq : ℝ))
    (start : Location) (others : List Location)
    (hs : P start) (hall : ∀ x ∈ others, P x) :
    findNearestNeighborLoopD dR .shortest_distance start others
      = findNearestNeighborLoopD dqf .shortest_distance start others :=
  fnnlGo_sim dR dqf k hk P hd start hs others.length start others
    [start] hs hall

theorem restScore_sim (dR : Coordinates → Coordinates → ℝ)
    (dqf : Coordinates → Coordinates → ℚ) (k : ℝ)
    (P : Location → Prop)
    (hd : ∀ (p q : Location) (cp cq : Coordinates), P p → P q →
      p.coordinates = some cp → q.coordinates = some cq →
      dR cp cq = k * (dqf cp cq : ℝ))
    (base current loc : Location) (n : ℕ)
    (hb : P base) (hc : P current) (hl : P loc) :
    restScore dR base current n loc
      = Option.map (fun q : ℚ => k * (q : ℝ))
        (restScore dqf base current n loc) := by
  simp only [restScore]
  cases hlc : loc.coordinates with
  | none => cases current.coordinates <;> rfl
  | some lc =>
    cases hcc : current.coordinates with
    | none => rfl
    | some cc =>
      simp only []
      by_cases hn : n = 1
      · rw [if_pos hn, if_pos hn]
        cases hbc : base.coordinates with
        | none =>
          simp only [Option.map_some']
          rw [hd current loc cc lc hc hl hcc hlc]
        | some bc =>
          simp only [Option.map_some']
          rw [hd current loc cc lc hc hl hcc hlc,
            hd loc base lc bc hl hb hlc hbc]
          congr 1
          push_cast
          ring
      · rw [if_neg hn, if_neg hn]
        simp only [Option.map_some']
        rw [hd current loc cc lc hc hl hcc hlc]

theorem restGo_sim (dR : Coordinates → Coordinates → ℝ)
    (dqf : Coordinates → Coordinates → ℚ) (k : ℝ) (hk : 0 < k)
    (P : Location → Prop)
    (hd : ∀ (p q : Location) (cp cq : Coordinates), P p → P q →
      p.coordinates = some cp → q.coordinates = some cq →
      dR cp cq = k * (dqf cp cq : ℝ))
    (base : Location) (hb : P base) :
    ∀ (fuel : ℕ) (current : Location) (remaining acc : List Location),
      P current → (∀ x ∈ remaining, P x) →
      restGo dR base fuel current remaining acc
        = restGo dqf base fuel current remaining acc := by
  intro fuel
  induction fuel with
  | zero =>
    intro current remaining acc _ _
    cases remaining <;> rfl
  | succ f ih =>
    intro current remaining acc hc hrem
    cases remaining with
    | nil => rfl
    | cons r rs =>
      simp only [restGo]
      have hpick : pickMin
          (restScore dR base current (r :: rs).length) (r :: rs)
          = Option.map (trip k) (pickMin
            (restScore dqf base current (r :: rs).length) (r :: rs)) := by
        have := pickMinAux_sim k hk
          (restScore dR base current (r :: rs).length)
          (restScore dqf base current (r :: rs).length)
          (r :: rs)
          (fun loc hl => restScore_sim dR dqf k P hd base current loc
            _ hb hc (hrem loc hl))
          0 none
        simpa using this
      rw [hpick]
      cases hpq : pickMin (restScore dqf base current
          (r :: rs).length) (r :: rs) with
      | none => rfl
      | some t =>
        obtain ⟨nearest, s, idx⟩ := t
        simp only [Option.map_some', trip]
        apply ih
        · rcases pickMinAux_spec _ (r :: rs) 0 none nearest s idx hpq
            with ⟨hm, -⟩ | hbb
          · exact hrem nearest hm
          · exact absurd hbb (by simp)
        · intro x hx
          exact hrem x (List.eraseIdx_subset _ _ hx)

theorem optimizeFromSecondLocationD_sim
    (dR : Coordinates → Coordinates → ℝ)
    (dqf : Coordinates → Coordinates → ℚ) (k : ℝ) (hk : 0 < k)
    (P : Location → Prop)
    (hd : ∀ (p q : Location) (cp cq : Coordinates), P p → P q →
      p.coordinates = some cp → q.coordinates = some cq →
      dR cp cq = k * (dqf cp cq : ℝ))
    (order : List Location) (hall : ∀ x ∈ order, P x) :
    optimizeFromSecondLocationD dR order
      = optimizeFromSecondLocationD dqf order := by
  simp only [optimizeFromSecondLocationD]
  by_cases hlen : order.length ≤ 2
  · rw [if_pos hlen, if_pos hlen]
  · rw [if_neg hlen, if_neg hlen]
    cases order with
    | nil => rfl
    | cons o0 tl =>
      cases tl with
      | nil => rfl
      | cons o1 rest =>
        simp only []
        exact restGo_sim dR dqf k hk P hd o0 (hall o0 (by simp))
          rest.length o1 rest [o0, o1] (hall o1 (by simp))
          (fun x hx => hall x (by simp [hx]))

theorem pickFarthest_sim (dR : Coordinates → Coordinates → ℝ)
    (dqf : Coordinates → Coordinates → ℚ) (k : ℝ) (hk : 0 < k)
    (P : Location → Prop)
    (hd : ∀ (p q : Location) (cp cq : Coordinates), P p → P q →
      p.coordinates = some cp → q.coordinates = some cq →
      dR cp cq = k * (dqf cp cq : ℝ))
    (start : Location) (hs : P start) :
    ∀ (l : List Location) (b : Option Location) (m : ℚ),
      (∀ x ∈ l, P x) →
      pickFarthest dR start l (b, k * (m : ℝ))
        = (fun t : Option Location × ℚ => (t.1, k * (t.2 : ℝ)))
            (pickFarthest dqf start l (b, m)) := by
  intro l
  induction l with
  | nil => intro b m _; rfl
  | cons x xs ihx =>
    intro b m hall
    simp only [pickFarthest]
    cases hxc : x.coordinates with
    | none =>
      cases hsc : start.coordinates with
      | none =>
        simp only []
        exact ihx b m (fun y hy => hall y (by simp [hy]))
      | some sc =>
        simp only []
        exact ihx b m (fun y hy => hall y (by simp [hy]))
    | some lc =>
      cases hsc : start.coordinates with
      | none =>
        simp only []
        exact ihx b m (fun y hy => hall y (by simp [hy]))
      | some sc =>
        simp only []
        rw [hd start x sc lc hs (hall x (by simp)) hsc hxc]
        by_cases hlt : m < dqf sc lc
        · rw [if_pos (mul_lt_mul_of_pos_left
              (show ((m : ℝ)) < (dqf sc lc : ℝ) by exact_mod_cast hlt)
              hk),
            if_pos hlt]
          exact ihx (some x) (dqf sc lc)
            (fun y hy => hall y (by simp [hy]))
        · rw [if_neg (fun hc =>
              hlt (by
                have := lt_of_mul_lt_mul_left hc (le_of_lt hk)
                exact_mod_cast this)),
            if_neg hlt]
          exact ihx b m (fun y hy => hall y (by simp [hy]))

theorem findFarthestFirstLoopD_sim (dR : Coordinates → Coordinates → ℝ)
    (dqf : Coordinates → Coordinates → ℚ) (k : ℝ) (hk : 0 < k)
    (P : Location → Prop)
    (hd : ∀ (p q : Location) (cp cq : Coordinates), P p → P q →
      p.coordinates = some cp → q.coordinates = some cq →
      dR cp cq = k * (dqf cp cq : ℝ))
    (start : Location) (others : List Location)
    (hs : P start) (hall : ∀ x ∈ others, P x) :
    findFarthestFirstLoopD dR start others
      = findFarthestFirstLoopD dqf start others := by
  simp only [findFarthestFirstLoopD]
  have h0 : pickFarthest dR start others ((none : Option Location),
      (0 : ℝ)) = (fun t : Option Location × ℚ =>
        (t.1, k * (t.2 : ℝ))) (pickFarthest dqf start others
          (none, 0)) := by
    have := pickFarthest_sim dR dqf k hk P hd start hs others none 0
      hall
    simpa using this
  rw [h0]
  cases hpf : pickFarthest dqf start others (none, 0) with
  | mk fst snd =>
    cases fst with
    | none => rfl
    | some farthest =>
      simp only []
      have hfm : farthest ∈ others := by
        rcases pickFarthest_mem dqf start others none 0 farthest snd
            hpf with hm | hm
        · exact hm
        · exact absurd hm (by simp)
      exact restGo_sim dR dqf k hk P hd start hs
        (others.filter (fun loc => !(loc.id == farthest.id))).length
        farthest (others.filter (fun loc => !(loc.id == farthest.id)))
        [start, farthest] (hall farthest hfm)
        (fun x hx => hall x (List.mem_of_mem_filter hx))

theorem loopPairs_mem (l : List Location) (p : Location × Location)
    (hp : p ∈ loopPairs l) : p.1 ∈ l ∧ p.2 ∈ l := by
  cases l with
  | nil => simp [loopPairs] at hp
  | cons x xs =>
    simp only [loopPairs] at hp
    have hz := List.of_mem_zip hp
    refine ⟨hz.1, ?_⟩
    rcases List.mem_append.mp hz.2 with h | h
    · exact List.mem_cons_of_mem x h
    · simp only [List.mem_singleton] at h
      rw [h]
      exact List.mem_cons_self _ _

theorem loopScoreFold_sim (dR : Coordinates → Coordinates → ℝ)
    (dqf : Coordinates → Coordinates → ℚ) (k : ℝ)
    (P : Location → Prop)
    (hd : ∀ (p q : Location) (cp cq : Coordinates), P p → P q →
      p.coordinates = some cp → q.coordinates = some cq →
      dR cp cq = k * (dqf cp cq : ℝ)) :
    ∀ (ps : List (Location × Location)),
      (∀ p ∈ ps, P p.1 ∧ P p.2) → ∀ (t : ℚ),
      ps.foldl (fun total p =>
        match p.1.coordinates, p.2.coordinates with
        | some fc, some tc => total + dR fc tc
        | _, _ => total) (k * (t : ℝ))
      = k * ((ps.foldl (fun total p =>
          match p.1.coordinates, p.2.coordinates with
          | some fc, some tc => total + dqf fc tc
          | _, _ => total) t : ℚ) : ℝ) := by
  intro ps
  induction ps with
  | nil => intro _ t; rfl
  | cons p rest ih =>
    intro hall t
    obtain ⟨hp1, hp2⟩ := hall p (by simp)
    rw [List.foldl_cons, List.foldl_cons]
    cases hc1 : p.1.coordinates with
    | none =>
      cases hc2 : p.2.coordinates with
      | none =>
        simp only []
        exact ih (fun q hq => hall q (by simp [hq])) t
      | some tc =>
        simp only []
        exact ih (fun q hq => hall q (by simp [hq])) t
    | some fc =>
      cases hc2 : p.2.coordinates with
      | none =>
        simp only []
        exact ih (fun q hq => hall q (by simp [hq])) t
      | some tc =>
        simp only []
        rw [hd p.1 p.2 fc tc hp1 hp2 hc1 hc2]
        have hacc : k * (t : ℝ) + k * (dqf fc tc : ℝ)
            = k * ((t + dqf fc tc : ℚ) : ℝ) := by
          push_cast
          ring
        rw [hacc]
        exact ih (fun q hq => hall q (by simp [hq])) (t + dqf fc tc)

theorem calculateCompleteLoopScoreD_sim
    (dR : Coordinates → Coordinates → ℝ)
    (dqf : Coordinates → Coordinates → ℚ) (k : ℝ)
    (P : Location → Prop)
    (hd : ∀ (p q : Location) (cp cq : Coordinates), P p → P q →
      p.coordinates = some cp → q.coordinates = some cq →
      dR cp cq = k * (dqf cp cq : ℝ))
    (l : List Location) (hall : ∀ x ∈ l, P x) :
    calculateCompleteLoopScoreD dR .shortest_distance l
      = k * ((calculateCompleteLoopScoreD dqf .shortest_distance l :
          ℚ) : ℝ) := by
  have h0 : (0 : ℝ) = k * ((0 : ℚ) : ℝ) := by simp
  show (loopPairs l).foldl _ 0 = _
  rw [h0]
  exact loopScoreFold_sim dR dqf k P hd (loopPairs l)
    (fun p hp => ⟨hall p.1 (loopPairs_mem l p hp).1,
      hall p.2 (loopPairs_mem l p hp).2⟩) 0

theorem better_sim (k : ℝ) (hk : 0 < k) (c₁ : List Location) (s : ℚ)
    (b₁ : List Location) (bo : Option ℚ) :
    better (c₁, k * (s : ℝ))
      (b₁, Option.map (fun q : ℚ => k * (q : ℝ)) bo)
      = (fun t : List Location × Option ℚ =>
          (t.1, Option.map (fun q : ℚ => k * (q : ℝ)) t.2))
        (better (c₁, s) (b₁, bo)) := by
  cases bo with
  | none => rfl
  | some bs =>
    simp only [better, Option.map_some']
    by_cases hlt : s < bs
    · rw [if_pos hlt,
        if_pos (mul_lt_mul_of_pos_left
          (show ((s : ℝ)) < (bs : ℝ) by exact_mod_cast hlt) hk)]
      rfl
    · rw [if_neg hlt,
        if_neg (fun hc => hlt (by
          have := lt_of_mul_lt_mul_left hc (le_of_lt hk)
          exact_mod_cast this))]
      rfl

theorem altLoop_sim (dR : Coordinates → Coordinates → ℝ)
    (dqf : Coordinates → Coordinates → ℚ) (k : ℝ) (hk : 0 < k)
    (P : Location → Prop)
    (hd : ∀ (p q : Location) (cp cq : Coordinates), P p → P q →
      p.coordinates = some cp → q.coordinates = some cq →
      dR cp cq = k * (dqf cp cq : ℝ))
    (start : Location) (others : List Location)
    (hs : P start) (hall : ∀ x ∈ others, P x) :
    ∀ (idxs : List ℕ) (bl : List Location) (bo : Option ℚ),
      altLoop dR .shortest_distance start others idxs
        (bl, Option.map (fun q : ℚ => k * (q : ℝ)) bo)
      = Option.map (fun t : List Location × Option ℚ =>
          (t.1, Option.map (fun q : ℚ => k * (q : ℝ)) t.2))
        (altLoop dqf .shortest_distance start others idxs (bl, bo)) := by
  intro idxs
  induction idxs with
  | nil => intro bl bo; rfl
  | cons i rest ihi =>
    intro bl bo
    simp only [altLoop]
    cases hoi : others.get? i with
    | none => rfl
    | some oi =>
      simp only []
      have htest : ∀ x ∈ start :: oi :: others.eraseIdx i, P x := by
        intro x hx
        rcases List.mem_cons.mp hx with rfl | hx
        · exact hs
        rcases List.mem_cons.mp hx with rfl | hx
        · exact hall x (List.get?_mem hoi)
        · exact hall x (List.eraseIdx_subset _ _ hx)
      rw [optimizeFromSecondLocationD_sim dR dqf k hk P hd
        (start :: oi :: others.eraseIdx i) htest]
      cases hre : optimizeFromSecondLocationD dqf
          (start :: oi :: others.eraseIdx i) with
      | none => rfl
      | some reordered =>
        simp only []
        have hreP : ∀ x ∈ reordered, P x := by
          intro x hx
          exact htest x
            ((optimizeFromSecondLocationD_perm dqf _ _ hre).mem_iff.mp
              hx)
        rw [calculateCompleteLoopScoreD_sim dR dqf k P hd reordered
          hreP]
        rw [better_sim k hk reordered
          (calculateCompleteLoopScoreD dqf .shortest_distance reordered)
          bl bo]
        exact ihi (better (reordered,
          calculateCompleteLoopScoreD dqf .shortest_distance reordered)
          (bl, bo)).1
          (better (reordered,
            calculateCompleteLoopScoreD dqf .shortest_distance
              reordered) (bl, bo)).2

theorem loopAware_sim (dR : Coordinates → Coordinates → ℝ)
    (dqf : Coordinates → Coordinates → ℚ) (k : ℝ) (hk : 0 < k)
    (P : Location → Prop)
    (hd : ∀ (p q : Location) (cp cq : Coordinates), P p → P q →
      p.coordinates = some cp → q.coordinates = some cq →
      dR cp cq = k * (dqf cp cq : ℝ))
    (start : Location) (others : List Location)
    (hs : P start) (hall : ∀ x ∈ others, P x) :
    loopAwareOptimizationD dR (start :: others) .shortest_distance
      = loopAwareOptimizationD dqf (start :: others)
          .shortest_distance := by
  simp only [loopAwareOptimizationD]
  rw [findNearestNeighborLoopD_sim dR dqf k hk P hd start others hs
    hall]
  cases hn : findNearestNeighborLoopD dqf .shortest_distance start
      others with
  | none => rfl
  | some nf =>
    simp only []
    have hnfP : ∀ x ∈ nf, P x := by
      intro x hx
      have hperm := findNearestNeighborLoopD_perm dqf
        .shortest_distance start others nf hn
      rcases List.mem_cons.mp (hperm.mem_iff.mp hx) with rfl | hx2
      · exact hs
      · exact hall x hx2
    rw [calculateCompleteLoopScoreD_sim dR dqf k P hd nf hnfP]
    rw [findFarthestFirstLoopD_sim dR dqf k hk P hd start others hs
      hall]
    cases hf : findFarthestFirstLoopD dqf start others with
    | none => rfl
    | some ff =>
      simp only []
      have hffP : ∀ x ∈ ff, P x := by
        intro x hx
        rcases List.mem_cons.mp
            (findFarthestFirstLoopD_subset dqf start others ff hf x hx)
          with rfl | hx2
        · exact hs
        · exact hall x hx2
      rw [calculateCompleteLoopScoreD_sim dR dqf k P hd ff hffP]
      have hb1 : better (nf, k *
          ((calculateCompleteLoopScoreD dqf .shortest_distance nf :
            ℚ) : ℝ)) (start :: others, (none : Option ℝ))
          = ((better (nf,
              calculateCompleteLoopScoreD dqf .shortest_distance nf)
              (start :: others, (none : Option ℚ))).1,
            Option.map (fun q : ℚ => k * (q : ℝ))
              (better (nf,
                calculateCompleteLoopScoreD dqf .shortest_distance nf)
                (start :: others, (none : Option ℚ))).2) := rfl
      rw [hb1]
      rw [better_sim k hk ff
        (calculateCompleteLoopScoreD dqf .shortest_distance ff)
        (better (nf,
          calculateCompleteLoopScoreD dqf .shortest_distance nf)
          (start :: others, (none : Option ℚ))).1
        (better (nf,
          calculateCompleteLoopScoreD dqf .shortest_distance nf)
          (start :: others, (none : Option ℚ))).2]
      simp only []
      rw [altLoop_sim dR dqf k hk P hd start others hs hall
        (List.range (min others.length 3))
        (better (ff,
          calculateCompleteLoopScoreD dqf .shortest_distance ff)
          (better (nf,
            calculateCompleteLoopScoreD dqf .shortest_distance nf)
            (start :: others, (none : Option ℚ)))).1
        (better (ff,
          calculateCompleteLoopScoreD dqf .shortest_distance ff)
          (better (nf,
            calculateCompleteLoopScoreD dqf .shortest_distance nf)
            (start :: others, (none : Option ℚ)))).2]
      cases ha : altLoop dqf .shortest_distance start others
          (List.range (min others.length 3))
          (better (ff,
            calculateCompleteLoopScoreD dqf .shortest_distance ff)
            (better (nf,
              calculateCompleteLoopScoreD dqf .shortest_distance nf)
              (start :: others, (none : Option ℚ)))) with
      | none => rfl
      | some b3 => simp only [Option.map_some']

theorem atan2_sin_sq (t : ℝ) (h0 : 0 ≤ t) (h1 : t < Real.pi / 2) :
    atan2 (Real.sqrt (Real.sin t * Real.sin t))
      (Real.sqrt (1 - Real.sin t * Real.sin t)) = t := by
  have hsin : 0 ≤ Real.sin t :=
    Real.sin_nonneg_of_nonneg_of_le_pi h0 (by nlinarith [Real.pi_pos])
  have hcos : 0 < Real.cos t :=
    Real.cos_pos_of_mem_Ioo ⟨by nlinarith [Real.pi_pos], h1⟩
  have hs1 : Real.sqrt (Real.sin t * Real.sin t) = Real.sin t := by
    rw [← pow_two (Real.sin t)]
    exact Real.sqrt_sq hsin
  have hcos2 : 1 - Real.sin t * Real.sin t = Real.cos t ^ 2 := by
    rw [← pow_two (Real.sin t)]
    linarith [Real.sin_sq_add_cos_sq t]
  have hs2 : Real.sqrt (1 - Real.sin t * Real.sin t) = Real.cos t := by
    rw [hcos2]
    exact Real.sqrt_sq (le_of_lt hcos)
  rw [hs1, hs2]
  simp only [atan2]
  rw [if_pos hcos, ← Real.tan_eq_sin_div_cos]
  exact Real.arctan_tan (by nlinarith [Real.pi_pos]) h1

theorem atan2_cos_sin (w : ℝ) (h0 : 0 < w) (h1 : w < Real.pi / 2) :
    atan2 (Real.cos w) (Real.sin w) = Real.pi / 2 - w := by
  have hsin : 0 < Real.sin w :=
    Real.sin_pos_of_pos_of_lt_pi h0 (by nlinarith [Real.pi_pos])
  simp only [atan2]
  rw [if_pos hsin]
  have htan : Real.cos w / Real.sin w = Real.tan (Real.pi / 2 - w) := by
    rw [Real.tan_pi_div_two_sub, Real.tan_eq_sin_div_cos, inv_div]
  rw [htan]
  exact Real.arctan_tan (by nlinarith [Real.pi_pos])
    (by nlinarith [Real.pi_pos])

/-- Haversine along a meridian: the distance is the Earth radius times
the latitude gap in radians. -/
theorem calculateDistance_same_lon (a b L : ℚ)
    (h : |((b : ℚ) : ℝ) - ((a : ℚ) : ℝ)| < 180) :
    calculateDistance ⟨a, L⟩ ⟨b, L⟩
      = (6371 * Real.pi / 180) * |((b : ℚ) : ℝ) - ((a : ℚ) : ℝ)| := by
  simp only [calculateDistance, degToRad]
  rw [sub_self]
  have hz : ((0 : ℝ) * (Real.pi / 180)) / 2 = 0 := by ring
  rw [hz, Real.sin_zero, mul_zero, mul_zero, add_zero]
  set X := (((b : ℚ) : ℝ) - ((a : ℚ) : ℝ)) * (Real.pi / 180) / 2 with hX
  have habs : Real.sin X * Real.sin X
      = Real.sin |X| * Real.sin |X| := by
    rcases abs_cases X with ⟨h2, h3⟩ | ⟨h2, h3⟩
    · rw [h2]
    · rw [h2, Real.sin_neg]
      ring
  rw [habs]
  have habsX : |X| = |((b : ℚ) : ℝ) - ((a : ℚ) : ℝ)|
      * (Real.pi / 180) / 2 := by
    rw [hX, abs_div, abs_mul,
      abs_of_pos (show (0 : ℝ) < Real.pi / 180 by positivity)]
    norm_num
  have hX2 : |X| < Real.pi / 2 := by
    rw [habsX]
    nlinarith [Real.pi_pos, h,
      abs_nonneg (((b : ℚ) : ℝ) - ((a : ℚ) : ℝ))]
  rw [atan2_sin_sq |X| (abs_nonneg X) hX2, habsX]
  ring

theorem calculateDistance_comm (c1 c2 : Coordinates) :
    calculateDistance c1 c2 = calculateDistance c2 c1 := by
  simp only [calculateDistance, degToRad]
  have h1 : ((c1.latitude : ℝ) - (c2.latitude : ℝ)) * (Real.pi / 180) / 2
      = -(((c2.latitude : ℝ) - (c1.latitude : ℝ)) * (Real.pi / 180) / 2) := by
    ring
  have h2 : ((c1.longitude : ℝ) - (c2.longitude : ℝ)) * (Real.pi / 180) / 2
      = -(((c2.longitude : ℝ) - (c1.longitude : ℝ)) * (Real.pi / 180) / 2) := by
    ring
  rw [h1, h2, Real.sin_neg, Real.sin_neg]
  ring_nf

/-- Haversine across the antimeridian pair of longitudes 0 and 180:
the two meridian arcs join at a pole, giving 180° minus the latitude
sum. -/
theorem calculateDistance_cross_lon (p q : ℚ)
    (h0 : ((p : ℚ) : ℝ) + ((q : ℚ) : ℝ) ≠ 0)
    (h1 : |((p : ℚ) : ℝ) + ((q : ℚ) : ℝ)| < 180) :
    calculateDistance ⟨p, 0⟩ ⟨q, 180⟩
      = (6371 * Real.pi / 180)
        * (180 - |((p : ℚ) : ℝ) + ((q : ℚ) : ℝ)|) := by
  simp only [calculateDistance, degToRad]
  have hl : ((180 : ℚ) : ℝ) - ((0 : ℚ) : ℝ) = 180 := by norm_num
  rw [hl]
  have hl2 : (180 : ℝ) * (Real.pi / 180) / 2 = Real.pi / 2 := by ring
  rw [hl2, Real.sin_pi_div_two, mul_one, mul_one]
  set u := (((p : ℚ) : ℝ) + ((q : ℚ) : ℝ)) * (Real.pi / 180) / 2
    with hu
  have hkey : Real.sin ((((q : ℚ) : ℝ) - ((p : ℚ) : ℝ))
        * (Real.pi / 180) / 2) *
      Real.sin ((((q : ℚ) : ℝ) - ((p : ℚ) : ℝ)) * (Real.pi / 180) / 2) +
      Real.cos (((p : ℚ) : ℝ) * (Real.pi / 180)) *
        Real.cos (((q : ℚ) : ℝ) * (Real.pi / 180))
      = Real.cos u ^ 2 := by
    have hp' : ((p : ℚ) : ℝ) * (Real.pi / 180)
        = u - (((q : ℚ) : ℝ) - ((p : ℚ) : ℝ)) * (Real.pi / 180) / 2 := by
      rw [hu]; ring
    have hq' : ((q : ℚ) : ℝ) * (Real.pi / 180)
        = u + (((q : ℚ) : ℝ) - ((p : ℚ) : ℝ)) * (Real.pi / 180) / 2 := by
      rw [hu]; ring
    rw [hp', hq', Real.cos_add, Real.cos_sub]
    set v := (((q : ℚ) : ℝ) - ((p : ℚ) : ℝ)) * (Real.pi / 180) / 2
    have hsv := Real.sin_sq_add_cos_sq v
    have hsu := Real.sin_sq_add_cos_sq u
    linear_combination (Real.cos u ^ 2) * hsv - (Real.sin v ^ 2) * hsu
  rw [hkey]
  have habsu : |u| = |((p : ℚ) : ℝ) + ((q : ℚ) : ℝ)|
      * (Real.pi / 180) / 2 := by
    rw [hu, abs_div, abs_mul,
      abs_of_pos (show (0 : ℝ) < Real.pi / 180 by positivity)]
    norm_num
  have hubound : |u| < Real.pi / 2 := by
    rw [habsu]
    nlinarith [Real.pi_pos, h1,
      abs_nonneg (((p : ℚ) : ℝ) + ((q : ℚ) : ℝ))]
  have hune : u ≠ 0 := by
    rw [hu]
    intro hC
    rcases div_eq_zero_iff.mp hC with h2 | h2
    · rcases mul_eq_zero.mp h2 with h3 | h3
      · exact h0 h3
      · exact absurd h3 (by positivity)
    · norm_num at h2
  have hcosu : 0 ≤ Real.cos u := by
    rw [← Real.cos_abs]
    exact le_of_lt (Real.cos_pos_of_mem_Ioo
      ⟨by nlinarith [abs_nonneg u, Real.pi_pos], hubound⟩)
  have hs1 : Real.sqrt (Real.cos u ^ 2) = Real.cos u :=
    Real.sqrt_sq hcosu
  have h1mc : 1 - Real.cos u ^ 2 = Real.sin u ^ 2 := by
    linarith [Real.sin_sq_add_cos_sq u]
  have habs_sin : |Real.sin u| = Real.sin |u| := by
    rcases abs_cases u with ⟨h2, h3⟩ | ⟨h2, h3⟩
    · rw [h2]
      exact abs_of_nonneg (Real.sin_nonneg_of_nonneg_of_le_pi h3
        (by nlinarith [Real.pi_pos, hubound, h2]))
    · rw [h2, Real.sin_neg]
      have h4 : 0 ≤ Real.sin (-u) :=
        Real.sin_nonneg_of_nonneg_of_le_pi (by linarith)
          (by nlinarith [Real.pi_pos, hubound, h2])
      have h5 : Real.sin u ≤ 0 := by
        have := Real.sin_neg u
        linarith
      rw [abs_of_nonpos h5]
  have hs2 : Real.sqrt (1 - Real.cos u ^ 2) = Real.sin |u| := by
    rw [h1mc, Real.sqrt_sq_eq_abs, habs_sin]
  rw [hs1, hs2, ← Real.cos_abs]
  rw [atan2_cos_sin |u| (abs_pos.mpr hune) hubound, habsu]
  ring

set_option allowUnsafeReducibility true in
attribute [local semireducible] Rat.add Rat.mul Rat.inv Rat.sub Rat.neg in
theorem hd_concrete : ∀ (p q : Location) (cp cq : Coordinates),
    p ∈ ([gA, gB, gC, gD] : List Location) →
    q ∈ ([gA, gB, gC, gD] : List Location) →
    p.coordinates = some cp → q.coordinates = some cq →
    calculateDistance cp cq
      = (6371 * Real.pi / 180) * ((dq cp cq : ℚ) : ℝ) := by
  intro p q cp cq hp hq hcp hcq
  simp only [List.mem_cons, List.not_mem_nil, or_false] at hp hq
  rcases hp with rfl | rfl | rfl | rfl <;>
    rcases hq with rfl | rfl | rfl | rfl <;>
    simp only [gA, gB, gC, gD, Option.some.injEq] at hcp hcq <;>
    subst hcp <;> subst hcq
  · rw [calculateDistance_self,
      show dq ⟨-20, 0⟩ ⟨-20, 0⟩ = (0 : ℚ) from by decide]
    norm_num
  · rw [show dq ⟨-20, 0⟩ ⟨-10, 0⟩ = (10 : ℚ) from by decide,
      calculateDistance_same_lon (-20) (-10) 0 (by norm_num)]
    norm_num
  · rw [show dq ⟨-20, 0⟩ ⟨80, 180⟩ = (120 : ℚ) from by decide,
      calculateDistance_cross_lon (-20) 80 (by norm_num) (by norm_num)]
    norm_num
  · rw [show dq ⟨-20, 0⟩ ⟨-70, 180⟩ = (90 : ℚ) from by decide,
      calculateDistance_cross_lon (-20) (-70) (by norm_num) (by norm_num)]
    norm_num
  · rw [show dq ⟨-10, 0⟩ ⟨-20, 0⟩ = (10 : ℚ) from by decide,
      calculateDistance_same_lon (-10) (-20) 0 (by norm_num)]
    norm_num
  · rw [calculateDistance_self,
      show dq ⟨-10, 0⟩ ⟨-10, 0⟩ = (0 : ℚ) from by decide]
    norm_num
  · rw [show dq ⟨-10, 0⟩ ⟨80, 180⟩ = (110 : ℚ) from by decide,
      calculateDistance_cross_lon (-10) 80 (by norm_num) (by norm_num)]
    norm_num
  · rw [show dq ⟨-10, 0⟩ ⟨-70, 180⟩ = (100 : ℚ) from by decide,
      calculateDistance_cross_lon (-10) (-70) (by norm_num) (by norm_num)]
    norm_num
  · rw [calculateDistance_comm,
      show dq ⟨80, 180⟩ ⟨-20, 0⟩ = (120 : ℚ) from by decide,
      calculateDistance_cross_lon (-20) 80 (by norm_num) (by norm_num)]
    norm_num
  · rw [calculateDistance_comm,
      show dq ⟨80, 180⟩ ⟨-10, 0⟩ = (110 : ℚ) from by decide,
      calculateDistance_cross_lon (-10) 80 (by norm_num) (by norm_num)]
    norm_num
  · rw [calculateDistance_self,
      show dq ⟨80, 180⟩ ⟨80, 180⟩ = (0 : ℚ) from by decide]
    norm_num
  · rw [show dq ⟨80, 180⟩ ⟨-70, 180⟩ = (150 : ℚ) from by decide,
      calculateDistance_same_lon 80 (-70) 180 (by norm_num)]
    norm_num
  · rw [calculateDistance_comm,
      show dq ⟨-70, 180⟩ ⟨-20, 0⟩ = (90 : ℚ) from by decide,
      calculateDistance_cross_lon (-20) (-70) (by norm_num) (by norm_num)]
    norm_num
  · rw [calculateDistance_comm,
      show dq ⟨-70, 180⟩ ⟨-10, 0⟩ = (100 : ℚ) from by decide,
      calculateDistance_cross_lon (-10) (-70) (by norm_num) (by norm_num)]
    norm_num
  · rw [show dq ⟨-70, 180⟩ ⟨80, 180⟩ = (150 : ℚ) from by decide,
      calculateDistance_same_lon (-70) 80 180 (by norm_num)]
    norm_num
  · rw [calculateDistance_self,
      show dq ⟨-70, 180⟩ ⟨-70, 180⟩ = (0 : ℚ) from by decide]
    norm_num

set_option allowUnsafeReducibility true in
attribute [local semireducible] Rat.add Rat.mul Rat.inv Rat.sub Rat.neg in
theorem c8Q_nf : findNearestNeighborLoopD (K := ℚ) dq
    .shortest_distance gA [gB, gC, gD] = some [gA, gB, gD, gC] := by
  decide

/-- The loop-aware race on the four great-circle stops, under the real
haversine distance, decides exactly as under the rational
central-angle surrogate. -/
theorem c8R_run : loopAwareOptimization [gA, gB, gC, gD]
    .shortest_distance = some [gA, gB, gD, gC] := by
  have hk : (0 : ℝ) < 6371 * Real.pi / 180 := by positivity
  have hsim := loopAware_sim calculateDistance dq (6371 * Real.pi / 180)
    hk (fun loc => loc ∈ ([gA, gB, gC, gD] : List Location))
    hd_concrete gA [gB, gC, gD] (by decide) (by decide)
  show loopAwareOptimizationD calculateDistance [gA, gB, gC, gD]
    .shortest_distance = some [gA, gB, gD, gC]
  rw [hsim]
  exact c8Q_run

theorem c8R_nf : findNearestNeighborLoop .shortest_distance gA
    [gB, gC, gD] = some [gA, gB, gD, gC] := by
  have hk : (0 : ℝ) < 6371 * Real.pi / 180 := by positivity
  have hsim := findNearestNeighborLoopD_sim calculateDistance dq
    (6371 * Real.pi / 180) hk
    (fun loc => loc ∈ ([gA, gB, gC, gD] : List Location))
    hd_concrete gA [gB, gC, gD] (by decide) (by decide)
  show findNearestNeighborLoopD calculateDistance .shortest_distance gA
    [gB, gC, gD] = some [gA, gB, gD, gC]
  rw [hsim]
  exact c8Q_nf

theorem c8R_scores :
    calculateCompleteLoopScore [gA, gB, gC, gD] .shortest_distance <
      calculateCompleteLoopScore [gA, gB, gD, gC] .shortest_distance := by
  have hk : (0 : ℝ) < 6371 * Real.pi / 180 := by positivity
  have h1 := calculateCompleteLoopScoreD_sim calculateDistance dq
    (6371 * Real.pi / 180)
    (fun loc => loc ∈ ([gA, gB, gC, gD] : List Location))
    hd_concrete [gA, gB, gC, gD] (by decide)
  have h2 := calculateCompleteLoopScoreD_sim calculateDistance dq
    (6371 * Real.pi / 180)
    (fun loc => loc ∈ ([gA, gB, gC, gD] : List Location))
    hd_concrete [gA, gB, gD, gC] (by decide)
  show calculateCompleteLoopScoreD calculateDistance .shortest_distance
      [gA, gB, gC, gD] <
    calculateCompleteLoopScoreD calculateDistance .shortest_distance
      [gA, gB, gD, gC]
  rw [h1, h2, c8Q_scores.1, c8Q_scores.2]
  exact mul_lt_mul_of_pos_left (by norm_num) hk

/-- C8 counterexample: four stops on one great circle forming a convex
quadrilateral, in loop mode — the loop-aware optimization picks an
order whose complete-loop score (380° of arc) is strictly GREATER than
the unoptimized input order's (360° of arc), because the input order
is never scored: it only seeds the race and is displaced by the first
strategy. -/
theorem c8_counterexample :
    ([gA, gB, gC, gD] : List Location).length = 4 ∧
    ConvexQuad [gA, gB, gC, gD] ∧
    loopAwareOptimization [gA, gB, gC, gD] .shortest_distance
      = some [gA, gB, gD, gC] ∧
    calculateCompleteLoopScore [gA, gB, gC, gD] .shortest_distance <
      calculateCompleteLoopScore [gA, gB, gD, gC] .shortest_distance :=
  ⟨by decide, c8Q_convex, c8R_run, c8R_scores⟩

theorem c8_loop_aware_witness :
    ([gA, gB, gC, gD] : List Location).length = 4 ∧
    ConvexQuad [gA, gB, gC, gD] ∧
    loopAwareOptimization [gA, gB, gC, gD] .shortest_distance
      = some [gA, gB, gD, gC] ∧
    findNearestNeighborLoop .shortest_distance gA [gB, gC, gD]
      = some [gA, gB, gD, gC] ∧
    calculateCompleteLoopScore [gA, gB, gD, gC] .shortest_distance ≤
      calculateCompleteLoopScore [gA, gB, gD, gC] .shortest_distance :=
  ⟨by decide, c8Q_convex, c8R_run, c8R_nf,
    (c8_loop_aware .shortest_distance gA [gB, gC, gD] [gA, gB, gD, gC]
      (by decide) c8Q_convex c8R_run).1 [gA, gB, gD, gC] c8R_nf⟩

set_option allowUnsafeReducibility true in
attribute [local semireducible] Rat.add Rat.mul Rat.inv Rat.sub Rat.neg in
theorem c10Q_run : loopAwareOptimizationD (K := ℚ) dq locations9
    .shortest_distance = some dropped9 := by
  decide

/-- Every stop of the duplicate-id run carries one of three concrete
coordinates. -/
theorem c10_coords : ∀ p ∈ locations9,
    ∃ c ∈ ([⟨0, 0⟩, ⟨30, 180⟩, ⟨-80, 0⟩] : List Coordinates),
      p.coordinates = some c := by
  decide

set_option allowUnsafeReducibility true in
attribute [local semireducible] Rat.add Rat.mul Rat.inv Rat.sub Rat.neg in
theorem dq_coords :
    ∀ cp ∈ ([⟨0, 0⟩, ⟨30, 180⟩, ⟨-80, 0⟩] : List Coordinates),
    ∀ cq ∈ ([⟨0, 0⟩, ⟨30, 180⟩, ⟨-80, 0⟩] : List Coordinates),
      calculateDistance cp cq
        = (6371 * Real.pi / 180) * ((dq cp cq : ℚ) : ℝ) := by
  intro cp hp cq hq
  simp only [List.mem_cons, List.not_mem_nil, or_false] at hp hq
  rcases hp with rfl | rfl | rfl <;> rcases hq with rfl | rfl | rfl
  · rw [calculateDistance_self,
      show dq ⟨0, 0⟩ ⟨0, 0⟩ = (0 : ℚ) from by decide]
    norm_num
  · rw [show dq ⟨0, 0⟩ ⟨30, 180⟩ = (150 : ℚ) from by decide,
      calculateDistance_cross_lon 0 30 (by norm_num) (by norm_num)]
    norm_num
  · rw [show dq ⟨0, 0⟩ ⟨-80, 0⟩ = (80 : ℚ) from by decide,
      calculateDistance_same_lon 0 (-80) 0 (by norm_num)]
    norm_num
  · rw [calculateDistance_comm,
      show dq ⟨30, 180⟩ ⟨0, 0⟩ = (150 : ℚ) from by decide,
      calculateDistance_cross_lon 0 30 (by norm_num) (by norm_num)]
    norm_num
  · rw [calculateDistance_self,
      show dq ⟨30, 180⟩ ⟨30, 180⟩ = (0 : ℚ) from by decide]
    norm_num
  · rw [calculateDistance_comm,
      show dq ⟨30, 180⟩ ⟨-80, 0⟩ = (130 : ℚ) from by decide,
      calculateDistance_cross_lon (-80) 30 (by norm_num) (by norm_num)]
    norm_num
  · rw [show dq ⟨-80, 0⟩ ⟨0, 0⟩ = (80 : ℚ) from by decide,
      calculateDistance_same_lon (-80) 0 0 (by norm_num)]
    norm_num
  · rw [show dq ⟨-80, 0⟩ ⟨30, 180⟩ = (130 : ℚ) from by decide,
      calculateDistance_cross_lon (-80) 30 (by norm_num) (by norm_num)]
    norm_num
  · rw [calculateDistance_self,
      show dq ⟨-80, 0⟩ ⟨-80, 0⟩ = (0 : ℚ) from by decide]
    norm_num

/-- On the nine stops of the duplicate-id run, the real haversine
distance is the same fixed positive multiple of the rational
central-angle surrogate. -/
theorem hd9 : ∀ (p q : Location) (cp cq : Coordinates),
    p ∈ locations9 → q ∈ locations9 →
    p.coordinates = some cp → q.coordinates = some cq →
    calculateDistance cp cq
      = (6371 * Real.pi / 180) * ((dq cp cq : ℚ) : ℝ) := by
  intro p q cp cq hp hq hcp hcq
  obtain ⟨c1, hc1m, hc1⟩ := c10_coords p hp
  obtain ⟨c2, hc2m, hc2⟩ := c10_coords q hq
  rw [hcp] at hc1
  rw [hcq] at hc2
  injection hc1 with hc1
  injection hc2 with hc2
  subst hc1
  subst hc2
  exact dq_coords _ hc1m _ hc2m

/-- In loop mode the nine-stop duplicate-id run takes the loop-aware
path, which decides as under the rational surrogate and returns the
farthest-first order with `gF2` dropped. -/
theorem c10R_run : nearestNeighborOptimization locations9
    .shortest_distance true = some dropped9 := by
  have hk : (0 : ℝ) < 6371 * Real.pi / 180 := by positivity
  have hsim := loopAware_sim calculateDistance dq (6371 * Real.pi / 180)
    hk (fun loc => loc ∈ locations9) hd9 gS
    [g1, g2, g3, g4, g5, g6, gF1, gF2] (by decide) (by decide)
  show loopAwareOptimizationD calculateDistance
    (gS :: [g1, g2, g3, g4, g5, g6, gF1, gF2]) .shortest_distance
    = some dropped9
  rw [hsim]
  exact c10Q_run

/-- The full sequencer on the nine-stop duplicate-id run: all stops
unlocked, so the merge step interleaves nothing back and the returned
order still misses `gF2`. -/
theorem c10R_opt : optimizeLocationOrder envFail emptySegState locations9
    .shortest_distance true .car = some (dropped9, emptySegState) := by
  have hfu : locations9.filter (fun loc => !(loc.isLocked == some true))
      = locations9 := by decide
  have hnn := c10R_run
  simp only [optimizeLocationOrder, hfu]
  rw [if_neg (show ¬(locations9.length ≤ 2) from by decide)]
  rw [if_neg (show ¬(locations9.length = 0) from by decide)]
  rw [if_neg (show ¬(locations9.length ≤ 8) from by decide)]
  rw [hnn]
  simp only [Option.map_some']
  rfl

/-- C10 counterexample, two runs.  (i) With every stop locked, the
sequencer takes the all-locked sort branch, and a locked stop whose
position index (5) is not below the stop count (3) is returned in the
output rather than omitted — so unconditional omission is false.
(ii) Nine unlocked located stops in loop mode, two of which share the
id `GF`: every locked-stop hypothesis holds vacuously, yet the output
omits the stop `gF2`, because the farthest-first strategy filters its
remaining candidates by id and its order wins the race — so the
containment half genuinely needs pairwise-distinct ids. -/
theorem c10_counterexample :
    (lkBad.isLocked = some true ∧
      (∃ k : ℤ, lkBad.order = some k ∧
        (([lkA, lkB, lkBad] : List Location).length : ℤ) ≤ k) ∧
      optimizeLocationOrder envFail emptySegState [lkA, lkB, lkBad]
        .shortest_distance false .car
        = some ([lkB, lkA, lkBad], emptySegState) ∧
      lkBad ∈ ([lkB, lkA, lkBad] : List Location)) ∧
    (¬ (locations9.map (fun loc => loc.id)).Nodup ∧
      (∀ l ∈ locations9, ¬ l.coordinates = none) ∧
      (∀ l ∈ locations9, ¬ l.isLocked = some true) ∧
      optimizeLocationOrder envFail emptySegState locations9
        .shortest_distance true .car = some (dropped9, emptySegState) ∧
      gF2 ∈ locations9 ∧ gF2 ∉ dropped9) :=
  ⟨⟨rfl, ⟨5, rfl, by decide⟩, rfl, by decide⟩,
    by decide, by decide, by decide, c10R_opt, by decide, by decide⟩

end RouteOpt
